import Mathlib

/-!
# burgic/appcheck: leaderboard scrapers

A shallow embedding of the scraping programs of the repository
(`appstore.go`, `appstore3.go`, `appstore4.go`, `appleapp.go`,
`appstoremulti1.go`, `appstoremulti3.go`) and the properties of their
rank-name parser, text normalizer, extractors and CSV sinks.

Go strings are modelled as lists of Unicode code points (`GoString`); the
programs only ever handle text decoded from HTML documents.  Every program
is a separate `package main`; the definitions of each one live in a
namespace named after its file.
-/

set_option autoImplicit false
set_option linter.unusedVariables false

deriving instance DecidableEq for Except

/-! ## Go standard library: `unicode`, `strings`, `strconv` -/

/-- Go strings, as the sequence of their code points. -/
abbrev GoString := List Char

/-- Go `unicode.IsSpace`: the Latin-1 switch, then the `White_Space` range table. -/
def isSpace (c : Char) : Bool :=
  let r := c.toNat
  if r ≤ 0xFF then
    r = 0x09 || r = 0x0A || r = 0x0B || r = 0x0C || r = 0x0D || r = 0x20 || r = 0x85 || r = 0xA0
  else
    r = 0x1680 || (0x2000 ≤ r && r ≤ 0x200A) || r = 0x2028 || r = 0x2029 || r = 0x202F
      || r = 0x205F || r = 0x3000

/-- Go `strings.TrimSpace`: drop the leading and the trailing white space. -/
def TrimSpace (s : GoString) : GoString :=
  (s.dropWhile isSpace).rdropWhile isSpace

/-- Go `strings.Cut` for a one-character separator: the text before and after its first
occurrence, `none` when the separator does not occur. -/
def cut (sep : Char) : GoString → Option (GoString × GoString)
  | [] => none
  | c :: cs =>
    if c = sep then some ([], cs)
    else match cut sep cs with
      | none => none
      | some (a, b) => some (c :: a, b)

/-- Go `strings.SplitN(s, sep, n)` for a one-character separator and `n ≥ 0`: at most `n`
pieces, the last one being the unsplit remainder. -/
def SplitN (s : GoString) (sep : Char) : Nat → List GoString
  | 0 => []
  | 1 => [s]
  | n + 2 =>
    match cut sep s with
    | none => [s]
    | some (a, b) => a :: SplitN b sep (n + 1)

/-- Test whether `s` begins with `p` (Go `strings.HasPrefix`). -/
def startsWith : GoString → GoString → Bool
  | [], _ => true
  | _ :: _, [] => false
  | p :: ps, c :: cs => p = c && startsWith ps cs

/-- Go `strings.Contains(s, substr)`. -/
def Contains : GoString → GoString → Bool
  | [], sub => sub.isEmpty
  | c :: cs, sub => startsWith sub (c :: cs) || Contains cs sub

/-- The value of an ASCII decimal digit, `none` for any other character. -/
def digitVal (c : Char) : Option Nat :=
  if 48 ≤ c.toNat ∧ c.toNat ≤ 57 then some (c.toNat - 48) else none

/-- A character is an ASCII decimal digit. -/
def isDigit (c : Char) : Prop := 48 ≤ c.toNat ∧ c.toNat ≤ 57

instance (c : Char) : Decidable (isDigit c) := by
  unfold isDigit; infer_instance

/-- The unsigned decimal value of a string of digits read left to right, starting from `acc`;
`none` at the first character that is not a digit. -/
def parseDigits : GoString → Nat → Option Nat
  | [], acc => some acc
  | c :: cs, acc =>
    match digitVal c with
    | none => none
    | some d => parseDigits cs (acc * 10 + d)

/-- Go `strconv.Atoi` on a 64-bit platform: an optional sign, then one or more ASCII digits;
`none` stands for a non-nil error (syntax error, or a value outside the `int` range). -/
def Atoi (s : GoString) : Option Int :=
  let neg := s.head? = some '-'
  let body := if s.head? = some '-' ∨ s.head? = some '+' then s.tail else s
  if body = [] then none
  else match parseDigits body 0 with
    | none => none
    | some un =>
      if ¬ neg ∧ un ≥ 2 ^ 63 then none
      else if neg ∧ un > 2 ^ 63 then none
      else some (if neg then - (un : Int) else (un : Int))

/-- The decimal digits of a natural number, most significant first (`fuel` bounds the number
of digits produced). -/
def natDigits : Nat → Nat → GoString → GoString
  | 0, _, acc => acc
  | fuel + 1, n, acc =>
    let acc := Char.ofNat (48 + n % 10) :: acc
    if n / 10 = 0 then acc else natDigits fuel (n / 10) acc

/-- Go `strconv.Itoa`: the decimal text of an integer, with a leading `-` when negative. -/
def Itoa (i : Int) : GoString :=
  if i < 0 then '-' :: natDigits (i.natAbs + 1) i.natAbs []
  else natDigits (i.natAbs + 1) i.natAbs []

/-! ## `appstore.go`, `appstore3.go`, `appstore4.go`: the list-mode scrapers -/

/-- The `AppInfo` record of `appstore.go`, `appstore3.go` and `appstore4.go`. -/
structure AppInfo where
  Rank : GoString
  Name : GoString
  Pricing : GoString
  Developer : GoString
  deriving DecidableEq, Repr

/-- The function `scrapeAppBlock` (the same text in `appstore.go`, `appstore3.go` and
`appstore4.go`), as a function of the text of the `a.s-4262409-0` elements of the block. The
second component is the `valid` flag. -/
def scrapeAppBlock (linkText : GoString) : AppInfo × Bool :=
  let app : AppInfo := ⟨[], [], [], []⟩
  let rankAndNameText := TrimSpace linkText
  if rankAndNameText = [] then (app, false)
  else
    let rankAndNameParts := SplitN rankAndNameText '.' 2
    if rankAndNameParts.length ≠ 2 then (app, false)
    else
      let app := { app with Rank := TrimSpace (rankAndNameParts.getD 0 []) }
      let app := { app with Name := TrimSpace (rankAndNameParts.getD 1 []) }
      (app, true)

/-- The anonymous function that `scrapeTopApps` of `appstore.go` and `appstore4.go` runs on
every matched block through `appBlocks.Each`; `threshold` is 70 in `appstore.go` and 100
in `appstore4.go`. A `return` inside it ends the visit of the current block only. -/
def eachBlock (threshold : Int) (apps : List AppInfo) (block : GoString) : List AppInfo :=
  let (app, valid) := scrapeAppBlock block
  if !valid then apps
  else
    match Atoi app.Rank with
    | none => apps
    | some rank =>
      if rank > threshold then apps
      else apps ++ [app]

namespace Appstore

/-- The function `scrapeTopApps` of `appstore.go`. The argument is what `fetchPage` and
`doc.Find("div.s445742525-0")` deliver: an error, or the link text of every matched block in
document order. -/
def scrapeTopApps (page : Except String (List GoString)) : List AppInfo :=
  match page with
  | .error _ => []
  | .ok appBlocks =>
    if appBlocks.length = 0 then []
    else appBlocks.foldl (eachBlock 70) []

end Appstore

namespace Appstore4

/-- The function `scrapeTopApps` of `appstore4.go`: the same loop after a headless-browser
fetch, with the threshold 100. -/
def scrapeTopApps (page : Except String (List GoString)) : List AppInfo :=
  match page with
  | .error _ => []
  | .ok appBlocks =>
    if appBlocks.length = 0 then []
    else appBlocks.foldl (eachBlock 100) []

end Appstore4

namespace Appstore3

/-- The function `parseAppsFromHTML` of `appstore3.go`, on the link texts of the blocks that
`doc.Find("div.s445742525-0")` matches in the parsed document. -/
def parseAppsFromHTML (appBlocks : List GoString) : List AppInfo :=
  appBlocks.foldl
    (fun apps block =>
      let (app, valid) := scrapeAppBlock block
      if valid then apps ++ [app] else apps)
    []

end Appstore3

/-! ## `appstoremulti3.go`: the text normalizer -/

/-- The text that follows an opened `<!--`: the remainder after the first `-->` reached
without crossing a line break (`.` of the regular expression does not match `\n`), `none`
when there is no such `-->`. -/
def closeComment : GoString → Option GoString
  | [] => none
  | c :: cs =>
    if startsWith "-->".toList (c :: cs) then some (cs.drop 2)
    else if c = '\n' then none
    else closeComment cs

/-- The scan of `ReplaceAllString` for `<!--.*?-->`: at every position the leftmost, shortest
match is dropped and the scan goes on behind it; `fuel` bounds the number of steps. -/
def replaceAllComments : Nat → GoString → GoString
  | 0, s => s
  | _ + 1, [] => []
  | fuel + 1, c :: cs =>
    if startsWith "<!--".toList (c :: cs) then
      match closeComment (cs.drop 3) with
      | some rest => replaceAllComments fuel rest
      | none => c :: replaceAllComments fuel cs
    else c :: replaceAllComments fuel cs

/-- The call `cleanupRegex.ReplaceAllString(text, "")` with
`cleanupRegex = regexp.MustCompile("<!--.*?-->")`. Every step of the scan consumes a
character, so the length of the text is enough fuel. -/
def cleanupRegex_ReplaceAllString (text : GoString) : GoString :=
  replaceAllComments text.length text

/-- The pieces of a text between its white space characters, the empty ones included. -/
def splitSpace : GoString → List GoString
  | [] => [[]]
  | c :: cs =>
    if isSpace c then [] :: splitSpace cs
    else
      match splitSpace cs with
      | [] => [[c]]
      | t :: ts => (c :: t) :: ts

/-- Go `strings.Fields`: the maximal runs of characters that are not white space. -/
def Fields (s : GoString) : List GoString :=
  (splitSpace s).filter (fun t => !t.isEmpty)

/-- A list of tokens as `strings.Fields` returns them: none is empty and none holds white
space. -/
def GoodTokens (toks : List GoString) : Prop :=
  ∀ t ∈ toks, t ≠ [] ∧ ∀ c ∈ t, isSpace c = false

instance (toks : List GoString) : Decidable (GoodTokens toks) := by
  unfold GoodTokens; infer_instance

/-- Go `strings.Join`. -/
def Join : List GoString → GoString → GoString
  | [], _ => []
  | [t], _ => t
  | t :: u :: ts, sep => t ++ sep ++ Join (u :: ts) sep

namespace Appstoremulti3

/-- The function `cleanText` of `appstoremulti3.go`. -/
def cleanText (text : GoString) : GoString :=
  let text := cleanupRegex_ReplaceAllString text
  let text := Join (Fields text) " ".toList
  TrimSpace text

end Appstoremulti3

/-- A text contains an HTML comment: `<!--`, followed later by `-->`. -/
def HasComment (s : GoString) : Prop :=
  ∃ a m b : GoString, s = a ++ "<!--".toList ++ m ++ "-->".toList ++ b

/-- The executable test for `HasComment`: at some position the text begins with `<!--` and
holds `-->` behind it. -/
def hasComment : GoString → Bool
  | [] => false
  | c :: cs =>
    (startsWith "<!--".toList (c :: cs) && Contains (cs.drop 3) "-->".toList) || hasComment cs

/-! ## The CSV sinks -/

/-- One CSV record: the list of its fields. -/
abbrev Row := List GoString

/-- The part of the disk a sink touches: whether the `results` directory exists, and the
records of the CSV file (`none` when the file does not exist). Every record takes at least
its line break in the file, so the file has size zero exactly when it has no record. -/
structure Disk where
  dir : Bool
  file : Option (List Row)
  deriving DecidableEq, Repr

/-- Which of the system calls of one `saveToCSV` call fail: `os.MkdirAll`, the opening of the
file, `os.Stat` or `file.Stat`, and `fileWrite`: the opened file takes no write, every write
to it fails (a full disk). -/
structure Faults where
  mkdirAll : Bool
  openFile : Bool
  stat : Bool
  fileWrite : Bool
  deriving DecidableEq, Repr

/-- No call fails. -/
def Faults.none : Faults := ⟨false, false, false, false⟩

/-- The number of bytes of a Go string: the length of its UTF-8 encoding. -/
def byteLen (s : GoString) : Nat := (s.map Char.utf8Size).sum

/-- The method `fieldNeedsQuotes` of `encoding/csv`, the delimiter being the comma. -/
def fieldNeedsQuotes (field : GoString) : Bool :=
  if field = [] then false
  else if field = ['\\', '.'] then true
  else if field.any (fun c => c == '\n' || c == '\r' || c == '"' || c == ',') then true
  else
    match field with
    | [] => false
    | r1 :: _ => isSpace r1

/-- The text `csv.Writer.Write` writes for one field (`UseCRLF` is false): the field itself,
or the field between two quotes with every quote in it doubled; a line feed or a carriage
return of the field is written as it is. -/
def csvField (field : GoString) : GoString :=
  if fieldNeedsQuotes field then
    ['"'] ++ field.flatMap (fun c => if c = '"' then ['"', '"'] else [c]) ++ ['"']
  else field

/-- The text `csv.Writer.Write` writes for one record: the fields with commas between them,
and a line feed. -/
def csvLine (record : Row) : GoString := Join (record.map csvField) [','] ++ ['\n']

/-- The text of a file that holds the given records. -/
def fileText (rows : List Row) : GoString := rows.flatMap csvLine

/-- The number of lines of a text that ends with a line feed (as every text of `fileText`
does, unless it is empty): the number of its line feeds. -/
def lineCount (text : GoString) : Nat := text.count '\n'

/-- The number of line feeds inside the fields of the given records. -/
def fieldLineFeeds (rows : List Row) : Nat :=
  (rows.map (fun r => (r.map (List.count '\n')).sum)).sum

/-- The size of the buffer of the `bufio.Writer` inside a `csv.Writer`. -/
def bufSize : Nat := 4096

/-- The `csv.Writer` of one `saveToCSV` call. It writes through a `bufio.Writer` of `bufSize`
bytes, which writes to the file only when the buffer is full and more bytes come, and at
`Flush`. `records` are the records handed to `Write` without an error, `pending` the
number of their bytes, and `err` the error of the `bufio.Writer`, which stays once it is
set. -/
structure CsvWriter where
  records : List Row
  pending : Nat
  err : Bool
  deriving DecidableEq, Repr

/-- The function `csv.NewWriter`. -/
def CsvWriter.NewWriter : CsvWriter := ⟨[], 0, false⟩

/-- The method `csv.Writer.Write`: the writer after the call, and whether the call returns
an error. It does when an earlier write of the buffer failed, or when the file takes no
write and the bytes of the record do not fit in the buffer beside the ones before. On a file
that takes writes the call returns no error. -/
def CsvWriter.Write (f : Faults) (w : CsvWriter) (record : Row) : CsvWriter × Bool :=
  if w.err then (w, true)
  else if f.fileWrite && decide (bufSize < w.pending + byteLen (csvLine record)) then
    ({ w with err := true }, true)
  else
    ({ w with records := w.records ++ [record],
              pending := w.pending + byteLen (csvLine record) }, false)

/-- The deferred `writer.Flush()` followed by `file.Close()`: the records of the file when the
call is over, `file` being the records it had when it was opened. The file is opened for
appending or is empty, so the records of the writer come after the ones of the file; on a
file that takes no write nothing comes. `Flush` returns nothing and no program asks
`writer.Error()`, so a write that fails here is not seen by the program. -/
def CsvWriter.Flush (f : Faults) (w : CsvWriter) (file : List Row) : List Row :=
  if f.fileWrite then file else file ++ w.records

namespace Appleapp

/-- The `AppInfo` record of `appleapp.go`. -/
structure AppInfo where
  Name : GoString
  FinanceRank : GoString
  Timestamp : GoString
  deriving DecidableEq, Repr

/-- The header row of `appleapp.go`. -/
def headers : Row := ["Name".toList, "Rank".toList, "Timestamp".toList]

/-- The function `saveToCSV` of `appleapp.go`. `Except.error` is a `log.Fatalf`: the process
ends; `Except.ok` is a normal return, with the disk as the call leaves it. -/
def saveToCSV (app : AppInfo) (disk : Disk) (f : Faults) : Except String Disk :=
  if !disk.dir && f.mkdirAll then .error "Failed to create directory"
  else
    let fileExists := disk.file.isSome && !f.stat
    if f.openFile then .error "Failed to open file"
    else
      let file := disk.file.getD []
      let writer := CsvWriter.NewWriter
      let w := if !fileExists then writer.Write f headers else (writer, false)
      if w.2 then .error "Error writing CSV headers"
      else
        let record : Row := [app.Name, app.FinanceRank, app.Timestamp]
        let w := w.1.Write f record
        if w.2 then .error "Error writing record to CSV"
        else .ok { dir := true, file := some (w.1.Flush f file) }

/-- Successive runs of the program, each one appending its record to the same file. -/
def saveAll : List AppInfo → Disk → Except String Disk
  | [], disk => .ok disk
  | app :: apps, disk =>
    match saveToCSV app disk Faults.none with
    | .error e => .error e
    | .ok disk => saveAll apps disk

end Appleapp

namespace Appstoremulti1

/-- The `AppInfo` record of `appstoremulti1.go`. -/
structure AppInfo where
  Timestamp : GoString
  US_CoinbaseRank : GoString
  US_OKXRank : GoString
  US_TrustRank : GoString
  UK_CoinbaseRank : GoString
  UK_OKXRank : GoString
  UK_TrustRank : GoString
  deriving DecidableEq, Repr

/-- The `a.s-4262409-0` link of one matched block: its text, and its `title` attribute when
it has one. -/
structure AppLink where
  text : GoString
  title : Option GoString
  deriving DecidableEq, Repr

/-- The anonymous function of the second `Each` loop of `scrapeTopApps`: the visit of one
block, `pfx` being the `prefix` argument of `scrapeTopApps`. -/
def eachBlock (pfx : GoString) (appData : AppInfo) (appLink : AppLink) : AppInfo :=
  let rankAndNameText := TrimSpace appLink.text
  let title := appLink.title.getD []
  let rankAndNameParts := SplitN rankAndNameText '.' 2
  if rankAndNameParts.length ≠ 2 then appData
  else
    let rank := TrimSpace (rankAndNameParts.getD 0 [])
    let name := TrimSpace (rankAndNameParts.getD 1 [])
    if Contains name "Coinbase".toList || Contains title "Coinbase".toList then
      if pfx = "US".toList then { appData with US_CoinbaseRank := rank }
      else if pfx = "UK".toList then { appData with UK_CoinbaseRank := rank }
      else appData
    else if Contains name "OKX".toList || Contains title "OKX".toList then
      if pfx = "US".toList then { appData with US_OKXRank := rank }
      else if pfx = "UK".toList then { appData with UK_OKXRank := rank }
      else appData
    else if Contains name "Trust".toList || Contains title "Trust".toList then
      if pfx = "US".toList then { appData with US_TrustRank := rank }
      else if pfx = "UK".toList then { appData with UK_TrustRank := rank }
      else appData
    else appData

/-- The function `scrapeTopApps` of `appstoremulti1.go`. `page` is what the browser session
and `doc.Find("div.s-1362551351-0")` deliver: an error (navigation, scrolling, extraction or
parsing failed), or the links of the matched blocks in document order. -/
def scrapeTopApps (page : Except String (List AppLink)) (country : GoString)
    (appData : AppInfo) (pfx : GoString) : AppInfo :=
  match page with
  | .error _ => appData
  | .ok blocks => blocks.foldl (eachBlock pfx) appData

/-- The header row of `appstoremulti1.go`. -/
def headers : Row :=
  ["Timestamp".toList, "US_CoinbaseRank".toList, "US_OKXRank".toList, "US_TrustRank".toList,
    "UK_CoinbaseRank".toList, "UK_OKXRank".toList, "UK_TrustRank".toList]

/-- The file name `saveToCSV` of `appstoremulti1.go` writes to and returns. -/
def filename : GoString := "results/apps_ranks.csv".toList

/-- The function `saveToCSV` of `appstoremulti1.go`. `Except.error` is a `log.Fatalf`;
`Except.ok` is a normal return of the file name, with the disk as the call leaves it. An
error of the write of the record is only logged. -/
def saveToCSV (appData : AppInfo) (disk : Disk) (f : Faults) : Except String (Disk × GoString) :=
  if f.mkdirAll then .error "Failed to create results directory"
  else if f.openFile then .error "Failed to open file"
  else
    let file := disk.file.getD []
    let writer := CsvWriter.NewWriter
    if f.stat then .error "Failed to get file info"
    else
      let w := if file.length = 0 then writer.Write f headers else (writer, false)
      if w.2 then .error "Error writing CSV headers"
      else
        let record : Row :=
          [appData.Timestamp, appData.US_CoinbaseRank, appData.US_OKXRank, appData.US_TrustRank,
            appData.UK_CoinbaseRank, appData.UK_OKXRank, appData.UK_TrustRank]
        let w := w.1.Write f record
        .ok ({ dir := true, file := some (w.1.Flush f file) }, filename)

/-- Successive runs of the program, each one appending its record to the same file. -/
def saveAll : List AppInfo → Disk → Except String Disk
  | [], disk => .ok disk
  | appData :: more, disk =>
    match saveToCSV appData disk Faults.none with
    | .error e => .error e
    | .ok (disk, _) => saveAll more disk

end Appstoremulti1

/-! ## The identity-matching loops of `appstoremulti1.go` and `appstoremulti3.go` -/

/-- The tracked identities, in the order of the cases of the `switch`. -/
inductive Identity where
  | Coinbase
  | OKX
  | Trust
  deriving DecidableEq, Repr

/-- The case of the `switch` of the identity-matching loops that an entry takes: the first of
`Coinbase`, `OKX`, `Trust` that its name or its title contains, `none` when the `switch` has
no case for it. -/
def matchedIdentity (name title : GoString) : Option Identity :=
  if Contains name "Coinbase".toList || Contains title "Coinbase".toList then some .Coinbase
  else if Contains name "OKX".toList || Contains title "OKX".toList then some .OKX
  else if Contains name "Trust".toList || Contains title "Trust".toList then some .Trust
  else none

/-- The rank and the name that the loops take from a cleaned link text: the two parts of
`strings.SplitN(text, ".", 2)`, each trimmed; `none` when there are not two parts. -/
def rankAndName (text : GoString) : Option (GoString × GoString) :=
  let parts := SplitN text '.' 2
  if parts.length ≠ 2 then none
  else some (TrimSpace (parts.getD 0 []), TrimSpace (parts.getD 1 []))

namespace Appstoremulti1

/-- The identity and the rank that one visit of the loop of `appstoremulti1.go` records for a
link, `none` when the visit records nothing. -/
def entryOf (appLink : AppLink) : Option (Identity × GoString) :=
  match rankAndName (TrimSpace appLink.text) with
  | none => none
  | some (rank, name) =>
    match matchedIdentity name (appLink.title.getD []) with
    | none => none
    | some id => some (id, rank)

/-- The rank field of `AppInfo` for a country prefix and an identity; for a prefix other than
`US` and `UK` there is no such field and the value is the empty string. -/
def rankField (pfx : GoString) (id : Identity) (d : AppInfo) : GoString :=
  if pfx = "US".toList then
    match id with
    | .Coinbase => d.US_CoinbaseRank
    | .OKX => d.US_OKXRank
    | .Trust => d.US_TrustRank
  else if pfx = "UK".toList then
    match id with
    | .Coinbase => d.UK_CoinbaseRank
    | .OKX => d.UK_OKXRank
    | .Trust => d.UK_TrustRank
  else []

end Appstoremulti1

namespace Appstoremulti3

/-- The `AppInfo` record of `appstoremulti3.go`. -/
structure AppInfo where
  Timestamp : GoString
  Date : GoString
  Time : GoString
  US_iOS_CoinbaseRank : GoString
  US_iOS_OKXRank : GoString
  US_iOS_TrustRank : GoString
  UK_iOS_CoinbaseRank : GoString
  UK_iOS_OKXRank : GoString
  UK_iOS_TrustRank : GoString
  US_Play_CoinbaseRank : GoString
  US_Play_OKXRank : GoString
  US_Play_TrustRank : GoString
  UK_Play_CoinbaseRank : GoString
  UK_Play_OKXRank : GoString
  UK_Play_TrustRank : GoString
  deriving DecidableEq, Repr

/-- One `a.s-4262409-0` link of the page: its text, and its `title` attribute when it has
one. -/
structure AppLink where
  text : GoString
  title : Option GoString
  deriving DecidableEq, Repr

/-- The anonymous function of the second `Each` loop of `scrapeTopApps` of
`appstoremulti3.go`: the visit of one link, `pfx` being the `prefix` argument. -/
def eachLink (store pfx : GoString) (appData : AppInfo) (s : AppLink) : AppInfo :=
  let rankAndNameText := cleanText s.text
  let title := s.title.getD []
  let rankAndNameParts := SplitN rankAndNameText '.' 2
  if rankAndNameParts.length ≠ 2 then appData
  else
    let rank := TrimSpace (rankAndNameParts.getD 0 [])
    let name := TrimSpace (rankAndNameParts.getD 1 [])
    if Contains name "Coinbase".toList || Contains title "Coinbase".toList then
      if pfx = "US".toList then
        if store = "ios".toList then { appData with US_iOS_CoinbaseRank := rank }
        else { appData with US_Play_CoinbaseRank := rank }
      else
        if store = "ios".toList then { appData with UK_iOS_CoinbaseRank := rank }
        else { appData with UK_Play_CoinbaseRank := rank }
    else if Contains name "OKX".toList || Contains title "OKX".toList then
      if pfx = "US".toList then
        if store = "ios".toList then { appData with US_iOS_OKXRank := rank }
        else { appData with US_Play_OKXRank := rank }
      else
        if store = "ios".toList then { appData with UK_iOS_OKXRank := rank }
        else { appData with UK_Play_OKXRank := rank }
    else if Contains name "Trust".toList || Contains title "Trust".toList then
      if pfx = "US".toList then
        if store = "ios".toList then { appData with US_iOS_TrustRank := rank }
        else { appData with US_Play_TrustRank := rank }
      else
        if store = "ios".toList then { appData with UK_iOS_TrustRank := rank }
        else { appData with UK_Play_TrustRank := rank }
    else appData

/-- The function `scrapeTopApps` of `appstoremulti3.go`. `page` is what the browser session
and `doc.Find("a.s-4262409-0")` deliver: an error, or the links of the page in document
order. -/
def scrapeTopApps (page : Except String (List AppLink)) (country store : GoString)
    (appData : AppInfo) (pfx : GoString) : AppInfo :=
  match page with
  | .error _ => appData
  | .ok links => links.foldl (eachLink store pfx) appData

/-- The identity and the rank that one visit of the loop of `appstoremulti3.go` records for a
link, `none` when the visit records nothing. -/
def entryOf (s : AppLink) : Option (Identity × GoString) :=
  match rankAndName (cleanText s.text) with
  | none => none
  | some (rank, name) =>
    match matchedIdentity name (s.title.getD []) with
    | none => none
    | some id => some (id, rank)

/-- The rank field of `AppInfo` that a call with the arguments `store` and `pfx` writes for an
identity: the `US` fields for the prefix `US` and the `UK` fields for any other prefix, the
`iOS` fields for the store `ios` and the `Play` fields for any other store. -/
def rankField (store pfx : GoString) (id : Identity) (d : AppInfo) : GoString :=
  if pfx = "US".toList then
    if store = "ios".toList then
      match id with
      | .Coinbase => d.US_iOS_CoinbaseRank
      | .OKX => d.US_iOS_OKXRank
      | .Trust => d.US_iOS_TrustRank
    else
      match id with
      | .Coinbase => d.US_Play_CoinbaseRank
      | .OKX => d.US_Play_OKXRank
      | .Trust => d.US_Play_TrustRank
  else
    if store = "ios".toList then
      match id with
      | .Coinbase => d.UK_iOS_CoinbaseRank
      | .OKX => d.UK_iOS_OKXRank
      | .Trust => d.UK_iOS_TrustRank
    else
      match id with
      | .Coinbase => d.UK_Play_CoinbaseRank
      | .OKX => d.UK_Play_OKXRank
      | .Trust => d.UK_Play_TrustRank

/-- The constants `DateHeader`, `TimeHeader`. -/
def timestampHeaders : Row := ["Date".toList, "Time".toList]

/-- The row `append(timestampHeaders, emptySlice...)` with `emptySlice = make([]string, 12)`. -/
def timestampRow : Row := timestampHeaders ++ List.replicate 12 []

/-- The row `storeHeaders`. -/
def storeHeaders : Row :=
  [[], [],
    "United States - iOS App Store".toList, [], [],
    "United Kingdom - iOS App Store".toList, [], [],
    "United States - Google Play Store".toList, [], [],
    "United Kingdom - Google Play Store".toList, [], []]

/-- The row `appHeaders`. -/
def appHeaders : Row :=
  [[], [],
    "Coinbase".toList, "OKX".toList, "Trust Wallet".toList,
    "Coinbase".toList, "OKX".toList, "Trust Wallet".toList,
    "Coinbase".toList, "OKX".toList, "Trust Wallet".toList,
    "Coinbase".toList, "OKX".toList, "Trust Wallet".toList]

/-- The data row of `saveToCSV` of `appstoremulti3.go`. -/
def record (appData : AppInfo) : Row :=
  [appData.Date, appData.Time,
    appData.US_iOS_CoinbaseRank, appData.US_iOS_OKXRank, appData.US_iOS_TrustRank,
    appData.UK_iOS_CoinbaseRank, appData.UK_iOS_OKXRank, appData.UK_iOS_TrustRank,
    appData.US_Play_CoinbaseRank, appData.US_Play_OKXRank, appData.US_Play_TrustRank,
    appData.UK_Play_CoinbaseRank, appData.UK_Play_OKXRank, appData.UK_Play_TrustRank]

/-- The file name `saveToCSV` of `appstoremulti3.go` writes to and returns. -/
def filename : GoString := "results/apps_ranks.csv".toList

/-- The writer of `saveToCSV` of `appstoremulti3.go` after the header rows, `file` being the
records of the opened file: the four header rows are written when the file is empty, and
the results of these four writes are not looked at. -/
def writeHeaderRows (f : Faults) (file : List Row) : CsvWriter :=
  let writer := CsvWriter.NewWriter
  if file.length = 0 then
    let writer := (writer.Write f []).1
    let writer := (writer.Write f timestampRow).1
    let writer := (writer.Write f storeHeaders).1
    (writer.Write f appHeaders).1
  else writer

/-- The function `saveToCSV` of `appstoremulti3.go`. `Except.error` is a `log.Fatalf`;
`Except.ok` is a normal return of the file name, with the disk as the call leaves it. An
error of the write of the record is only logged. -/
def saveToCSV (appData : AppInfo) (disk : Disk) (f : Faults) : Except String (Disk × GoString) :=
  if f.mkdirAll then .error "Failed to create results directory"
  else if f.openFile then .error "Failed to open file"
  else
    let file := disk.file.getD []
    if f.stat then .error "Failed to get file info"
    else
      let w := (writeHeaderRows f file).Write f (record appData)
      .ok ({ dir := true, file := some (w.1.Flush f file) }, filename)

/-- Whether a call of `saveToCSV` of `appstoremulti3.go` that gets to the data row logs
`Error writing app record`: the write of the data row returned an error. -/
def recordErrorLogged (appData : AppInfo) (disk : Disk) (f : Faults) : Bool :=
  ((writeHeaderRows f (disk.file.getD [])).Write f (record appData)).2

end Appstoremulti3

/-! ## The sinks and the fetch steps of the list-mode programs -/

namespace Appstore

/-- The header row of `appstore.go`. -/
def headers : Row := ["Rank".toList, "Name".toList, "Pricing".toList, "Developer".toList]

/-- The loop `for _, app := range apps` of `saveToCSV` of `appstore.go`: the writer after the
loop, and the records whose write returned an error, which is logged with `log.Printf`
before the loop goes on; `logged` are the records logged so far. -/
def writeRecords (f : Faults) : List AppInfo → CsvWriter → List Row → CsvWriter × List Row
  | [], writer, logged => (writer, logged)
  | app :: apps, writer, logged =>
    let record : Row := [app.Rank, app.Name]
    let w := writer.Write f record
    writeRecords f apps w.1 (if w.2 then logged ++ [record] else logged)

/-- The function `saveToCSV` of `appstore.go`; `timestamp` is the formatted `time.Now()` of
the file name, and `os.Create` empties the file. `Except.error` is a `log.Fatalf`;
`Except.ok` is a normal return of the file name, with the disk as the call leaves it. -/
def saveToCSV (apps : List AppInfo) (timestamp : GoString) (disk : Disk) (f : Faults) :
    Except String (Disk × GoString) :=
  let filename := "results/apps_".toList ++ timestamp ++ ".csv".toList
  if f.mkdirAll then .error "Failed to create results directory"
  else if f.openFile then .error "Failed to create file"
  else
    let w := CsvWriter.NewWriter.Write f headers
    if w.2 then .error "Error writing CSV headers"
    else
      let w := writeRecords f apps w.1 []
      .ok ({ dir := true, file := some (w.1.Flush f []) }, filename)

/-- The records for which a call of `saveToCSV` of `appstore.go` that gets to the loop logs
`Error writing app record`. -/
def loggedRecords (apps : List AppInfo) (f : Faults) : List Row :=
  (writeRecords f apps (CsvWriter.NewWriter.Write f headers).1 []).2

end Appstore

namespace Appstore3

/-- The function `scrapeTopAppsWithScroll` of `appstore3.go`. `page` is what the browser
session delivers for the country: an error, or the link texts of the blocks of the rendered
page. `Except.error` is the `log.Fatalf` that ends the process. -/
def scrapeTopAppsWithScroll (page : Except String (List GoString)) (country : GoString) :
    Except String (List AppInfo) :=
  match page with
  | .error _ => .error "Failed to load the page"
  | .ok appBlocks => .ok (parseAppsFromHTML appBlocks)

/-- The loop `for _, country := range countries` of `main` of `appstore3.go`; `saved` are the
calls of `saveToCSV` made so far, each with its country and its list of apps. A country is
saved before the next one is fetched, so the `log.Fatalf` that ends the process
(`Except.error`) comes with the calls made before it. -/
def mainLoop (fetch : GoString → Except String (List GoString)) :
    List GoString → List (GoString × List AppInfo) →
      Except (String × List (GoString × List AppInfo)) (List (GoString × List AppInfo))
  | [], saved => .ok saved
  | country :: countries, saved =>
    match scrapeTopAppsWithScroll (fetch country) country with
    | .error e => .error (e, saved)
    | .ok apps => mainLoop fetch countries (saved ++ [(country, apps)])

/-- The function `main` of `appstore3.go`, with its two countries. -/
def main (fetch : GoString → Except String (List GoString)) :
    Except (String × List (GoString × List AppInfo)) (List (GoString × List AppInfo)) :=
  mainLoop fetch ["united-states".toList, "united-kingdom".toList] []

end Appstore3

namespace Appleapp

/-- The function `scrapeAppPage` of `appleapp.go`. `page` is what `fetchPage` delivers: an
error, or the text of the title element and the text of the rank links; `now` is the formatted
`time.Now()`. `Except.error` is the `log.Fatalf` that ends the process. -/
def scrapeAppPage (page : Except String (GoString × GoString)) (now : GoString) :
    Except String AppInfo :=
  match page with
  | .error _ => .error "Error fetching page"
  | .ok (nameText, rankText) =>
    .ok { Name := TrimSpace nameText, FinanceRank := TrimSpace rankText, Timestamp := now }

/-- The function `main` of `appleapp.go`: scrape the page, then save the record. -/
def main (page : Except String (GoString × GoString)) (now : GoString) (disk : Disk)
    (f : Faults) : Except String Disk :=
  match scrapeAppPage page now with
  | .error e => .error e
  | .ok app => saveToCSV app disk f

end Appleapp

/-- Every `<` of the text opens a comment: it is followed by `!--`. -/
def everyLtOpensComment : GoString → Bool
  | [] => true
  | c :: cs => (c != '<' || startsWith "!--".toList cs) && everyLtOpensComment cs

/-! ## The sinks of `appstore3.go` and `appstore4.go` -/

namespace Appstore3

/-- The header row of `appstore3.go`. -/
def headers : Row := ["Rank".toList, "Name".toList, "Pricing".toList, "Developer".toList]

/-- The loop `for _, app := range apps` of `saveToCSV` of `appstore3.go`: the writer after the
loop, and the records whose write returned an error, which is logged with `log.Printf`
before the loop goes on; `logged` are the records logged so far. -/
def writeRecords (f : Faults) : List AppInfo → CsvWriter → List Row → CsvWriter × List Row
  | [], writer, logged => (writer, logged)
  | app :: apps, writer, logged =>
    let record : Row := [app.Rank, app.Name, app.Pricing, app.Developer]
    let w := writer.Write f record
    writeRecords f apps w.1 (if w.2 then logged ++ [record] else logged)

/-- The function `saveToCSV` of `appstore3.go`; `timestamp` is the formatted `time.Now()` of
the file name, and `os.Create` empties the file. `Except.error` is a `log.Fatalf`;
`Except.ok` is a normal return of the file name, with the disk as the call leaves it. -/
def saveToCSV (apps : List AppInfo) (country timestamp : GoString) (disk : Disk) (f : Faults) :
    Except String (Disk × GoString) :=
  let filename :=
    "results/apps_".toList ++ country ++ "_".toList ++ timestamp ++ ".csv".toList
  if f.mkdirAll then .error "Failed to create results directory"
  else if f.openFile then .error "Failed to create file"
  else
    let w := CsvWriter.NewWriter.Write f headers
    if w.2 then .error "Error writing CSV headers"
    else
      let w := writeRecords f apps w.1 []
      .ok ({ dir := true, file := some (w.1.Flush f []) }, filename)

end Appstore3

namespace Appstore4

/-- The header row of `appstore4.go`. -/
def headers : Row := ["Rank".toList, "Name".toList, "Pricing".toList, "Developer".toList]

/-- The loop `for _, app := range apps` of `saveToCSV` of `appstore4.go`: the writer after the
loop, and the records whose write returned an error, which is logged with `log.Printf`
before the loop goes on; `logged` are the records logged so far. -/
def writeRecords (f : Faults) : List AppInfo → CsvWriter → List Row → CsvWriter × List Row
  | [], writer, logged => (writer, logged)
  | app :: apps, writer, logged =>
    let record : Row := [app.Rank, app.Name, app.Pricing, app.Developer]
    let w := writer.Write f record
    writeRecords f apps w.1 (if w.2 then logged ++ [record] else logged)

/-- The function `saveToCSV` of `appstore4.go`, the same text as in `appstore3.go`. -/
def saveToCSV (apps : List AppInfo) (country timestamp : GoString) (disk : Disk) (f : Faults) :
    Except String (Disk × GoString) :=
  let filename :=
    "results/apps_".toList ++ country ++ "_".toList ++ timestamp ++ ".csv".toList
  if f.mkdirAll then .error "Failed to create results directory"
  else if f.openFile then .error "Failed to create file"
  else
    let w := CsvWriter.NewWriter.Write f headers
    if w.2 then .error "Error writing CSV headers"
    else
      let w := writeRecords f apps w.1 []
      .ok ({ dir := true, file := some (w.1.Flush f []) }, filename)

end Appstore4

/-! ## Lemmas on the string functions -/

theorem dropWhile_append_cons_neg {α : Type} (p : α → Bool) (u v : List α) (x : α)
    (hx : p x = false) : (u ++ x :: v).dropWhile p = u.dropWhile p ++ x :: v := by
  induction u with
  | nil => simp [List.dropWhile_cons, hx]
  | cons c cs ih =>
    by_cases hc : p c = true
    · simp [List.dropWhile_cons, hc, ih]
    · simp [List.dropWhile_cons, hc]

theorem rdropWhile_append_cons_neg {α : Type} (p : α → Bool) (a b : List α) (x : α)
    (hx : p x = false) : (a ++ x :: b).rdropWhile p = a ++ x :: b.rdropWhile p := by
  unfold List.rdropWhile
  have h : (a ++ x :: b).reverse = b.reverse ++ x :: a.reverse := by simp
  rw [h, dropWhile_append_cons_neg p _ _ x hx]
  simp

theorem rdropWhile_cons_neg {α : Type} (p : α → Bool) (b : List α) (x : α)
    (hx : p x = false) : (x :: b).rdropWhile p = x :: b.rdropWhile p :=
  rdropWhile_append_cons_neg p [] b x hx

theorem rdropWhile_cons_pos {α : Type} (p : α → Bool) (b : List α) (x : α)
    (hx : p x = true) :
    (x :: b).rdropWhile p = if (b.rdropWhile p).isEmpty then [] else x :: b.rdropWhile p := by
  unfold List.rdropWhile
  rw [List.reverse_cons, List.dropWhile_append]
  by_cases h : List.dropWhile p b.reverse = []
  · simp [h, hx]
  · simp [h]

theorem dropWhile_rdropWhile_comm {α : Type} (p : α → Bool) (l : List α) :
    (l.rdropWhile p).dropWhile p = (l.dropWhile p).rdropWhile p := by
  induction l with
  | nil => simp [List.rdropWhile]
  | cons c cs ih =>
    by_cases hc : p c = true
    · rw [rdropWhile_cons_pos p cs c hc, List.dropWhile_cons, if_pos hc]
      by_cases h : cs.rdropWhile p = []
      · rw [if_pos (by simp [h])]
        have h2 : cs.dropWhile p = [] := by
          rw [List.dropWhile_eq_nil_iff]; exact List.rdropWhile_eq_nil_iff.mp h
        simp [h2, List.rdropWhile]
      · rw [if_neg (by simpa using h), List.dropWhile_cons, if_pos hc, ih]
    · have hc' : p c = false := by simpa using hc
      rw [rdropWhile_cons_neg p cs c hc', List.dropWhile_cons, if_neg hc, List.dropWhile_cons,
        if_neg hc, rdropWhile_cons_neg p cs c hc']

theorem TrimSpace_eq_self (s : GoString) (h : ∀ c ∈ s, isSpace c = false) : TrimSpace s = s := by
  unfold TrimSpace
  have h1 : s.dropWhile isSpace = s := by
    cases s with
    | nil => rfl
    | cons c cs => simp [List.dropWhile_cons, h c (List.mem_cons_self _ _)]
  rw [h1, List.rdropWhile_eq_self_iff]
  intro hl
  simpa using h _ (List.getLast_mem hl)

theorem TrimSpace_rdropWhile (s : GoString) :
    TrimSpace (s.rdropWhile isSpace) = TrimSpace s := by
  unfold TrimSpace
  rw [dropWhile_rdropWhile_comm, List.rdropWhile_idempotent]

theorem TrimSpace_cons_space (c : Char) (s : GoString) (hc : isSpace c = true) :
    TrimSpace (c :: s) = TrimSpace s := by
  unfold TrimSpace
  rw [List.dropWhile_cons, if_pos hc]

theorem cut_append_sep (sep : Char) (a b : GoString) (ha : sep ∉ a) :
    cut sep (a ++ sep :: b) = some (a, b) := by
  induction a with
  | nil => simp [cut]
  | cons c cs ih =>
    have hc : c ≠ sep := fun h => ha (by simp [h])
    have hcs : sep ∉ cs := fun h => ha (List.mem_cons_of_mem _ h)
    simp [cut, hc, ih hcs]

theorem cut_eq_none (sep : Char) (s : GoString) (h : sep ∉ s) : cut sep s = none := by
  induction s with
  | nil => rfl
  | cons c cs ih =>
    have hc : c ≠ sep := fun e => h (by simp [e])
    have hcs : sep ∉ cs := fun e => h (List.mem_cons_of_mem _ e)
    simp [cut, hc, ih hcs]

theorem cut_eq_some (sep : Char) (s a b : GoString) (h : cut sep s = some (a, b)) :
    s = a ++ sep :: b ∧ sep ∉ a := by
  induction s generalizing a b with
  | nil => simp [cut] at h
  | cons c cs ih =>
    unfold cut at h
    by_cases hc : c = sep
    · simp [hc] at h
      obtain ⟨rfl, rfl⟩ := h
      simp [hc]
    · simp only [hc, if_false] at h
      cases hcut : cut sep cs with
      | none => simp [hcut] at h
      | some ab =>
        obtain ⟨a', b'⟩ := ab
        simp [hcut] at h
        obtain ⟨rfl, rfl⟩ := h
        obtain ⟨h1, h2⟩ := ih a' b' hcut
        refine ⟨by simp [h1], ?_⟩
        simp only [List.mem_cons, not_or]
        exact ⟨fun e => hc e.symm, h2⟩

/-! ## `strconv`: `Atoi` reads back what `Itoa` prints -/

theorem digitChar_toNat (d : Nat) (hd : d < 10) : (Char.ofNat (48 + d)).toNat = 48 + d := by
  revert d; decide

theorem digitVal_digitChar (d : Nat) (hd : d < 10) : digitVal (Char.ofNat (48 + d)) = some d := by
  unfold digitVal
  rw [digitChar_toNat d hd]
  simp
  omega

theorem isDigit_not_space (c : Char) (h : isDigit c) : isSpace c = false := by
  obtain ⟨h1, h2⟩ := h
  unfold isSpace
  simp only [show c.toNat ≤ 0xFF by omega, if_true]
  simp
  omega

theorem isDigit_ne (c d : Char) (h : isDigit c) (hd : d.toNat < 48 ∨ 57 < d.toNat) : c ≠ d := by
  rintro rfl
  obtain ⟨h1, h2⟩ := h
  omega

theorem parseDigits_append (xs ys : GoString) (a : Nat) :
    parseDigits (xs ++ ys) a = (parseDigits xs a).bind (parseDigits ys) := by
  induction xs generalizing a with
  | nil => rfl
  | cons c cs ih =>
    simp only [List.cons_append, parseDigits]
    cases digitVal c with
    | none => rfl
    | some d => exact ih _

theorem natDigits_spec (fuel n : Nat) (acc : GoString) (h : n < fuel) :
    ∃ ds : GoString, natDigits fuel n acc = ds ++ acc ∧ ds ≠ [] ∧ (∀ c ∈ ds, isDigit c) ∧
      ∀ a, parseDigits ds a = some (a * 10 ^ ds.length + n) := by
  induction fuel generalizing n acc with
  | zero => omega
  | succ f ih =>
    have hd : n % 10 < 10 := Nat.mod_lt _ (by decide)
    have hdig : isDigit (Char.ofNat (48 + n % 10)) := by
      unfold isDigit; rw [digitChar_toNat _ hd]; omega
    unfold natDigits
    by_cases h0 : n / 10 = 0
    · refine ⟨[Char.ofNat (48 + n % 10)], by simp [h0], by simp, by simpa using hdig, ?_⟩
      intro a
      simp only [parseDigits, digitVal_digitChar _ hd, List.length_singleton, pow_one]
      congr 1
      omega
    · obtain ⟨ds, h1, h2, h3, h4⟩ := ih (n / 10) (Char.ofNat (48 + n % 10) :: acc) (by omega)
      refine ⟨ds ++ [Char.ofNat (48 + n % 10)], by simp [h0, h1], by simp, ?_, ?_⟩
      · intro c hc
        rcases List.mem_append.mp hc with hc | hc
        · exact h3 c hc
        · rw [List.mem_singleton.mp hc]; exact hdig
      · intro a
        rw [parseDigits_append, h4 a]
        simp only [Option.some_bind, parseDigits, digitVal_digitChar _ hd, List.length_append,
          List.length_singleton, pow_succ]
        congr 1
        have := Nat.div_add_mod n 10
        nlinarith [this]

theorem Itoa_spec (i : Int) :
    ∃ ds : GoString, ds ≠ [] ∧ (∀ c ∈ ds, isDigit c) ∧ parseDigits ds 0 = some i.natAbs ∧
      Itoa i = if i < 0 then '-' :: ds else ds := by
  obtain ⟨ds, h1, h2, h3, h4⟩ := natDigits_spec (i.natAbs + 1) i.natAbs [] (by omega)
  refine ⟨ds, h2, h3, by simpa using h4 0, ?_⟩
  unfold Itoa
  rw [h1]
  simp

theorem Atoi_Itoa (i : Int) (hlo : -2 ^ 63 ≤ i) (hhi : i < 2 ^ 63) : Atoi (Itoa i) = some i := by
  obtain ⟨ds, h1, h2, h3, h4⟩ := Itoa_spec i
  obtain ⟨c, cs, rfl⟩ := List.exists_cons_of_ne_nil h1
  have hc := h2 c (List.mem_cons_self _ _)
  have hm : c ≠ '-' := isDigit_ne c '-' hc (by decide)
  have hp : c ≠ '+' := isDigit_ne c '+' hc (by decide)
  rw [h4]
  unfold Atoi
  by_cases hneg : i < 0
  · simp only [hneg, if_true, List.head?_cons, true_or, List.tail_cons]
    simp only [h3]
    simp
    refine ⟨by omega, ?_⟩
    rw [abs_of_neg hneg]; omega
  · simp only [hneg, if_false, List.head?_cons, Option.some.injEq, hm, hp, or_self]
    simp only [h3]
    simp
    refine ⟨by omega, by omega⟩

theorem Itoa_no_space (i : Int) : ∀ c ∈ Itoa i, isSpace c = false := by
  obtain ⟨ds, _, h2, _, h4⟩ := Itoa_spec i
  rw [h4]
  intro c hc
  split at hc
  · rcases List.mem_cons.mp hc with rfl | hc
    · decide
    · exact isDigit_not_space c (h2 c hc)
  · exact isDigit_not_space c (h2 c hc)

theorem Itoa_no_period (i : Int) : '.' ∉ Itoa i := by
  obtain ⟨ds, _, h2, _, h4⟩ := Itoa_spec i
  rw [h4]
  intro hc
  split at hc
  · rcases List.mem_cons.mp hc with h | hc
    · exact absurd h (by decide)
    · exact isDigit_ne _ '.' (h2 _ hc) (by decide) rfl
  · exact isDigit_ne _ '.' (h2 _ hc) (by decide) rfl

theorem Itoa_ne_nil (i : Int) : Itoa i ≠ [] := by
  obtain ⟨ds, h1, _, _, h4⟩ := Itoa_spec i
  rw [h4]
  split <;> simp [h1]

theorem TrimSpace_rank_name (rank rest : GoString) (h0 : rank ≠ [])
    (hr : ∀ c ∈ rank, isSpace c = false) :
    TrimSpace (rank ++ '.' :: rest) = rank ++ '.' :: rest.rdropWhile isSpace := by
  obtain ⟨c, cs, rfl⟩ := List.exists_cons_of_ne_nil h0
  unfold TrimSpace
  rw [List.cons_append, List.dropWhile_cons, if_neg (by simp [hr c (List.mem_cons_self _ _)]),
    ← List.cons_append, rdropWhile_append_cons_neg isSpace _ _ '.' (by decide)]

theorem scrapeAppBlock_rank_name (rank rest : GoString) (h0 : rank ≠ [])
    (hr : ∀ c ∈ rank, isSpace c = false) (hp : '.' ∉ rank) :
    scrapeAppBlock (rank ++ '.' :: rest) = (⟨rank, TrimSpace rest, [], []⟩, true) := by
  unfold scrapeAppBlock
  simp only [TrimSpace_rank_name rank rest h0 hr]
  rw [if_neg (by simp)]
  have hs : SplitN (rank ++ '.' :: rest.rdropWhile isSpace) '.' 2
      = [rank, rest.rdropWhile isSpace] := by
    simp [SplitN, cut_append_sep '.' rank _ hp]
  simp only [hs]
  simp [TrimSpace_eq_self rank hr, TrimSpace_rdropWhile]

/-- C1: for every Go `int` value `i` and every name, the text `"<i>. <name>"` is accepted by
`scrapeAppBlock`, the returned `Rank` is the decimal text of `i`, which `strconv.Atoi` (as
called by `scrapeTopApps`) converts back to `i`, and the returned `Name` is the name with its
surrounding white space removed. -/
theorem C1_rank_name_parser_roundtrip (i : Int) (name : GoString)
    (hlo : -2 ^ 63 ≤ i) (hhi : i < 2 ^ 63) :
    scrapeAppBlock (Itoa i ++ ". ".toList ++ name) = (⟨Itoa i, TrimSpace name, [], []⟩, true)
      ∧ Atoi (scrapeAppBlock (Itoa i ++ ". ".toList ++ name)).1.Rank = some i := by
  have h : scrapeAppBlock (Itoa i ++ ". ".toList ++ name)
      = (⟨Itoa i, TrimSpace name, [], []⟩, true) := by
    have e : Itoa i ++ ". ".toList ++ name = Itoa i ++ '.' :: ' ' :: name := by
      simp
    rw [e, scrapeAppBlock_rank_name (Itoa i) (' ' :: name) (Itoa_ne_nil i) (Itoa_no_space i)
      (Itoa_no_period i), TrimSpace_cons_space ' ' name (by decide)]
  refine ⟨h, ?_⟩
  rw [h]
  exact Atoi_Itoa i hlo hhi

theorem C1_rank_name_parser_roundtrip_witness :
    scrapeAppBlock "12.   Coinbase: Buy Bitcoin & Ether  ".toList
        = (⟨"12".toList, "Coinbase: Buy Bitcoin & Ether".toList, [], []⟩, true)
      ∧ Atoi (scrapeAppBlock "12.   Coinbase: Buy Bitcoin & Ether  ".toList).1.Rank = some 12 :=
  C1_rank_name_parser_roundtrip 12 "  Coinbase: Buy Bitcoin & Ether  ".toList
    (by decide) (by decide)

/-! ## The rank-name parser in terms of the first period of the raw text -/

theorem cut_eq_none_iff (sep : Char) (s : GoString) : cut sep s = none ↔ sep ∉ s := by
  constructor
  · intro h hm
    induction s with
    | nil => simp at hm
    | cons c cs ih =>
      unfold cut at h
      by_cases hc : c = sep
      · simp [hc] at h
      · simp only [hc, if_false] at h
        cases hcut : cut sep cs with
        | none =>
          rcases List.mem_cons.mp hm with e | e
          · exact hc e.symm
          · exact ih hcut e
        | some ab => simp [hcut] at h
  · exact cut_eq_none sep s

theorem cut_isSome_of_mem (sep : Char) (s : GoString) (h : sep ∈ s) :
    ∃ a b, cut sep s = some (a, b) := by
  cases hcut : cut sep s with
  | none => exact absurd h ((cut_eq_none_iff sep s).mp hcut)
  | some ab => exact ⟨ab.1, ab.2, rfl⟩

theorem not_mem_dropWhile {α : Type} (p : α → Bool) (x : α) (l : List α) (h : x ∉ l) :
    x ∉ l.dropWhile p :=
  fun hm => h ((List.dropWhile_suffix p).subset hm)

theorem TrimSpace_of_cut (t a b : GoString) (h : cut '.' t = some (a, b)) :
    TrimSpace t = a.dropWhile isSpace ++ '.' :: b.rdropWhile isSpace := by
  obtain ⟨rfl, _⟩ := cut_eq_some '.' t a b h
  unfold TrimSpace
  rw [dropWhile_append_cons_neg isSpace a b '.' (by decide),
    rdropWhile_append_cons_neg isSpace _ b '.' (by decide)]

theorem TrimSpace_of_cut_none (t : GoString) (h : cut '.' t = none) :
    cut '.' (TrimSpace t) = none := by
  rw [cut_eq_none_iff] at h ⊢
  intro hm
  apply h
  unfold TrimSpace at hm
  exact (List.dropWhile_suffix isSpace).subset ((List.rdropWhile_prefix isSpace _).subset hm)

theorem SplitN_TrimSpace_of_cut (t a b : GoString) (h : cut '.' t = some (a, b)) :
    SplitN (TrimSpace t) '.' 2 = [a.dropWhile isSpace, b.rdropWhile isSpace] := by
  obtain ⟨_, ha⟩ := cut_eq_some '.' t a b h
  rw [TrimSpace_of_cut t a b h]
  simp [SplitN, cut_append_sep '.' _ _ (not_mem_dropWhile isSpace '.' a ha)]

theorem SplitN_TrimSpace_of_cut_none (t : GoString) (h : cut '.' t = none) :
    SplitN (TrimSpace t) '.' 2 = [TrimSpace t] := by
  simp [SplitN, TrimSpace_of_cut_none t h]

theorem TrimSpace_dropWhile (s : GoString) : TrimSpace (s.dropWhile isSpace) = TrimSpace s := by
  unfold TrimSpace
  rw [List.dropWhile_idempotent]

theorem scrapeAppBlock_of_cut (t a b : GoString) (h : cut '.' t = some (a, b)) :
    scrapeAppBlock t = (⟨TrimSpace a, TrimSpace b, [], []⟩, true) := by
  unfold scrapeAppBlock
  simp only [SplitN_TrimSpace_of_cut t a b h]
  rw [if_neg (by rw [TrimSpace_of_cut t a b h]; simp)]
  simp [TrimSpace_dropWhile, TrimSpace_rdropWhile]

theorem scrapeAppBlock_of_cut_none (t : GoString) (h : cut '.' t = none) :
    scrapeAppBlock t = (⟨[], [], [], []⟩, false) := by
  unfold scrapeAppBlock
  simp only [SplitN_TrimSpace_of_cut_none t h]
  simp

theorem scrapeAppBlock_valid_iff (t : GoString) : (scrapeAppBlock t).2 = true ↔ '.' ∈ t := by
  constructor
  · intro h
    by_contra hm
    rw [scrapeAppBlock_of_cut_none t (cut_eq_none '.' t hm)] at h
    simp at h
  · intro hm
    obtain ⟨a, b, hab⟩ := cut_isSome_of_mem '.' t hm
    rw [scrapeAppBlock_of_cut t a b hab]

theorem TrimSpace_eq_nil_iff (s : GoString) : TrimSpace s = [] ↔ ∀ c ∈ s, isSpace c = true := by
  unfold TrimSpace
  rw [List.rdropWhile_eq_nil_iff]
  constructor
  · intro h
    have h2 : s.dropWhile isSpace = [] := by
      cases hd : s.dropWhile isSpace with
      | nil => rfl
      | cons x xs =>
        have hx : isSpace x = true := h x (by simp [hd])
        have := List.head_dropWhile_not isSpace s (by simp [hd])
        simp [hd, hx] at this
    exact List.dropWhile_eq_nil_iff.mp h2
  · intro h x hx
    exact h x ((List.dropWhile_suffix isSpace).subset hx)

/-! ## The extraction loops as filters -/

theorem eachBlock_eq (threshold : Int) (acc : List AppInfo) (b : GoString) :
    eachBlock threshold acc b
      = acc ++ (if (scrapeAppBlock b).2 = true then
          (Atoi (scrapeAppBlock b).1.Rank).bind
            (fun r => if r ≤ threshold then some (scrapeAppBlock b).1 else none)
          else none).toList := by
  unfold eachBlock
  rcases hb : scrapeAppBlock b with ⟨app, valid⟩
  cases valid with
  | false => simp
  | true =>
    cases ha : Atoi app.Rank with
    | none => simp [ha]
    | some r =>
      by_cases hr : r ≤ threshold
      · simp [ha, hr, not_lt.mpr hr]
      · simp [ha, hr, not_le.mp hr]

theorem eachBlock_foldl (threshold : Int) (blocks : List GoString) (acc : List AppInfo) :
    blocks.foldl (eachBlock threshold) acc
      = acc ++ blocks.filterMap (fun b =>
          if (scrapeAppBlock b).2 = true then
            (Atoi (scrapeAppBlock b).1.Rank).bind
              (fun r => if r ≤ threshold then some (scrapeAppBlock b).1 else none)
          else none) := by
  induction blocks generalizing acc with
  | nil => simp
  | cons b bs ih =>
    rw [List.foldl_cons, ih, eachBlock_eq, List.filterMap_cons, List.append_assoc]
    congr 1
    cases (if (scrapeAppBlock b).2 = true then
          (Atoi (scrapeAppBlock b).1.Rank).bind
            (fun r => if r ≤ threshold then some (scrapeAppBlock b).1 else none)
          else none) <;> rfl

theorem parseApps_foldl (blocks : List GoString) (acc : List AppInfo) :
    blocks.foldl
        (fun apps block =>
          let (app, valid) := scrapeAppBlock block
          if valid then apps ++ [app] else apps) acc
      = acc ++ (blocks.filter (fun b => (scrapeAppBlock b).2)).map
          (fun b => (scrapeAppBlock b).1) := by
  induction blocks generalizing acc with
  | nil => simp
  | cons b bs ih =>
    rw [List.foldl_cons, ih, List.filter_cons]
    cases hv : (scrapeAppBlock b).2 with
    | false => simp [hv]
    | true => simp [hv]

theorem scrapeTopApps_eq_filterMap (blocks : List GoString) :
    Appstore.scrapeTopApps (.ok blocks)
      = blocks.filterMap (fun b =>
          if (scrapeAppBlock b).2 = true then
            (Atoi (scrapeAppBlock b).1.Rank).bind
              (fun r => if r ≤ 70 then some (scrapeAppBlock b).1 else none)
          else none) := by
  unfold Appstore.scrapeTopApps
  cases blocks with
  | nil => rfl
  | cons b bs =>
    show (if (b :: bs).length = 0 then [] else List.foldl _ [] (b :: bs)) = _
    rw [if_neg (by simp), eachBlock_foldl, List.nil_append]

theorem scrapeTopApps4_eq_filterMap (blocks : List GoString) :
    Appstore4.scrapeTopApps (.ok blocks)
      = blocks.filterMap (fun b =>
          if (scrapeAppBlock b).2 = true then
            (Atoi (scrapeAppBlock b).1.Rank).bind
              (fun r => if r ≤ 100 then some (scrapeAppBlock b).1 else none)
          else none) := by
  unfold Appstore4.scrapeTopApps
  cases blocks with
  | nil => rfl
  | cons b bs =>
    show (if (b :: bs).length = 0 then [] else List.foldl _ [] (b :: bs)) = _
    rw [if_neg (by simp), eachBlock_foldl, List.nil_append]

theorem mem_filterMap_rank (threshold : Int) (blocks : List GoString) (r : AppInfo)
    (h : r ∈ blocks.filterMap (fun b =>
          if (scrapeAppBlock b).2 = true then
            (Atoi (scrapeAppBlock b).1.Rank).bind
              (fun n => if n ≤ threshold then some (scrapeAppBlock b).1 else none)
          else none)) :
    ∃ n : Int, Atoi r.Rank = some n ∧ n ≤ threshold := by
  rw [List.mem_filterMap] at h
  obtain ⟨b, _, hb⟩ := h
  split at hb
  · cases ha : Atoi (scrapeAppBlock b).1.Rank with
    | none => simp [ha] at hb
    | some n =>
      simp only [ha, Option.some_bind] at hb
      split at hb
      · rename_i hn
        simp only [Option.some.injEq] at hb
        subst hb
        exact ⟨n, ha, hn⟩
      · simp at hb
  · simp at hb

/-! ## The claims on the rank-name parser and the list-mode extractors -/

/-- C2 (as amended): `scrapeAppBlock` rejects exactly the texts that contain no period, the
empty text among them, and `parseAppsFromHTML` stores no record for such a text; `""` and
`"NoPeriodHere"` are rejected and leave no record. -/
theorem C2_parser_rejects_texts_without_period (t : GoString) (before after : List GoString) :
    ((scrapeAppBlock t).2 = false ↔ '.' ∉ t)
      ∧ ('.' ∉ t → Appstore3.parseAppsFromHTML (before ++ t :: after)
          = Appstore3.parseAppsFromHTML (before ++ after))
      ∧ (scrapeAppBlock "".toList).2 = false
      ∧ (scrapeAppBlock "NoPeriodHere".toList).2 = false
      ∧ Appstore3.parseAppsFromHTML ["".toList, "NoPeriodHere".toList] = [] := by
  have hiff : (scrapeAppBlock t).2 = false ↔ '.' ∉ t := by
    rw [← scrapeAppBlock_valid_iff]; simp
  refine ⟨hiff, ?_, by decide, by decide, by decide⟩
  intro h
  unfold Appstore3.parseAppsFromHTML
  simp [parseApps_foldl, hiff.mpr h]

theorem C2_parser_rejects_texts_without_period_witness :
    ((scrapeAppBlock "NoPeriodHere".toList).2 = false ↔ '.' ∉ "NoPeriodHere".toList)
      ∧ ('.' ∉ "NoPeriodHere".toList →
          Appstore3.parseAppsFromHTML (["1. A".toList] ++ "NoPeriodHere".toList :: ["2. B".toList])
          = Appstore3.parseAppsFromHTML (["1. A".toList] ++ ["2. B".toList]))
      ∧ (scrapeAppBlock "".toList).2 = false
      ∧ (scrapeAppBlock "NoPeriodHere".toList).2 = false
      ∧ Appstore3.parseAppsFromHTML ["".toList, "NoPeriodHere".toList] = [] :=
  C2_parser_rejects_texts_without_period "NoPeriodHere".toList ["1. A".toList] ["2. B".toList]

/-- C2 fails as stated: the text `"abc. Name"`, whose part before the period is not an
integer, is reported valid by `scrapeAppBlock` and stored by `parseAppsFromHTML`. -/
theorem C2_non_integer_rank_accepted :
    Atoi "abc".toList = none
      ∧ scrapeAppBlock "abc. Name".toList = (⟨"abc".toList, "Name".toList, [], []⟩, true)
      ∧ Appstore3.parseAppsFromHTML ["abc. Name".toList]
          = [⟨"abc".toList, "Name".toList, [], []⟩] := by
  decide

/-- C4: `parseAppsFromHTML` returns one record per well-formed block, in the order of the
blocks on the page, so that of `N` blocks with `K` malformed ones exactly `N - K` records are
returned; a malformed block changes nothing else. -/
theorem C4_one_record_per_wellformed_block (blocks : List GoString) :
    Appstore3.parseAppsFromHTML blocks
        = (blocks.filter (fun b => (scrapeAppBlock b).2)).map (fun b => (scrapeAppBlock b).1)
      ∧ (Appstore3.parseAppsFromHTML blocks).length
        = blocks.length - blocks.countP (fun b => !(scrapeAppBlock b).2) := by
  have h : Appstore3.parseAppsFromHTML blocks
      = (blocks.filter (fun b => (scrapeAppBlock b).2)).map (fun b => (scrapeAppBlock b).1) := by
    unfold Appstore3.parseAppsFromHTML
    simp [parseApps_foldl]
  refine ⟨h, ?_⟩
  rw [h, List.length_map, ← List.countP_eq_length_filter]
  have := List.length_eq_countP_add_countP (fun b => (scrapeAppBlock b).2) blocks
  have e : List.countP (fun b => !(scrapeAppBlock b).2) blocks
      = List.countP (fun a => decide ¬(scrapeAppBlock a).2 = true) blocks := by
    congr 1
    funext b
    simp
  omega

/-- C5: the threshold of `scrapeTopApps` in `appstore.go` is a filter: the result is the list
of the well-formed entries whose rank is an integer that is at most 70, in page order, wherever
the entries above 70 stand; from the ranks 5, 70, 71, 90 exactly 5 and 70 are kept, in any
order of the page. -/
theorem C5_threshold_is_a_filter (blocks : List GoString) :
    Appstore.scrapeTopApps (.ok blocks)
        = blocks.filterMap (fun b =>
            if (scrapeAppBlock b).2 = true then
              (Atoi (scrapeAppBlock b).1.Rank).bind
                (fun r => if r ≤ 70 then some (scrapeAppBlock b).1 else none)
            else none)
      ∧ (Appstore.scrapeTopApps
            (.ok ["5. A".toList, "70. B".toList, "71. C".toList, "90. D".toList])).map
          AppInfo.Rank = ["5".toList, "70".toList]
      ∧ (Appstore.scrapeTopApps
            (.ok ["71. C".toList, "5. A".toList, "90. D".toList, "70. B".toList])).map
          AppInfo.Rank = ["5".toList, "70".toList] :=
  ⟨scrapeTopApps_eq_filterMap blocks, by decide, by decide⟩

/-- C9 (as amended): every record returned by `scrapeTopApps` of `appstore.go` (of
`appstore4.go`) has a `Rank` that `strconv.Atoi` reads as an integer, and that integer is at
most 70 (at most 100); an entry whose rank text is not an integer is never stored. -/
theorem C9_stored_rank_is_integer_within_threshold (page : Except String (List GoString))
    (r : AppInfo) :
    (r ∈ Appstore.scrapeTopApps page → ∃ n : Int, Atoi r.Rank = some n ∧ n ≤ 70)
      ∧ (r ∈ Appstore4.scrapeTopApps page → ∃ n : Int, Atoi r.Rank = some n ∧ n ≤ 100) := by
  cases page with
  | error e => simp [Appstore.scrapeTopApps, Appstore4.scrapeTopApps]
  | ok blocks =>
    rw [scrapeTopApps_eq_filterMap, scrapeTopApps4_eq_filterMap]
    exact ⟨mem_filterMap_rank 70 blocks r, mem_filterMap_rank 100 blocks r⟩

theorem C9_stored_rank_is_integer_within_threshold_witness :
    (⟨"5".toList, "A".toList, [], []⟩ ∈ Appstore.scrapeTopApps (.ok ["5. A".toList, "x. B".toList])
        → ∃ n : Int, Atoi (AppInfo.mk "5".toList "A".toList [] []).Rank = some n ∧ n ≤ 70)
      ∧ (⟨"5".toList, "A".toList, [], []⟩
          ∈ Appstore4.scrapeTopApps (.ok ["5. A".toList, "x. B".toList])
        → ∃ n : Int, Atoi (AppInfo.mk "5".toList "A".toList [] []).Rank = some n ∧ n ≤ 100) :=
  C9_stored_rank_is_integer_within_threshold (.ok ["5. A".toList, "x. B".toList])
    ⟨"5".toList, "A".toList, [], []⟩

/-- C9 fails as stated: entries with the ranks `0` and `-3` are stored by `scrapeTopApps` of
`appstore.go` and of `appstore4.go`, although their ranks are not positive. -/
theorem C9_zero_and_negative_rank_stored :
    Atoi "0".toList = some 0 ∧ Atoi "-3".toList = some (-3)
      ∧ Appstore.scrapeTopApps (.ok ["0. Zero".toList, "-3. Minus".toList])
          = [⟨"0".toList, "Zero".toList, [], []⟩, ⟨"-3".toList, "Minus".toList, [], []⟩]
      ∧ Appstore4.scrapeTopApps (.ok ["0. Zero".toList, "-3. Minus".toList])
          = [⟨"0".toList, "Zero".toList, [], []⟩, ⟨"-3".toList, "Minus".toList, [], []⟩] := by
  decide

/-- C10 (as amended): for every text that `scrapeAppBlock` accepts, the returned `Name` is
the text after the first period with its surrounding white space removed, and it is not empty
exactly when a character that is not white space follows the first period. -/
theorem C10_name_nonempty_iff (t : GoString) (h : (scrapeAppBlock t).2 = true) :
    ∃ a b, cut '.' t = some (a, b) ∧ (scrapeAppBlock t).1.Name = TrimSpace b
      ∧ ((scrapeAppBlock t).1.Name ≠ [] ↔ ∃ c ∈ b, isSpace c = false) := by
  obtain ⟨a, b, hab⟩ := cut_isSome_of_mem '.' t ((scrapeAppBlock_valid_iff t).mp h)
  refine ⟨a, b, hab, ?_, ?_⟩
  · rw [scrapeAppBlock_of_cut t a b hab]
  · rw [scrapeAppBlock_of_cut t a b hab]
    simp only [ne_eq, TrimSpace_eq_nil_iff]
    constructor
    · intro hn
      push_neg at hn
      obtain ⟨c, hc, hs⟩ := hn
      exact ⟨c, hc, by simpa using hs⟩
    · rintro ⟨c, hc, hs⟩ hall
      rw [hall c hc] at hs
      exact absurd hs (by decide)

theorem C10_name_nonempty_iff_witness :
    ∃ a b, cut '.' "5. Crypto.com".toList = some (a, b)
      ∧ (scrapeAppBlock "5. Crypto.com".toList).1.Name = TrimSpace b
      ∧ ((scrapeAppBlock "5. Crypto.com".toList).1.Name ≠ [] ↔ ∃ c ∈ b, isSpace c = false) :=
  C10_name_nonempty_iff "5. Crypto.com".toList (by decide)

/-- C10 fails as stated: the text `"5."` is accepted by `scrapeAppBlock` and its record has
the empty `Name`. -/
theorem C10_accepted_with_empty_name :
    scrapeAppBlock "5.".toList = (⟨"5".toList, [], [], []⟩, true)
      ∧ scrapeAppBlock " 7 .  ".toList = (⟨"7".toList, [], [], []⟩, true) := by
  decide

/-! ## The CSV writer -/

theorem Write_of_takes (f : Faults) (w : CsvWriter) (record : Row) (hf : f.fileWrite = false)
    (h : w.err = false) :
    CsvWriter.Write f w record
      = (⟨w.records ++ [record], w.pending + byteLen (csvLine record), false⟩, false) := by
  obtain ⟨records, pending, err⟩ := w
  simp only at h
  subst h
  simp [CsvWriter.Write, hf]

theorem Flush_of_takes (f : Faults) (w : CsvWriter) (file : List Row)
    (hf : f.fileWrite = false) : CsvWriter.Flush f w file = file ++ w.records := by
  simp [CsvWriter.Flush, hf]

theorem Flush_of_fails (f : Faults) (w : CsvWriter) (file : List Row)
    (hf : f.fileWrite = true) : CsvWriter.Flush f w file = file := by
  simp [CsvWriter.Flush, hf]

theorem Write_of_err (f : Faults) (w : CsvWriter) (record : Row) (h : w.err = true) :
    CsvWriter.Write f w record = (w, true) := by
  simp [CsvWriter.Write, h]

theorem Write_err_iff (f : Faults) (w : CsvWriter) (record : Row) :
    (CsvWriter.Write f w record).1.err = (CsvWriter.Write f w record).2 := by
  unfold CsvWriter.Write
  split_ifs with h1 h2
  · simp [h1]
  · rfl
  · simpa using h1

theorem length_le_byteLen (s : GoString) : s.length ≤ byteLen s := by
  induction s with
  | nil => simp [byteLen]
  | cons c cs ih =>
    have : 0 < c.utf8Size := Char.utf8Size_pos c
    simp only [byteLen, List.map_cons, List.sum_cons, List.length_cons] at ih ⊢
    omega

theorem byteLen_append (a b : GoString) : byteLen (a ++ b) = byteLen a + byteLen b := by
  simp [byteLen]

theorem length_le_doubled (s : GoString) :
    s.length ≤ (s.flatMap (fun c => if c = '"' then ['"', '"'] else [c])).length := by
  induction s with
  | nil => simp
  | cons c cs ih =>
    simp only [List.flatMap_cons, List.length_append, List.length_cons]
    split_ifs <;> simp only [List.length_cons, List.length_nil] <;> omega

theorem length_le_csvField (field : GoString) : field.length ≤ (csvField field).length := by
  unfold csvField
  split_ifs
  · have := length_le_doubled field
    simp only [List.length_append, List.length_cons, List.length_nil]
    omega
  · exact le_refl _

theorem length_le_Join_of_mem (toks : List GoString) (sep t : GoString) (h : t ∈ toks) :
    t.length ≤ (Join toks sep).length := by
  induction toks with
  | nil => simp at h
  | cons a as ih =>
    cases as with
    | nil =>
      simp only [List.mem_singleton] at h
      subst h
      simp [Join]
    | cons b bs =>
      simp only [Join, List.length_append]
      rcases List.mem_cons.mp h with rfl | h
      · omega
      · have := ih h
        omega

theorem length_le_byteLen_csvLine (record : Row) (field : GoString) (h : field ∈ record) :
    field.length ≤ byteLen (csvLine record) := by
  have h1 := length_le_csvField field
  have h2 := length_le_Join_of_mem (record.map csvField) [','] (csvField field)
    (List.mem_map_of_mem _ h)
  have h3 := length_le_byteLen (csvLine record)
  simp only [csvLine, List.length_append] at h3
  simp only [csvLine]
  omega

theorem Write_overflow (f : Faults) (w : CsvWriter) (record : Row) (field : GoString)
    (hf : f.fileWrite = true) (hmem : field ∈ record) (hbig : bufSize < field.length) :
    (CsvWriter.Write f w record).2 = true := by
  have h := length_le_byteLen_csvLine record field hmem
  unfold CsvWriter.Write
  split_ifs with h1 h2
  · rfl
  · rfl
  · exfalso
    apply h2
    simp only [hf, Bool.true_and, decide_eq_true_eq]
    omega

theorem count_doubled (s : GoString) :
    (s.flatMap (fun c => if c = '"' then ['"', '"'] else [c])).count '\n' = s.count '\n' := by
  induction s with
  | nil => simp
  | cons c cs ih =>
    simp only [List.flatMap_cons, List.count_append, ih, List.count_cons]
    by_cases hc : c = '"'
    · subst hc; simp
    · simp only [if_neg hc, List.count_cons, List.count_nil]
      omega

theorem count_csvField (field : GoString) :
    (csvField field).count '\n' = field.count '\n' := by
  unfold csvField
  split_ifs
  · simp only [List.count_append, count_doubled]
    simp
  · rfl

theorem count_Join_comma (toks : List GoString) :
    (Join toks [',']).count '\n' = (toks.map (List.count '\n')).sum := by
  induction toks with
  | nil => simp [Join]
  | cons a as ih =>
    cases as with
    | nil => simp [Join]
    | cons b bs =>
      simp only [Join, List.count_append, ih, List.map_cons, List.sum_cons]
      simp

theorem lineCount_csvLine (record : Row) :
    lineCount (csvLine record) = 1 + (record.map (List.count '\n')).sum := by
  simp only [lineCount, csvLine, List.count_append, count_Join_comma, List.map_map]
  have : (List.map (List.count '\n' ∘ csvField) record) = record.map (List.count '\n') := by
    apply List.map_congr_left
    intro a _
    exact count_csvField a
  rw [this]
  simp
  omega

theorem lineCount_fileText (rows : List Row) :
    lineCount (fileText rows) = rows.length + fieldLineFeeds rows := by
  induction rows with
  | nil => simp [lineCount, fileText, fieldLineFeeds]
  | cons r rs ih =>
    have h := lineCount_csvLine r
    simp only [lineCount, fileText, fieldLineFeeds, List.flatMap_cons, List.count_append,
      List.map_cons, List.sum_cons, List.length_cons] at ih h ⊢
    omega

theorem fileText_append (a b : List Row) : fileText (a ++ b) = fileText a ++ fileText b := by
  simp [fileText]

theorem fieldLineFeeds_append (a b : List Row) :
    fieldLineFeeds (a ++ b) = fieldLineFeeds a + fieldLineFeeds b := by
  simp [fieldLineFeeds]

/-! ## The appending CSV sinks -/

theorem Appleapp_saveToCSV_ok (app : Appleapp.AppInfo) (disk : Disk) :
    Appleapp.saveToCSV app disk Faults.none
      = .ok ⟨true, some (disk.file.getD [] ++ (if disk.file = none then [Appleapp.headers] else [])
          ++ [[app.Name, app.FinanceRank, app.Timestamp]])⟩ := by
  obtain ⟨dir, file⟩ := disk
  cases file with
  | none => simp [Appleapp.saveToCSV, Faults.none, CsvWriter.Write, CsvWriter.Flush,
      CsvWriter.NewWriter]
  | some rows => simp [Appleapp.saveToCSV, Faults.none, CsvWriter.Write, CsvWriter.Flush,
      CsvWriter.NewWriter]

theorem Appleapp_saveAll_append (apps : List Appleapp.AppInfo) (dir : Bool) (rows : List Row) :
    Appleapp.saveAll apps ⟨dir, some rows⟩
      = .ok ⟨dir || !apps.isEmpty,
          some (rows ++ apps.map (fun a => [a.Name, a.FinanceRank, a.Timestamp]))⟩ := by
  induction apps generalizing dir rows with
  | nil => simp [Appleapp.saveAll]
  | cons a as ih =>
    unfold Appleapp.saveAll
    rw [Appleapp_saveToCSV_ok]
    simp [ih]

theorem Appstoremulti1_saveToCSV_ok (d : Appstoremulti1.AppInfo) (disk : Disk) :
    Appstoremulti1.saveToCSV d disk Faults.none
      = .ok (⟨true, some (disk.file.getD []
            ++ (if disk.file.getD [] = [] then [Appstoremulti1.headers] else [])
            ++ [[d.Timestamp, d.US_CoinbaseRank, d.US_OKXRank, d.US_TrustRank,
                  d.UK_CoinbaseRank, d.UK_OKXRank, d.UK_TrustRank]])⟩,
          Appstoremulti1.filename) := by
  obtain ⟨dir, file⟩ := disk
  by_cases h : file.getD [] = []
  · simp [Appstoremulti1.saveToCSV, Faults.none, h, CsvWriter.Write, CsvWriter.Flush,
      CsvWriter.NewWriter]
  · simp [Appstoremulti1.saveToCSV, Faults.none, h, CsvWriter.Write, CsvWriter.Flush,
      CsvWriter.NewWriter]

theorem Appstoremulti1_saveAll_append (ds : List Appstoremulti1.AppInfo) (dir : Bool)
    (rows : List Row) (h : rows ≠ []) :
    Appstoremulti1.saveAll ds ⟨dir, some rows⟩
      = .ok ⟨dir || !ds.isEmpty,
          some (rows ++ ds.map (fun d => [d.Timestamp, d.US_CoinbaseRank, d.US_OKXRank,
            d.US_TrustRank, d.UK_CoinbaseRank, d.UK_OKXRank, d.UK_TrustRank]))⟩ := by
  induction ds generalizing dir rows with
  | nil => simp [Appstoremulti1.saveAll]
  | cons a as ih =>
    unfold Appstoremulti1.saveAll
    rw [Appstoremulti1_saveToCSV_ok]
    simp [h, ih]

theorem fieldLineFeeds_headers :
    fieldLineFeeds [Appleapp.headers] = 0 ∧ fieldLineFeeds [Appstoremulti1.headers] = 0 := by
  decide

/-- C6 (as amended): for `saveToCSV` of `appleapp.go` and of `appstoremulti1.go`, with every
call succeeding: a write to a file that does not exist leaves the header record followed by
one data record; a write to a file that has records appends one data record and nothing
else; and `n` writes in a row, starting without the file, leave the header record followed
by the `n` data records, `1 + n` records in all. A record is written as one line and one
more line for every line feed inside its fields: an appended record adds that many lines,
and after the `n` writes the file has `1 + n` lines and one more for every line feed inside
the fields of the data records. -/
theorem C6_appending_sinks (dir : Bool) (rows : List Row) (hrows : rows ≠ [])
    (app : Appleapp.AppInfo) (apps : List Appleapp.AppInfo)
    (d : Appstoremulti1.AppInfo) (ds : List Appstoremulti1.AppInfo) :
    (Appleapp.saveToCSV app ⟨dir, none⟩ Faults.none
        = .ok ⟨true, some [Appleapp.headers, [app.Name, app.FinanceRank, app.Timestamp]]⟩
      ∧ Appleapp.saveToCSV app ⟨dir, some rows⟩ Faults.none
        = .ok ⟨true, some (rows ++ [[app.Name, app.FinanceRank, app.Timestamp]])⟩
      ∧ lineCount (fileText (rows ++ [[app.Name, app.FinanceRank, app.Timestamp]]))
        = lineCount (fileText rows) + 1
          + fieldLineFeeds [[app.Name, app.FinanceRank, app.Timestamp]]
      ∧ ∃ file, Appleapp.saveAll (app :: apps) ⟨dir, none⟩ = .ok ⟨true, some file⟩
          ∧ file = Appleapp.headers
              :: (app :: apps).map (fun a => [a.Name, a.FinanceRank, a.Timestamp])
          ∧ file.length = 1 + (app :: apps).length
          ∧ lineCount (fileText file) = 1 + (app :: apps).length
              + fieldLineFeeds
                  ((app :: apps).map (fun a => [a.Name, a.FinanceRank, a.Timestamp])))
    ∧ (Appstoremulti1.saveToCSV d ⟨dir, none⟩ Faults.none
        = .ok (⟨true, some [Appstoremulti1.headers,
            [d.Timestamp, d.US_CoinbaseRank, d.US_OKXRank, d.US_TrustRank,
              d.UK_CoinbaseRank, d.UK_OKXRank, d.UK_TrustRank]]⟩, Appstoremulti1.filename)
      ∧ Appstoremulti1.saveToCSV d ⟨dir, some rows⟩ Faults.none
        = .ok (⟨true, some (rows ++ [[d.Timestamp, d.US_CoinbaseRank, d.US_OKXRank,
            d.US_TrustRank, d.UK_CoinbaseRank, d.UK_OKXRank, d.UK_TrustRank]])⟩,
            Appstoremulti1.filename)
      ∧ lineCount (fileText (rows ++ [[d.Timestamp, d.US_CoinbaseRank, d.US_OKXRank,
            d.US_TrustRank, d.UK_CoinbaseRank, d.UK_OKXRank, d.UK_TrustRank]]))
        = lineCount (fileText rows) + 1
          + fieldLineFeeds [[d.Timestamp, d.US_CoinbaseRank, d.US_OKXRank,
              d.US_TrustRank, d.UK_CoinbaseRank, d.UK_OKXRank, d.UK_TrustRank]]
      ∧ ∃ file, Appstoremulti1.saveAll (d :: ds) ⟨dir, none⟩ = .ok ⟨true, some file⟩
          ∧ file = Appstoremulti1.headers
              :: (d :: ds).map (fun d => [d.Timestamp, d.US_CoinbaseRank, d.US_OKXRank,
                d.US_TrustRank, d.UK_CoinbaseRank, d.UK_OKXRank, d.UK_TrustRank])
          ∧ file.length = 1 + (d :: ds).length
          ∧ lineCount (fileText file) = 1 + (d :: ds).length
              + fieldLineFeeds
                  ((d :: ds).map (fun d => [d.Timestamp, d.US_CoinbaseRank, d.US_OKXRank,
                    d.US_TrustRank, d.UK_CoinbaseRank, d.UK_OKXRank, d.UK_TrustRank]))) := by
  have hcons : ∀ (h : Row) (rs : List Row), fieldLineFeeds [h] = 0 →
      lineCount (fileText (h :: rs)) = 1 + rs.length + fieldLineFeeds rs := by
    intro h rs h0
    have e : h :: rs = [h] ++ rs := rfl
    rw [lineCount_fileText, e, fieldLineFeeds_append, h0]
    simp
    omega
  have happ : ∀ (rs : List Row) (r : Row),
      lineCount (fileText (rs ++ [r])) = lineCount (fileText rs) + 1 + fieldLineFeeds [r] := by
    intro rs r
    rw [lineCount_fileText, lineCount_fileText, fieldLineFeeds_append]
    simp
    omega
  refine ⟨⟨?_, ?_, happ _ _, ?_⟩, ?_, ?_, happ _ _, ?_⟩
  · rw [Appleapp_saveToCSV_ok]; simp
  · rw [Appleapp_saveToCSV_ok]; simp
  · refine ⟨_, ?_, rfl, by simp; omega, ?_⟩
    · unfold Appleapp.saveAll
      rw [Appleapp_saveToCSV_ok]
      simp [Appleapp_saveAll_append]
    · rw [hcons _ _ fieldLineFeeds_headers.1]
      simp
  · rw [Appstoremulti1_saveToCSV_ok]; simp
  · rw [Appstoremulti1_saveToCSV_ok]; simp [hrows]
  · refine ⟨_, ?_, rfl, by simp; omega, ?_⟩
    · unfold Appstoremulti1.saveAll
      rw [Appstoremulti1_saveToCSV_ok]
      simp [Appstoremulti1_saveAll_append]
    · rw [hcons _ _ fieldLineFeeds_headers.2]
      simp

theorem C6_appending_sinks_witness :
    (Appleapp.saveAll
        [⟨"Coinbase".toList, "#12 in Finance".toList, "2024-05-01 10:00:00".toList⟩,
          ⟨"Coinbase".toList, "#9 in Finance".toList, "2024-05-02 10:00:00".toList⟩]
        ⟨false, none⟩
      = .ok ⟨true, some [Appleapp.headers,
          ["Coinbase".toList, "#12 in Finance".toList, "2024-05-01 10:00:00".toList],
          ["Coinbase".toList, "#9 in Finance".toList, "2024-05-02 10:00:00".toList]]⟩)
    ∧ (Appstoremulti1.saveAll
        [⟨"t1".toList, "3".toList, [], [], "4".toList, [], []⟩,
          ⟨"t2".toList, "2".toList, [], [], "5".toList, [], []⟩]
        ⟨false, none⟩
      = .ok ⟨true, some [Appstoremulti1.headers,
          ["t1".toList, "3".toList, [], [], "4".toList, [], []],
          ["t2".toList, "2".toList, [], [], "5".toList, [], []]]⟩) := by
  have h := C6_appending_sinks false [Appleapp.headers] (by decide)
    ⟨"Coinbase".toList, "#12 in Finance".toList, "2024-05-01 10:00:00".toList⟩
    [⟨"Coinbase".toList, "#9 in Finance".toList, "2024-05-02 10:00:00".toList⟩]
    ⟨"t1".toList, "3".toList, [], [], "4".toList, [], []⟩
    [⟨"t2".toList, "2".toList, [], [], "5".toList, [], []⟩]
  obtain ⟨⟨_, _, _, f1, h1, rfl, _⟩, _, _, _, f2, h2, rfl, _⟩ := h
  exact ⟨h1, h2⟩

/-- C6 fails as stated: with a line feed inside `Name`, which `strings.TrimSpace` leaves
where it is, one write of `saveToCSV` of `appleapp.go` to a file that does not exist leaves
three lines, not two: the header line, and the data record over two lines. -/
theorem C6_one_write_leaves_three_lines :
    Appleapp.saveToCSV
        ⟨"Coinbase:\nBuy Bitcoin".toList, "#12 in Finance".toList, "2024-05-01 10:00:00".toList⟩
        ⟨false, none⟩ Faults.none
      = .ok ⟨true, some [Appleapp.headers,
          ["Coinbase:\nBuy Bitcoin".toList, "#12 in Finance".toList, "2024-05-01 10:00:00".toList]]⟩
    ∧ fileText [Appleapp.headers,
          ["Coinbase:\nBuy Bitcoin".toList, "#12 in Finance".toList, "2024-05-01 10:00:00".toList]]
      = "Name,Rank,Timestamp\n\"Coinbase:\nBuy Bitcoin\",#12 in Finance,2024-05-01 10:00:00\n".toList
    ∧ lineCount (fileText [Appleapp.headers,
          ["Coinbase:\nBuy Bitcoin".toList, "#12 in Finance".toList, "2024-05-01 10:00:00".toList]])
      = 3 := by
  refine ⟨by decide, by decide, by decide⟩

/-- C8 (as amended): `saveToCSV` of `appleapp.go`, when every call succeeds, writes the header
row exactly when the file did not exist before the call, and then appends the data row; a file
that exists keeps its records and receives the data row only. -/
theorem C8_header_iff_file_absent (app : Appleapp.AppInfo) (disk : Disk) :
    Appleapp.saveToCSV app disk Faults.none
      = .ok ⟨true, some (disk.file.getD [] ++ (if disk.file = none then [Appleapp.headers] else [])
          ++ [[app.Name, app.FinanceRank, app.Timestamp]])⟩ :=
  Appleapp_saveToCSV_ok app disk

/-- C8 fails as stated: on a file that exists with zero bytes `saveToCSV` of `appleapp.go`
writes the data row without a header row. -/
theorem C8_empty_file_gets_no_header :
    Appleapp.saveToCSV
        ⟨"Coinbase".toList, "#12 in Finance".toList, "2024-05-01 10:00:00".toList⟩
        ⟨true, some []⟩ Faults.none
      = .ok ⟨true,
          some [["Coinbase".toList, "#12 in Finance".toList, "2024-05-01 10:00:00".toList]]⟩ := by
  decide

/-! ## Identity matching in `appstoremulti1.go` -/

theorem startsWith_iff (p s : GoString) : startsWith p s = true ↔ ∃ b, s = p ++ b := by
  induction p generalizing s with
  | nil => simp [startsWith]
  | cons x xs ih =>
    cases s with
    | nil => simp [startsWith]
    | cons c cs =>
      simp only [startsWith, Bool.and_eq_true, decide_eq_true_eq, ih, List.cons_append,
        List.cons.injEq]
      constructor
      · rintro ⟨rfl, b, rfl⟩
        exact ⟨b, rfl, rfl⟩
      · rintro ⟨b, rfl, rfl⟩
        exact ⟨rfl, b, rfl⟩

theorem Contains_iff (s sub : GoString) : Contains s sub = true ↔ ∃ a b, s = a ++ sub ++ b := by
  induction s with
  | nil =>
    simp only [Contains, List.isEmpty_iff]
    constructor
    · rintro rfl
      exact ⟨[], [], rfl⟩
    · rintro ⟨a, b, h⟩
      have := congrArg List.length h
      simp only [List.length_nil, List.length_append] at this
      exact List.length_eq_zero.mp (by omega)
  | cons c cs ih =>
    simp only [Contains, Bool.or_eq_true, startsWith_iff, ih]
    constructor
    · rintro (⟨b, h⟩ | ⟨a, b, h⟩)
      · exact ⟨[], b, by simpa using h⟩
      · exact ⟨c :: a, b, by simp [h]⟩
    · rintro ⟨a, b, h⟩
      cases a with
      | nil => exact Or.inl ⟨b, by simpa using h⟩
      | cons x xs =>
        simp only [List.cons_append, List.cons.injEq] at h
        exact Or.inr ⟨xs, b, by simpa using h.2⟩

theorem Contains_TrimSpace (s sub m1 m2 : GoString) (x y : Char) (h1 : sub = x :: m1)
    (h2 : sub = m2 ++ [y]) (hx : isSpace x = false) (hy : isSpace y = false)
    (h : Contains s sub = true) : Contains (TrimSpace s) sub = true := by
  rw [Contains_iff] at h ⊢
  obtain ⟨a, b, rfl⟩ := h
  refine ⟨a.dropWhile isSpace, b.rdropWhile isSpace, ?_⟩
  unfold TrimSpace
  have e1 : a ++ sub ++ b = a ++ x :: (m1 ++ b) := by simp [h1]
  rw [e1, dropWhile_append_cons_neg isSpace a _ x hx]
  have e2 : a.dropWhile isSpace ++ x :: (m1 ++ b) = (a.dropWhile isSpace ++ m2) ++ y :: b := by
    have : x :: m1 = m2 ++ [y] := by rw [← h1, h2]
    calc a.dropWhile isSpace ++ x :: (m1 ++ b)
        = a.dropWhile isSpace ++ ((x :: m1) ++ b) := by simp
      _ = (a.dropWhile isSpace ++ m2) ++ y :: b := by rw [this]; simp
  rw [e2, rdropWhile_append_cons_neg isSpace _ b y hy, h2]
  simp

theorem multi1_parts_of_cut (link : Appstoremulti1.AppLink) (a b : GoString)
    (h : cut '.' link.text = some (a, b)) :
    SplitN (TrimSpace link.text) '.' 2 = [a.dropWhile isSpace, b.rdropWhile isSpace] :=
  SplitN_TrimSpace_of_cut link.text a b h

theorem multi1_eachBlock_coinbase (pfx : GoString) (d : Appstoremulti1.AppInfo)
    (link : Appstoremulti1.AppLink) (a b : GoString) (h : cut '.' link.text = some (a, b))
    (hc : Contains (TrimSpace b) "Coinbase".toList = true
      ∨ Contains (link.title.getD []) "Coinbase".toList = true) :
    Appstoremulti1.eachBlock pfx d link
      = if pfx = "US".toList then { d with US_CoinbaseRank := TrimSpace a }
        else if pfx = "UK".toList then { d with UK_CoinbaseRank := TrimSpace a }
        else d := by
  unfold Appstoremulti1.eachBlock
  simp only [multi1_parts_of_cut link a b h]
  have hc' : (Contains (TrimSpace (b.rdropWhile isSpace)) "Coinbase".toList
      || Contains (link.title.getD []) "Coinbase".toList) = true := by
    rw [TrimSpace_rdropWhile]; simpa using hc
  simp only [List.length_cons, List.length_nil, ne_eq, not_true_eq_false, if_false,
    List.getD_cons_zero, List.getD_cons_succ, hc', if_true, TrimSpace_dropWhile]

/-- C7: `scrapeTopApps` of `appstoremulti1.go`, called with all rank fields empty on a page
whose only entry is `"<r>. <name>"` with `Coinbase` in the name or in the title of the link,
returns the record in which the Coinbase rank of the scraped country (`US` or `UK`) is the
text of `r` and every other rank field is still empty. -/
theorem C7_only_coinbase_entry (r : Int) (name : GoString) (title : Option GoString)
    (country ts : GoString)
    (h : Contains name "Coinbase".toList = true
      ∨ Contains (title.getD []) "Coinbase".toList = true) :
    Appstoremulti1.scrapeTopApps (.ok [⟨Itoa r ++ ". ".toList ++ name, title⟩]) country
        ⟨ts, [], [], [], [], [], []⟩ "US".toList
      = ⟨ts, Itoa r, [], [], [], [], []⟩
    ∧ Appstoremulti1.scrapeTopApps (.ok [⟨Itoa r ++ ". ".toList ++ name, title⟩]) country
        ⟨ts, [], [], [], [], [], []⟩ "UK".toList
      = ⟨ts, [], [], [], Itoa r, [], []⟩ := by
  have hcut : cut '.' (Appstoremulti1.AppLink.mk (Itoa r ++ ". ".toList ++ name) title).text
      = some (Itoa r, ' ' :: name) := by
    have e : Itoa r ++ ". ".toList ++ name = Itoa r ++ '.' :: ' ' :: name := by simp
    show cut '.' (Itoa r ++ ". ".toList ++ name) = _
    rw [e, cut_append_sep '.' _ _ (Itoa_no_period r)]
  have hc : Contains (TrimSpace (' ' :: name)) "Coinbase".toList = true
      ∨ Contains ((Appstoremulti1.AppLink.mk (Itoa r ++ ". ".toList ++ name) title).title.getD [])
          "Coinbase".toList = true := by
    rcases h with h | h
    · left
      rw [TrimSpace_cons_space ' ' name (by decide)]
      exact Contains_TrimSpace name _ "oinbase".toList "Coinbas".toList 'C' 'e' rfl rfl
        (by decide) (by decide) h
    · right; exact h
  have hrank : TrimSpace (Itoa r) = Itoa r := TrimSpace_eq_self _ (Itoa_no_space r)
  constructor
  · show List.foldl _ _ _ = _
    rw [List.foldl_cons, List.foldl_nil, multi1_eachBlock_coinbase _ _ _ _ _ hcut hc, hrank]
    rfl
  · show List.foldl _ _ _ = _
    rw [List.foldl_cons, List.foldl_nil, multi1_eachBlock_coinbase _ _ _ _ _ hcut hc, hrank]
    rfl

theorem C7_only_coinbase_entry_witness :
    Appstoremulti1.scrapeTopApps
        (.ok [⟨"3. Coinbase: Buy Bitcoin & Ether".toList, some "Coinbase".toList⟩])
        "united-states".toList ⟨"2024-05-01 10:00:00".toList, [], [], [], [], [], []⟩ "US".toList
      = ⟨"2024-05-01 10:00:00".toList, "3".toList, [], [], [], [], []⟩
    ∧ Appstoremulti1.scrapeTopApps
        (.ok [⟨"3. Coinbase: Buy Bitcoin & Ether".toList, some "Coinbase".toList⟩])
        "united-states".toList ⟨"2024-05-01 10:00:00".toList, [], [], [], [], [], []⟩ "UK".toList
      = ⟨"2024-05-01 10:00:00".toList, [], [], [], "3".toList, [], []⟩ :=
  C7_only_coinbase_entry 3 "Coinbase: Buy Bitcoin & Ether".toList (some "Coinbase".toList)
    "united-states".toList "2024-05-01 10:00:00".toList (by decide)

/-! ## The text normalizer: `Fields`, `Join` and `TrimSpace` -/

theorem splitSpace_ne_nil (s : GoString) : splitSpace s ≠ [] := by
  cases s with
  | nil => simp [splitSpace]
  | cons c cs =>
    unfold splitSpace
    split
    · simp
    · split <;> simp

theorem splitSpace_no_space (s : GoString) : ∀ t ∈ splitSpace s, ∀ c ∈ t, isSpace c = false := by
  induction s with
  | nil => simp [splitSpace]
  | cons x xs ih =>
    unfold splitSpace
    by_cases hx : isSpace x = true
    · simp only [hx, if_true]
      intro t ht
      rcases List.mem_cons.mp ht with rfl | ht
      · simp
      · exact ih t ht
    · simp only [hx]
      cases hsp : splitSpace xs with
      | nil => exact absurd hsp (splitSpace_ne_nil xs)
      | cons p ps =>
        rw [hsp] at ih
        intro t ht c hc
        simp only [Bool.false_eq_true, if_false, List.mem_cons] at ht
        rcases ht with rfl | ht
        · rcases List.mem_cons.mp hc with rfl | hc
          · simpa using hx
          · exact ih p (List.mem_cons_self _ _) c hc
        · exact ih t (List.mem_cons_of_mem _ ht) c hc

theorem Fields_good (s : GoString) : GoodTokens (Fields s) := by
  intro t ht
  unfold Fields at ht
  rw [List.mem_filter] at ht
  refine ⟨?_, splitSpace_no_space s t ht.1⟩
  intro h
  simp [h] at ht

theorem splitSpace_append (t rest p : GoString) (ps : List GoString)
    (ht : ∀ c ∈ t, isSpace c = false) (h : splitSpace rest = p :: ps) :
    splitSpace (t ++ rest) = (t ++ p) :: ps := by
  induction t with
  | nil => simpa using h
  | cons x xs ih =>
    have hx : isSpace x = false := ht x (List.mem_cons_self _ _)
    have := ih (fun c hc => ht c (List.mem_cons_of_mem _ hc))
    simp [splitSpace, hx, this]

theorem Fields_token_cons (t rest : GoString) (h0 : t ≠ []) (ht : ∀ c ∈ t, isSpace c = false) :
    Fields (t ++ ' ' :: rest) = t :: Fields rest := by
  unfold Fields
  have h : splitSpace (' ' :: rest) = [] :: splitSpace rest := by
    simp [splitSpace, show isSpace ' ' = true by decide]
  rw [splitSpace_append t _ [] _ ht h]
  simp [h0]

theorem Fields_token (t : GoString) (h0 : t ≠ []) (ht : ∀ c ∈ t, isSpace c = false) :
    Fields t = [t] := by
  unfold Fields
  have h := splitSpace_append t [] [] [] ht (by simp [splitSpace])
  simp only [List.append_nil] at h
  rw [h]
  simp [h0]

theorem Fields_Join (toks : List GoString) (h : GoodTokens toks) :
    Fields (Join toks " ".toList) = toks := by
  induction toks with
  | nil => simp [Join, Fields, splitSpace]
  | cons t ts ih =>
    have ht := h t (List.mem_cons_self _ _)
    have hts : GoodTokens ts := fun u hu => h u (List.mem_cons_of_mem _ hu)
    cases ts with
    | nil => simpa [Join] using Fields_token t ht.1 ht.2
    | cons u us =>
      have e : Join (t :: u :: us) " ".toList = t ++ ' ' :: Join (u :: us) " ".toList := by
        simp [Join]
      rw [e, Fields_token_cons t _ ht.1 ht.2, ih hts]

theorem TrimSpace_eq_self_of_ends (s : GoString)
    (h1 : ∀ c, s.head? = some c → isSpace c = false)
    (h2 : ∀ c, s.getLast? = some c → isSpace c = false) : TrimSpace s = s := by
  unfold TrimSpace
  have e : s.dropWhile isSpace = s := by
    cases s with
    | nil => rfl
    | cons c cs => simp [List.dropWhile_cons, h1 c rfl]
  rw [e, List.rdropWhile_eq_self_iff]
  intro hl
  have := h2 (s.getLast hl) (List.getLast?_eq_getLast s hl)
  simp [this]

theorem Join_ends (toks : List GoString) (h : GoodTokens toks) :
    (∀ c, (Join toks " ".toList).head? = some c → isSpace c = false)
      ∧ (∀ c, (Join toks " ".toList).getLast? = some c → isSpace c = false)
      ∧ (toks ≠ [] → Join toks " ".toList ≠ []) := by
  induction toks with
  | nil => simp [Join]
  | cons t ts ih =>
    have ht := h t (List.mem_cons_self _ _)
    have hts : GoodTokens ts := fun u hu => h u (List.mem_cons_of_mem _ hu)
    obtain ⟨x, xs, rfl⟩ := List.exists_cons_of_ne_nil ht.1
    cases ts with
    | nil =>
      refine ⟨?_, ?_, by simp [Join]⟩
      · intro c hc
        simp only [Join, List.head?_cons, Option.some.injEq] at hc
        exact hc ▸ ht.2 x (List.mem_cons_self _ _)
      · intro c hc
        exact ht.2 c (List.mem_of_mem_getLast? hc)
    | cons u us =>
      obtain ⟨_, i2, i3⟩ := ih hts
      have e : Join ((x :: xs) :: u :: us) " ".toList
          = x :: (xs ++ ' ' :: Join (u :: us) " ".toList) := by
        simp [Join]
      rw [e]
      refine ⟨?_, ?_, by simp⟩
      · intro c hc
        simp only [List.head?_cons, Option.some.injEq] at hc
        exact hc ▸ ht.2 x (List.mem_cons_self _ _)
      · intro c hc
        apply i2 c
        have hne := i3 (by simp)
        have e2 : x :: (xs ++ ' ' :: Join (u :: us) " ".toList)
            = (x :: xs ++ [' ']) ++ Join (u :: us) " ".toList := by simp
        rw [e2, List.getLast?_append_of_ne_nil _ hne] at hc
        exact hc

theorem TrimSpace_Join (toks : List GoString) (h : GoodTokens toks) :
    TrimSpace (Join toks " ".toList) = Join toks " ".toList :=
  TrimSpace_eq_self_of_ends _ (Join_ends toks h).1 (Join_ends toks h).2.1

theorem mem_Join (toks : List GoString) (sep : GoString) (c : Char) (h : c ∈ Join toks sep) :
    c ∈ sep ∨ ∃ t ∈ toks, c ∈ t := by
  induction toks with
  | nil => simp [Join] at h
  | cons t ts ih =>
    cases ts with
    | nil => exact Or.inr ⟨t, by simp, by simpa [Join] using h⟩
    | cons u us =>
      simp only [Join, List.mem_append] at h
      rcases h with (h | h) | h
      · exact Or.inr ⟨t, by simp, h⟩
      · exact Or.inl h
      · rcases ih h with h | ⟨v, hv, hc⟩
        · exact Or.inl h
        · exact Or.inr ⟨v, List.mem_cons_of_mem _ hv, hc⟩

theorem cleanText_eq_Join (x : GoString) :
    Appstoremulti3.cleanText x
      = Join (Fields (cleanupRegex_ReplaceAllString x)) " ".toList := by
  unfold Appstoremulti3.cleanText
  exact TrimSpace_Join _ (Fields_good _)

theorem cleanText_no_newline (x : GoString) : '\n' ∉ Appstoremulti3.cleanText x := by
  rw [cleanText_eq_Join]
  intro h
  rcases mem_Join _ _ _ h with h | ⟨t, ht, hc⟩
  · exact absurd h (by decide)
  · have := (Fields_good _ t ht).2 _ hc
    exact absurd this (by decide)

theorem Fields_cleanText (x : GoString) :
    Fields (Appstoremulti3.cleanText x) = Fields (cleanupRegex_ReplaceAllString x) := by
  rw [cleanText_eq_Join, Fields_Join _ (Fields_good _)]

theorem splitSpace_length (s : GoString) :
    ((splitSpace s).map (fun t => t.length + 1)).sum = s.length + 1 := by
  induction s with
  | nil => simp [splitSpace]
  | cons c cs ih =>
    unfold splitSpace
    by_cases hc : isSpace c = true
    · simp only [hc, if_true, List.map_cons, List.sum_cons, ih, List.length_nil,
        List.length_cons]
      omega
    · simp only [hc]
      cases hsp : splitSpace cs with
      | nil => exact absurd hsp (splitSpace_ne_nil cs)
      | cons p ps =>
        rw [hsp] at ih
        simp only [Bool.false_eq_true, if_false, List.map_cons, List.sum_cons,
          List.length_cons] at ih ⊢
        omega

theorem Join_length (toks : List GoString) (h : toks ≠ []) :
    (Join toks " ".toList).length + 1 = (toks.map (fun t => t.length + 1)).sum := by
  induction toks with
  | nil => exact absurd rfl h
  | cons t ts ih =>
    cases ts with
    | nil => simp [Join]
    | cons u us =>
      have := ih (by simp)
      simp only [Join, List.length_append, List.map_cons, List.sum_cons] at this ⊢
      have e : " ".toList.length = 1 := rfl
      omega

theorem sum_filter_le (p : GoString → Bool) (l : List GoString) :
    ((l.filter p).map (fun t => t.length + 1)).sum ≤ (l.map (fun t => t.length + 1)).sum := by
  induction l with
  | nil => simp
  | cons t ts ih =>
    rw [List.filter_cons]
    split
    · simp only [List.map_cons, List.sum_cons]; omega
    · simp only [List.map_cons, List.sum_cons]; omega

theorem Join_Fields_length (s : GoString) : (Join (Fields s) " ".toList).length ≤ s.length := by
  by_cases h : Fields s = []
  · simp [h, Join]
  · have h1 := Join_length (Fields s) h
    have h2 := sum_filter_le (fun t => !t.isEmpty) (splitSpace s)
    have h3 := splitSpace_length s
    unfold Fields at h1 ⊢
    omega

/-! ## The text normalizer: the comment pattern -/

theorem HasComment_cons (c : Char) (s : GoString) (h : HasComment s) : HasComment (c :: s) := by
  obtain ⟨a, m, b, rfl⟩ := h
  exact ⟨c :: a, m, b, by simp⟩

theorem closeComment_some (s rest : GoString) (h : closeComment s = some rest) :
    ∃ m, s = m ++ "-->".toList ++ rest := by
  induction s with
  | nil => simp [closeComment] at h
  | cons c cs ih =>
    unfold closeComment at h
    by_cases hsw : startsWith "-->".toList (c :: cs) = true
    · rw [if_pos hsw] at h
      obtain ⟨b, hb⟩ := (startsWith_iff _ _).mp hsw
      have hcs : cs = '-' :: '>' :: b := by
        have : c :: cs = '-' :: '-' :: '>' :: b := hb
        exact (List.cons.inj this).2
      refine ⟨[], ?_⟩
      rw [hb]
      simp only [Option.some.injEq] at h
      rw [← h, hcs]
      rfl
    · rw [if_neg hsw] at h
      by_cases hn : c = '\n'
      · simp [hn] at h
      · rw [if_neg hn] at h
        obtain ⟨m, hm⟩ := ih h
        exact ⟨c :: m, by rw [hm]; rfl⟩

theorem closeComment_isSome (m b : GoString) (hm : '\n' ∉ m) :
    ∃ rest, closeComment (m ++ "-->".toList ++ b) = some rest := by
  induction m with
  | nil =>
    refine ⟨b, ?_⟩
    show closeComment ('-' :: '-' :: '>' :: b) = some b
    simp [closeComment, startsWith]
  | cons c cs ih =>
    have hc : c ≠ '\n' := fun e => hm (by simp [e])
    obtain ⟨rest, hrest⟩ := ih (fun e => hm (List.mem_cons_of_mem _ e))
    show ∃ rest, closeComment (c :: (cs ++ "-->".toList ++ b)) = some rest
    unfold closeComment
    by_cases hsw : startsWith "-->".toList (c :: (cs ++ "-->".toList ++ b)) = true
    · exact ⟨_, by rw [if_pos hsw]⟩
    · exact ⟨rest, by rw [if_neg hsw, if_neg hc, hrest]⟩

theorem not_HasComment_nil : ¬ HasComment [] := by
  rintro ⟨a, m, b, h⟩
  have := congrArg List.length h
  simp at this
  omega

theorem closeComment_length (s rest : GoString) (h : closeComment s = some rest) :
    rest.length + 3 ≤ s.length := by
  obtain ⟨m, rfl⟩ := closeComment_some s rest h
  simp only [List.length_append]
  have e : "-->".toList.length = 3 := rfl
  omega

theorem startsWith_open (s : GoString) (h : startsWith "<!--".toList s = true) :
    s = "<!--".toList ++ s.drop 4 := by
  obtain ⟨b, rfl⟩ := (startsWith_iff _ _).mp h
  rfl

theorem replaceAllComments_length_le (fuel : Nat) (s : GoString) :
    (replaceAllComments fuel s).length ≤ s.length := by
  induction fuel generalizing s with
  | zero => simp [replaceAllComments]
  | succ f ih =>
    cases s with
    | nil => simp [replaceAllComments]
    | cons c cs =>
      unfold replaceAllComments
      split
      · split
        · rename_i rest hrest
          have h1 := closeComment_length _ _ hrest
          have h2 := ih rest
          have h3 := List.length_drop 3 cs
          simp only [List.length_cons]
          omega
        · simpa using ih cs
      · simpa using ih cs

theorem replaceAllComments_of_no_comment (fuel : Nat) (s : GoString) (h : ¬ HasComment s) :
    replaceAllComments fuel s = s := by
  induction fuel generalizing s with
  | zero => simp [replaceAllComments]
  | succ f ih =>
    cases s with
    | nil => simp [replaceAllComments]
    | cons c cs =>
      have hcs : ¬ HasComment cs := fun hc => h (HasComment_cons c cs hc)
      unfold replaceAllComments
      split
      · rename_i hsw
        split
        · rename_i rest hrest
          exfalso
          apply h
          obtain ⟨m, hm⟩ := closeComment_some _ _ hrest
          have e := startsWith_open _ hsw
          refine ⟨[], m, rest, ?_⟩
          have e4 : (c :: cs).drop 4 = cs.drop 3 := rfl
          rw [e4, hm] at e
          rw [e]
          simp
        · rw [ih cs hcs]
      · rw [ih cs hcs]

theorem replaceAllComments_length_lt (fuel : Nat) (s : GoString) (hf : s.length ≤ fuel)
    (hn : '\n' ∉ s) (h : HasComment s) : (replaceAllComments fuel s).length < s.length := by
  induction fuel generalizing s with
  | zero =>
    have : s = [] := List.length_eq_zero.mp (by omega)
    exact absurd (this ▸ h) not_HasComment_nil
  | succ f ih =>
    cases s with
    | nil => exact absurd h not_HasComment_nil
    | cons c cs =>
      have hncs : '\n' ∉ cs := fun e => hn (List.mem_cons_of_mem _ e)
      have hfcs : cs.length ≤ f := by simpa using hf
      obtain ⟨a, m, b, hab⟩ := h
      unfold replaceAllComments
      by_cases hsw : startsWith "<!--".toList (c :: cs) = true
      · rw [if_pos hsw]
        have e4 : (c :: cs).drop 4 = cs.drop 3 := rfl
        have hlen : 4 ≤ (a ++ "<!--".toList ++ m).length := by
          simp only [List.length_append]
          have : "<!--".toList.length = 4 := rfl
          omega
        have hdrop : cs.drop 3 = (a ++ "<!--".toList ++ m).drop 4 ++ "-->".toList ++ b := by
          rw [← e4, hab]
          have : a ++ "<!--".toList ++ m ++ "-->".toList ++ b
              = (a ++ "<!--".toList ++ m) ++ ("-->".toList ++ b) := by simp
          rw [this, List.drop_append_of_le_length hlen]
          simp
        have hnm : '\n' ∉ (a ++ "<!--".toList ++ m).drop 4 := by
          intro e
          apply hn
          rw [hab]
          have := List.mem_of_mem_drop e
          simp only [List.mem_append] at this ⊢
          tauto
        obtain ⟨rest, hrest⟩ := closeComment_isSome _ b hnm
        rw [← hdrop] at hrest
        simp only [hrest]
        have h1 := closeComment_length _ _ hrest
        have h2 := replaceAllComments_length_le f rest
        have h3 := List.length_drop 3 cs
        simp only [List.length_cons]
        omega
      · rw [if_neg hsw]
        have hcs : HasComment cs := by
          cases a with
          | nil =>
            exfalso
            apply hsw
            rw [hab, startsWith_iff]
            exact ⟨m ++ "-->".toList ++ b, by simp⟩
          | cons x xs =>
            refine ⟨xs, m, b, ?_⟩
            simp only [List.cons_append, List.cons.injEq] at hab
            exact hab.2
        have := ih cs hfcs hncs hcs
        simp only [List.length_cons]
        omega

theorem replaceAllComments_fuel (f1 f2 : Nat) (s : GoString) (h1 : s.length ≤ f1)
    (h2 : s.length ≤ f2) : replaceAllComments f1 s = replaceAllComments f2 s := by
  induction f1 generalizing f2 s with
  | zero =>
    have : s = [] := List.length_eq_zero.mp (by omega)
    subst this
    cases f2 <;> rfl
  | succ f ih =>
    cases s with
    | nil => cases f2 <;> rfl
    | cons c cs =>
      cases f2 with
      | zero => simp at h2
      | succ g =>
        have hf : cs.length ≤ f := by simpa using h1
        have hg : cs.length ≤ g := by simpa using h2
        unfold replaceAllComments
        split
        · split
          · rename_i rest hrest
            have h3 := closeComment_length _ _ hrest
            have h4 := List.length_drop 3 cs
            exact ih g rest (by omega) (by omega)
          · rw [ih g cs hf hg]
        · rw [ih g cs hf hg]

theorem hasComment_iff (s : GoString) : hasComment s = true ↔ HasComment s := by
  induction s with
  | nil => simp [hasComment, not_HasComment_nil]
  | cons c cs ih =>
    have e4 : (c :: cs).drop 4 = cs.drop 3 := rfl
    simp only [hasComment, Bool.or_eq_true, Bool.and_eq_true, ih]
    constructor
    · rintro (⟨hsw, hc⟩ | h)
      · obtain ⟨m, b, hmb⟩ := (Contains_iff _ _).mp hc
        have e := startsWith_open _ hsw
        rw [e4, hmb] at e
        exact ⟨[], m, b, by rw [e]; simp⟩
      · exact HasComment_cons c cs h
    · rintro ⟨a, m, b, hab⟩
      cases a with
      | nil =>
        left
        have hsw : startsWith "<!--".toList (c :: cs) = true := by
          rw [hab, startsWith_iff]
          exact ⟨m ++ "-->".toList ++ b, by simp⟩
        refine ⟨hsw, ?_⟩
        rw [Contains_iff]
        refine ⟨m, b, ?_⟩
        rw [← e4, hab]
        rfl
      | cons x xs =>
        right
        simp only [List.cons_append, List.cons.injEq] at hab
        exact ⟨xs, m, b, hab.2⟩

/-- C3 (as amended): `cleanText` applied twice gives the same text as applied once exactly for
the texts `x` whose cleaned text holds no `<!--` followed later by `-->`. -/
theorem C3_cleanText_idempotent_iff (x : GoString) :
    Appstoremulti3.cleanText (Appstoremulti3.cleanText x) = Appstoremulti3.cleanText x
      ↔ hasComment (Appstoremulti3.cleanText x) = false := by
  rw [← Bool.not_eq_true, hasComment_iff]
  constructor
  · intro h hc
    have h1 := replaceAllComments_length_lt (Appstoremulti3.cleanText x).length _ (le_refl _)
      (cleanText_no_newline x) hc
    have h2 := Join_Fields_length (cleanupRegex_ReplaceAllString (Appstoremulti3.cleanText x))
    rw [← cleanText_eq_Join, h] at h2
    unfold cleanupRegex_ReplaceAllString at h2
    omega
  · intro hc
    have h1 : cleanupRegex_ReplaceAllString (Appstoremulti3.cleanText x)
        = Appstoremulti3.cleanText x :=
      replaceAllComments_of_no_comment _ _ hc
    rw [cleanText_eq_Join (Appstoremulti3.cleanText x), h1, Fields_cleanText,
      ← cleanText_eq_Join]

/-- C3 fails as stated: dropping the comment `<!---->` from `"<!-<!---->- a -->"` leaves the
text `"<!-- a -->"`, which a second `cleanText` empties. -/
theorem C3_cleanText_not_idempotent :
    Appstoremulti3.cleanText "<!-<!---->- a -->".toList = "<!-- a -->".toList
      ∧ Appstoremulti3.cleanText (Appstoremulti3.cleanText "<!-<!---->- a -->".toList) = []
      ∧ Appstoremulti3.cleanText (Appstoremulti3.cleanText "<!-<!---->- a -->".toList)
          ≠ Appstoremulti3.cleanText "<!-<!---->- a -->".toList
      ∧ hasComment (Appstoremulti3.cleanText "<!-<!---->- a -->".toList) = true := by
  decide

/-! ## The split on the first period -/

theorem SplitN_two_of_period (a b : GoString) (ha : '.' ∉ a) :
    SplitN (a ++ '.' :: b) '.' 2 = [a, b] := by
  simp [SplitN, cut_append_sep '.' a b ha]

theorem rankAndName_of_period (a b : GoString) (ha : '.' ∉ a) :
    rankAndName (a ++ '.' :: b) = some (TrimSpace a, TrimSpace b) := by
  unfold rankAndName
  simp [SplitN_two_of_period a b ha]

theorem rankAndName_none_of_no_period (s : GoString) (h : '.' ∉ s) : rankAndName s = none := by
  unfold rankAndName
  simp [SplitN, cut_eq_none '.' s h]

theorem multi3_eachLink_eq (store pfx : GoString) (d : Appstoremulti3.AppInfo)
    (s : Appstoremulti3.AppLink) :
    Appstoremulti3.eachLink store pfx d s
      = match rankAndName (Appstoremulti3.cleanText s.text) with
        | none => d
        | some (rank, name) =>
          match matchedIdentity name (s.title.getD []) with
          | none => d
          | some .Coinbase =>
            if pfx = "US".toList then
              if store = "ios".toList then { d with US_iOS_CoinbaseRank := rank }
              else { d with US_Play_CoinbaseRank := rank }
            else
              if store = "ios".toList then { d with UK_iOS_CoinbaseRank := rank }
              else { d with UK_Play_CoinbaseRank := rank }
          | some .OKX =>
            if pfx = "US".toList then
              if store = "ios".toList then { d with US_iOS_OKXRank := rank }
              else { d with US_Play_OKXRank := rank }
            else
              if store = "ios".toList then { d with UK_iOS_OKXRank := rank }
              else { d with UK_Play_OKXRank := rank }
          | some .Trust =>
            if pfx = "US".toList then
              if store = "ios".toList then { d with US_iOS_TrustRank := rank }
              else { d with US_Play_TrustRank := rank }
            else
              if store = "ios".toList then { d with UK_iOS_TrustRank := rank }
              else { d with UK_Play_TrustRank := rank } := by
  unfold Appstoremulti3.eachLink rankAndName matchedIdentity
  by_cases hlen : (SplitN (Appstoremulti3.cleanText s.text) '.' 2).length ≠ 2
  · simp only [if_pos hlen]
  · simp only [if_neg hlen]
    split_ifs <;> rfl

theorem multi1_eachBlock_eq (pfx : GoString) (d : Appstoremulti1.AppInfo)
    (s : Appstoremulti1.AppLink) :
    Appstoremulti1.eachBlock pfx d s
      = match rankAndName (TrimSpace s.text) with
        | none => d
        | some (rank, name) =>
          match matchedIdentity name (s.title.getD []) with
          | none => d
          | some .Coinbase =>
            if pfx = "US".toList then { d with US_CoinbaseRank := rank }
            else if pfx = "UK".toList then { d with UK_CoinbaseRank := rank }
            else d
          | some .OKX =>
            if pfx = "US".toList then { d with US_OKXRank := rank }
            else if pfx = "UK".toList then { d with UK_OKXRank := rank }
            else d
          | some .Trust =>
            if pfx = "US".toList then { d with US_TrustRank := rank }
            else if pfx = "UK".toList then { d with UK_TrustRank := rank }
            else d := by
  unfold Appstoremulti1.eachBlock rankAndName matchedIdentity
  by_cases hlen : (SplitN (TrimSpace s.text) '.' 2).length ≠ 2
  · simp only [if_pos hlen]
  · simp only [if_neg hlen]
    split_ifs <;> rfl

theorem multi3_rankField_hit (store pfx : GoString) (d : Appstoremulti3.AppInfo)
    (s : Appstoremulti3.AppLink) (id : Identity) (r : GoString)
    (h : Appstoremulti3.entryOf s = some (id, r)) :
    Appstoremulti3.rankField store pfx id (Appstoremulti3.eachLink store pfx d s) = r := by
  rw [multi3_eachLink_eq]
  unfold Appstoremulti3.entryOf at h
  cases hrn : rankAndName (Appstoremulti3.cleanText s.text) with
  | none => simp [hrn] at h
  | some p =>
    obtain ⟨rank, name⟩ := p
    simp only [hrn] at h ⊢
    cases hm : matchedIdentity name (s.title.getD []) with
    | none => simp [hm] at h
    | some id' =>
      simp only [hm, Option.some.injEq, Prod.mk.injEq] at h ⊢
      obtain ⟨rfl, rfl⟩ := h
      unfold Appstoremulti3.rankField
      cases id' <;> dsimp only <;> split_ifs <;> rfl

theorem multi3_rankField_miss (store pfx : GoString) (d : Appstoremulti3.AppInfo)
    (s : Appstoremulti3.AppLink) (id : Identity)
    (h : ∀ r, Appstoremulti3.entryOf s ≠ some (id, r)) :
    Appstoremulti3.rankField store pfx id (Appstoremulti3.eachLink store pfx d s)
      = Appstoremulti3.rankField store pfx id d := by
  rw [multi3_eachLink_eq]
  unfold Appstoremulti3.entryOf at h
  cases hrn : rankAndName (Appstoremulti3.cleanText s.text) with
  | none => rfl
  | some p =>
    obtain ⟨rank, name⟩ := p
    simp only [hrn] at h ⊢
    cases hm : matchedIdentity name (s.title.getD []) with
    | none => rfl
    | some id' =>
      simp only [hm, ne_eq, Option.some.injEq, Prod.mk.injEq] at h ⊢
      have hne : id' ≠ id := fun e => h rank ⟨e, rfl⟩
      unfold Appstoremulti3.rankField
      cases id' <;> cases id <;> first | exact absurd rfl hne | skip
      all_goals (dsimp only; split_ifs <;> rfl)

theorem multi1_rankField_hit (pfx : GoString) (d : Appstoremulti1.AppInfo)
    (s : Appstoremulti1.AppLink) (id : Identity) (r : GoString)
    (hp : pfx = "US".toList ∨ pfx = "UK".toList)
    (h : Appstoremulti1.entryOf s = some (id, r)) :
    Appstoremulti1.rankField pfx id (Appstoremulti1.eachBlock pfx d s) = r := by
  rw [multi1_eachBlock_eq]
  unfold Appstoremulti1.entryOf at h
  cases hrn : rankAndName (TrimSpace s.text) with
  | none => simp [hrn] at h
  | some p =>
    obtain ⟨rank, name⟩ := p
    simp only [hrn] at h ⊢
    cases hm : matchedIdentity name (s.title.getD []) with
    | none => simp [hm] at h
    | some id' =>
      simp only [hm, Option.some.injEq, Prod.mk.injEq] at h ⊢
      obtain ⟨rfl, rfl⟩ := h
      unfold Appstoremulti1.rankField
      rcases hp with h1 | h2
      · cases id' <;> dsimp only <;> split_ifs <;> rfl
      · have h1 : ¬ pfx = "US".toList := by rw [h2]; decide
        cases id' <;> dsimp only <;> split_ifs <;> rfl

theorem multi1_rankField_miss (pfx : GoString) (d : Appstoremulti1.AppInfo)
    (s : Appstoremulti1.AppLink) (id : Identity)
    (h : ∀ r, Appstoremulti1.entryOf s ≠ some (id, r)) :
    Appstoremulti1.rankField pfx id (Appstoremulti1.eachBlock pfx d s)
      = Appstoremulti1.rankField pfx id d := by
  rw [multi1_eachBlock_eq]
  unfold Appstoremulti1.entryOf at h
  cases hrn : rankAndName (TrimSpace s.text) with
  | none => rfl
  | some p =>
    obtain ⟨rank, name⟩ := p
    simp only [hrn] at h ⊢
    cases hm : matchedIdentity name (s.title.getD []) with
    | none => rfl
    | some id' =>
      simp only [hm, ne_eq, Option.some.injEq, Prod.mk.injEq] at h ⊢
      have hne : id' ≠ id := fun e => h rank ⟨e, rfl⟩
      unfold Appstoremulti1.rankField
      cases id' <;> cases id <;> first | exact absurd rfl hne | skip
      all_goals (dsimp only; split_ifs <;> rfl)

theorem multi1_rankField_foldl_miss (pfx : GoString) (id : Identity)
    (links : List Appstoremulti1.AppLink) (d : Appstoremulti1.AppInfo)
    (h : ∀ e ∈ links, (Appstoremulti1.entryOf e).map Prod.fst ≠ some id) :
    Appstoremulti1.rankField pfx id (links.foldl (Appstoremulti1.eachBlock pfx) d)
      = Appstoremulti1.rankField pfx id d := by
  induction links generalizing d with
  | nil => rfl
  | cons e es ih =>
    rw [List.foldl_cons, ih _ (fun x hx => h x (List.mem_cons_of_mem _ hx))]
    apply multi1_rankField_miss
    intro r hr
    exact h e (List.mem_cons_self _ _) (by rw [hr]; rfl)

theorem multi3_rankField_foldl_miss (store pfx : GoString) (id : Identity)
    (links : List Appstoremulti3.AppLink) (d : Appstoremulti3.AppInfo)
    (h : ∀ e ∈ links, (Appstoremulti3.entryOf e).map Prod.fst ≠ some id) :
    Appstoremulti3.rankField store pfx id (links.foldl (Appstoremulti3.eachLink store pfx) d)
      = Appstoremulti3.rankField store pfx id d := by
  induction links generalizing d with
  | nil => rfl
  | cons e es ih =>
    rw [List.foldl_cons, ih _ (fun x hx => h x (List.mem_cons_of_mem _ hx))]
    apply multi3_rankField_miss
    intro r hr
    exact h e (List.mem_cons_self _ _) (by rw [hr]; rfl)

theorem matchedIdentity_coinbase_iff (name title : GoString) :
    matchedIdentity name title = some .Coinbase
      ↔ (Contains name "Coinbase".toList = true ∨ Contains title "Coinbase".toList = true) := by
  rw [← Bool.or_eq_true]
  unfold matchedIdentity
  split_ifs with h1 h2 h3 <;> simp_all

/-- C13: `scrapeAppBlock` splits the trimmed text on its first period only: when the trimmed
text is `a ++ "." ++ b` with no period in `a`, the entry is accepted, `Rank` is `a` trimmed
and `Name` is all of `b` trimmed, later periods included; the loop of `appstoremulti3.go`
splits its cleaned text the same way, recording `a` trimmed as the rank of the identity that
`b` trimmed (or the title) matches; `"5. Crypto.com"` gives the rank `"5"` and the name
`"Crypto.com"`. -/
theorem C13_split_on_first_period_only (a b : GoString) (ha : '.' ∉ a) :
    (∀ t, TrimSpace t = a ++ '.' :: b →
        scrapeAppBlock t = (⟨TrimSpace a, TrimSpace b, [], []⟩, true))
      ∧ (∀ (s : Appstoremulti3.AppLink) (store pfx : GoString) (d : Appstoremulti3.AppInfo)
          (id : Identity), Appstoremulti3.cleanText s.text = a ++ '.' :: b →
          matchedIdentity (TrimSpace b) (s.title.getD []) = some id →
          Appstoremulti3.rankField store pfx id (Appstoremulti3.eachLink store pfx d s)
            = TrimSpace a)
      ∧ scrapeAppBlock "5. Crypto.com".toList
          = (⟨"5".toList, "Crypto.com".toList, [], []⟩, true) := by
  refine ⟨?_, ?_, by decide⟩
  · intro t ht
    unfold scrapeAppBlock
    simp only [ht, SplitN_two_of_period a b ha]
    simp
  · intro s store pfx d id hs hm
    apply multi3_rankField_hit
    unfold Appstoremulti3.entryOf
    rw [hs, rankAndName_of_period a b ha]
    simp only [hm]

theorem C13_split_on_first_period_only_witness :
    (∀ t, TrimSpace t = "5".toList ++ '.' :: " Crypto.com".toList →
        scrapeAppBlock t
          = (⟨TrimSpace "5".toList, TrimSpace " Crypto.com".toList, [], []⟩, true))
      ∧ (∀ (s : Appstoremulti3.AppLink) (store pfx : GoString) (d : Appstoremulti3.AppInfo)
          (id : Identity),
          Appstoremulti3.cleanText s.text = "5".toList ++ '.' :: " Crypto.com".toList →
          matchedIdentity (TrimSpace " Crypto.com".toList) (s.title.getD []) = some id →
          Appstoremulti3.rankField store pfx id (Appstoremulti3.eachLink store pfx d s)
            = TrimSpace "5".toList)
      ∧ scrapeAppBlock "5. Crypto.com".toList
          = (⟨"5".toList, "Crypto.com".toList, [], []⟩, true) :=
  C13_split_on_first_period_only "5".toList " Crypto.com".toList (by decide)

theorem matchedIdentity_iff (name title : GoString) :
    (matchedIdentity name title = some .Coinbase
        ↔ (Contains name "Coinbase".toList || Contains title "Coinbase".toList) = true)
      ∧ (matchedIdentity name title = some .OKX
        ↔ (Contains name "Coinbase".toList || Contains title "Coinbase".toList) = false
          ∧ (Contains name "OKX".toList || Contains title "OKX".toList) = true)
      ∧ (matchedIdentity name title = some .Trust
        ↔ (Contains name "Coinbase".toList || Contains title "Coinbase".toList) = false
          ∧ (Contains name "OKX".toList || Contains title "OKX".toList) = false
          ∧ (Contains name "Trust".toList || Contains title "Trust".toList) = true) := by
  unfold matchedIdentity
  generalize (Contains name "Coinbase".toList || Contains title "Coinbase".toList) = a
  generalize (Contains name "OKX".toList || Contains title "OKX".toList) = b
  generalize (Contains name "Trust".toList || Contains title "Trust".toList) = c
  cases a <;> cases b <;> cases c <;> simp

/-- C19 (as amended): in the identity-matching loops of `appstoremulti1.go` and
`appstoremulti3.go` an entry counts for one identity only, the one whose case of the `switch`
it takes: the first of Coinbase, OKX and Trust that its name or its title contains. When an
entry with the rank `r` counts for an identity and no entry after it on the page counts for
that identity, the rank recorded for the identity is `r`, whatever entries stand before it:
each later entry that counts for the identity overwrites the earlier ones. -/
theorem C19_last_match_is_recorded (id id3 : Identity)
    (r r3 country country3 store pfx pfx3 : GoString)
    (d : Appstoremulti1.AppInfo) (before after : List Appstoremulti1.AppLink)
    (e : Appstoremulti1.AppLink)
    (d3 : Appstoremulti3.AppInfo) (before3 after3 : List Appstoremulti3.AppLink)
    (e3 : Appstoremulti3.AppLink)
    (hp : pfx = "US".toList ∨ pfx = "UK".toList)
    (he : Appstoremulti1.entryOf e = some (id, r))
    (hafter : ∀ x ∈ after, (Appstoremulti1.entryOf x).map Prod.fst ≠ some id)
    (he3 : Appstoremulti3.entryOf e3 = some (id3, r3))
    (hafter3 : ∀ x ∈ after3, (Appstoremulti3.entryOf x).map Prod.fst ≠ some id3) :
    Appstoremulti1.rankField pfx id
        (Appstoremulti1.scrapeTopApps (.ok (before ++ e :: after)) country d pfx) = r
      ∧ Appstoremulti3.rankField store pfx3 id3
        (Appstoremulti3.scrapeTopApps (.ok (before3 ++ e3 :: after3)) country3 store d3 pfx3)
          = r3
      ∧ (∀ name title : GoString,
          (matchedIdentity name title = some .Coinbase
            ↔ (Contains name "Coinbase".toList || Contains title "Coinbase".toList) = true)
          ∧ (matchedIdentity name title = some .OKX
            ↔ (Contains name "Coinbase".toList || Contains title "Coinbase".toList) = false
              ∧ (Contains name "OKX".toList || Contains title "OKX".toList) = true)
          ∧ (matchedIdentity name title = some .Trust
            ↔ (Contains name "Coinbase".toList || Contains title "Coinbase".toList) = false
              ∧ (Contains name "OKX".toList || Contains title "OKX".toList) = false
              ∧ (Contains name "Trust".toList || Contains title "Trust".toList) = true)) := by
  refine ⟨?_, ?_, matchedIdentity_iff⟩
  · show Appstoremulti1.rankField pfx id (List.foldl _ d (before ++ e :: after)) = r
    rw [List.foldl_append, List.foldl_cons, multi1_rankField_foldl_miss pfx id after _ hafter]
    exact multi1_rankField_hit pfx _ e id r hp he
  · show Appstoremulti3.rankField store pfx3 id3
      (List.foldl _ d3 (before3 ++ e3 :: after3)) = r3
    rw [List.foldl_append, List.foldl_cons,
      multi3_rankField_foldl_miss store pfx3 id3 after3 _ hafter3]
    exact multi3_rankField_hit store pfx3 _ e3 id3 r3 he3

theorem C19_last_match_is_recorded_witness :
    Appstoremulti1.rankField "US".toList Identity.Coinbase
        (Appstoremulti1.scrapeTopApps
          (.ok ([⟨"1. Coinbase".toList, none⟩]
            ++ ⟨"3. Coinbase Wallet".toList, none⟩ :: [⟨"4. OKX".toList, none⟩]))
          "united-states".toList ⟨[], [], [], [], [], [], []⟩ "US".toList) = "3".toList
      ∧ Appstoremulti3.rankField "play".toList "UK".toList Identity.OKX
        (Appstoremulti3.scrapeTopApps
          (.ok ([⟨"1.<!-- --> OKX".toList, none⟩]
            ++ ⟨"5. Wallet".toList, some "OKX Wallet".toList⟩
              :: [⟨"6. Coinbase vs OKX".toList, none⟩]))
          "united-kingdom".toList "play".toList
          ⟨[], [], [], [], [], [], [], [], [], [], [], [], [], [], []⟩ "UK".toList)
          = "5".toList :=
  have h := C19_last_match_is_recorded Identity.Coinbase Identity.OKX "3".toList "5".toList
    "united-states".toList "united-kingdom".toList "play".toList
    "US".toList "UK".toList ⟨[], [], [], [], [], [], []⟩ [⟨"1. Coinbase".toList, none⟩]
    [⟨"4. OKX".toList, none⟩] ⟨"3. Coinbase Wallet".toList, none⟩
    ⟨[], [], [], [], [], [], [], [], [], [], [], [], [], [], []⟩
    [⟨"1.<!-- --> OKX".toList, none⟩] [⟨"6. Coinbase vs OKX".toList, none⟩]
    ⟨"5. Wallet".toList, some "OKX Wallet".toList⟩
    (by decide) (by decide) (by decide) (by decide) (by decide)
  ⟨h.1, h.2.1⟩

/-- C19 fails as stated: on the page `1. OKX: Buy Bitcoin`, `2. Coinbase vs OKX` the last
entry whose name contains `OKX` has the rank 2, and the rank recorded for OKX is 1: the second
entry takes the case of Coinbase and is recorded there, in `appstoremulti1.go` and in
`appstoremulti3.go`. -/
theorem C19_entry_of_two_identities_counts_for_the_first :
    Contains "Coinbase vs OKX".toList "OKX".toList = true
      ∧ Appstoremulti1.scrapeTopApps
          (.ok [⟨"1. OKX: Buy Bitcoin".toList, none⟩, ⟨"2. Coinbase vs OKX".toList, none⟩])
          "united-states".toList ⟨[], [], [], [], [], [], []⟩ "US".toList
        = ⟨[], "2".toList, "1".toList, [], [], [], []⟩
      ∧ Appstoremulti3.scrapeTopApps
          (.ok [⟨"1. OKX: Buy Bitcoin".toList, none⟩, ⟨"2. Coinbase vs OKX".toList, none⟩])
          "united-states".toList "ios".toList
          ⟨[], [], [], [], [], [], [], [], [], [], [], [], [], [], []⟩ "US".toList
        = ⟨[], [], [], "2".toList, "1".toList, [], [], [], [], [], [], [], [], [], []⟩ := by
  decide

/-! ## The frame of `scrapeTopApps` of `appstoremulti1.go` -/

theorem multi1_eachBlock_frame (pfx : GoString) (d : Appstoremulti1.AppInfo)
    (s : Appstoremulti1.AppLink) :
    (Appstoremulti1.eachBlock pfx d s).Timestamp = d.Timestamp
      ∧ (pfx = "US".toList →
          (Appstoremulti1.eachBlock pfx d s).UK_CoinbaseRank = d.UK_CoinbaseRank
          ∧ (Appstoremulti1.eachBlock pfx d s).UK_OKXRank = d.UK_OKXRank
          ∧ (Appstoremulti1.eachBlock pfx d s).UK_TrustRank = d.UK_TrustRank)
      ∧ (pfx = "UK".toList →
          (Appstoremulti1.eachBlock pfx d s).US_CoinbaseRank = d.US_CoinbaseRank
          ∧ (Appstoremulti1.eachBlock pfx d s).US_OKXRank = d.US_OKXRank
          ∧ (Appstoremulti1.eachBlock pfx d s).US_TrustRank = d.US_TrustRank)
      ∧ (pfx ≠ "US".toList → pfx ≠ "UK".toList → Appstoremulti1.eachBlock pfx d s = d) := by
  have hne : "UK".toList ≠ "US".toList := by decide
  rw [multi1_eachBlock_eq]
  cases rankAndName (TrimSpace s.text) with
  | none => simp
  | some p =>
    obtain ⟨rank, name⟩ := p
    dsimp only
    cases matchedIdentity name (s.title.getD []) with
    | none => simp
    | some id =>
      refine ⟨?_, ?_, ?_, ?_⟩
      · cases id <;> (dsimp only; split_ifs <;> rfl)
      · intro h
        cases id <;> (dsimp only; rw [if_pos h]; exact ⟨rfl, rfl, rfl⟩)
      · intro h
        have h' : ¬ pfx = "US".toList := by rw [h]; exact hne
        cases id <;> (dsimp only; rw [if_neg h', if_pos h]; exact ⟨rfl, rfl, rfl⟩)
      · intro h1 h2
        cases id <;> (dsimp only; rw [if_neg h1, if_neg h2])

theorem multi1_foldl_frame (pfx : GoString) (links : List Appstoremulti1.AppLink)
    (d : Appstoremulti1.AppInfo) :
    (links.foldl (Appstoremulti1.eachBlock pfx) d).Timestamp = d.Timestamp
      ∧ (pfx = "US".toList →
          (links.foldl (Appstoremulti1.eachBlock pfx) d).UK_CoinbaseRank = d.UK_CoinbaseRank
          ∧ (links.foldl (Appstoremulti1.eachBlock pfx) d).UK_OKXRank = d.UK_OKXRank
          ∧ (links.foldl (Appstoremulti1.eachBlock pfx) d).UK_TrustRank = d.UK_TrustRank)
      ∧ (pfx = "UK".toList →
          (links.foldl (Appstoremulti1.eachBlock pfx) d).US_CoinbaseRank = d.US_CoinbaseRank
          ∧ (links.foldl (Appstoremulti1.eachBlock pfx) d).US_OKXRank = d.US_OKXRank
          ∧ (links.foldl (Appstoremulti1.eachBlock pfx) d).US_TrustRank = d.US_TrustRank)
      ∧ (pfx ≠ "US".toList → pfx ≠ "UK".toList →
          links.foldl (Appstoremulti1.eachBlock pfx) d = d) := by
  induction links generalizing d with
  | nil => exact ⟨rfl, fun _ => ⟨rfl, rfl, rfl⟩, fun _ => ⟨rfl, rfl, rfl⟩, fun _ _ => rfl⟩
  | cons l ls ih =>
    rw [List.foldl_cons]
    obtain ⟨f1, f2, f3, f4⟩ := multi1_eachBlock_frame pfx d l
    obtain ⟨i1, i2, i3, i4⟩ := ih (Appstoremulti1.eachBlock pfx d l)
    refine ⟨i1.trans f1, ?_, ?_, ?_⟩
    · intro h
      obtain ⟨a1, a2, a3⟩ := i2 h
      obtain ⟨b1, b2, b3⟩ := f2 h
      exact ⟨a1.trans b1, a2.trans b2, a3.trans b3⟩
    · intro h
      obtain ⟨a1, a2, a3⟩ := i3 h
      obtain ⟨b1, b2, b3⟩ := f3 h
      exact ⟨a1.trans b1, a2.trans b2, a3.trans b3⟩
    · intro h1 h2
      rw [i4 h1 h2, f4 h1 h2]

/-- C20: `scrapeTopApps` of `appstoremulti1.go` keeps `Timestamp` in every call; a call with
the prefix `US` returns the `UK_*` fields of its input, a call with the prefix `UK` returns the
`US_*` fields of its input, and a call with any other prefix returns `appData` itself; so does
a call whose page could not be loaded. -/
theorem C20_only_the_called_country_changes (page : Except String (List Appstoremulti1.AppLink))
    (country pfx : GoString) (appData : Appstoremulti1.AppInfo) :
    (Appstoremulti1.scrapeTopApps page country appData pfx).Timestamp = appData.Timestamp
      ∧ (pfx = "US".toList →
          (Appstoremulti1.scrapeTopApps page country appData pfx).UK_CoinbaseRank
              = appData.UK_CoinbaseRank
          ∧ (Appstoremulti1.scrapeTopApps page country appData pfx).UK_OKXRank
              = appData.UK_OKXRank
          ∧ (Appstoremulti1.scrapeTopApps page country appData pfx).UK_TrustRank
              = appData.UK_TrustRank)
      ∧ (pfx = "UK".toList →
          (Appstoremulti1.scrapeTopApps page country appData pfx).US_CoinbaseRank
              = appData.US_CoinbaseRank
          ∧ (Appstoremulti1.scrapeTopApps page country appData pfx).US_OKXRank
              = appData.US_OKXRank
          ∧ (Appstoremulti1.scrapeTopApps page country appData pfx).US_TrustRank
              = appData.US_TrustRank)
      ∧ (pfx ≠ "US".toList → pfx ≠ "UK".toList →
          Appstoremulti1.scrapeTopApps page country appData pfx = appData)
      ∧ (∀ e, Appstoremulti1.scrapeTopApps (.error e) country appData pfx = appData) := by
  cases page with
  | error e =>
    exact ⟨rfl, fun _ => ⟨rfl, rfl, rfl⟩, fun _ => ⟨rfl, rfl, rfl⟩, fun _ _ => rfl, fun _ => rfl⟩
  | ok links =>
    obtain ⟨h1, h2, h3, h4⟩ := multi1_foldl_frame pfx links appData
    exact ⟨h1, h2, h3, h4, fun _ => rfl⟩

/-! ## The sinks of `appstoremulti3.go` and `appstore.go`, and the fetch steps -/

theorem writeHeaderRows_of_takes (f : Faults) (file : List Row) (hf : f.fileWrite = false) :
    Appstoremulti3.writeHeaderRows f file
      = ⟨if file = [] then
            [[], Appstoremulti3.timestampRow, Appstoremulti3.storeHeaders,
              Appstoremulti3.appHeaders]
          else [],
          (Appstoremulti3.writeHeaderRows f file).pending, false⟩ := by
  unfold Appstoremulti3.writeHeaderRows
  by_cases h : file = []
  · subst h
    simp [CsvWriter.Write, CsvWriter.NewWriter, hf]
  · have h2 : file.length ≠ 0 := fun e => h (List.length_eq_zero.mp e)
    simp [CsvWriter.NewWriter, h, h2]

theorem byteLen_header_rows :
    byteLen (csvLine []) = 1 ∧ byteLen (csvLine Appstoremulti3.timestampRow) = 22
      ∧ byteLen (csvLine Appstoremulti3.storeHeaders) = 140
      ∧ byteLen (csvLine Appstoremulti3.appHeaders) = 106 := by
  set_option maxRecDepth 100000 in
  decide

theorem writeHeaderRows_err (f : Faults) (file : List Row) :
    (Appstoremulti3.writeHeaderRows f file).err = false := by
  cases hf : f.fileWrite with
  | false => rw [writeHeaderRows_of_takes f file hf]
  | true =>
    unfold Appstoremulti3.writeHeaderRows
    by_cases h : file.length = 0
    · obtain ⟨e1, e2, e3, e4⟩ := byteLen_header_rows
      simp [CsvWriter.Write, CsvWriter.NewWriter, hf, h, e1, e2, e3, e4, bufSize]
    · simp [CsvWriter.NewWriter, h]

theorem multi3_saveToCSV_ok (d : Appstoremulti3.AppInfo) (disk : Disk) :
    Appstoremulti3.saveToCSV d disk Faults.none
      = .ok (⟨true, some (disk.file.getD []
            ++ (if disk.file.getD [] = [] then
                [[], Appstoremulti3.timestampRow, Appstoremulti3.storeHeaders,
                  Appstoremulti3.appHeaders]
              else [])
            ++ [Appstoremulti3.record d])⟩, Appstoremulti3.filename) := by
  have hf : Faults.none.fileWrite = false := rfl
  unfold Appstoremulti3.saveToCSV
  dsimp only
  rw [writeHeaderRows_of_takes _ _ hf, Write_of_takes _ _ _ hf rfl, Flush_of_takes _ _ _ hf]
  simp [Faults.none]
/-- C14: `saveToCSV` of `appstoremulti3.go`, when every call succeeds, writes to a new or an
empty file one blank row, the three header rows and one data row, and appends to a file that
has records one data row only; each of the three header rows and the data row has 14
columns. -/
theorem C14_wide_layout (appData : Appstoremulti3.AppInfo) (dir : Bool) (rows : List Row)
    (hrows : rows ≠ []) :
    Appstoremulti3.saveToCSV appData ⟨dir, none⟩ Faults.none
        = .ok (⟨true, some [[], Appstoremulti3.timestampRow, Appstoremulti3.storeHeaders,
            Appstoremulti3.appHeaders, Appstoremulti3.record appData]⟩, Appstoremulti3.filename)
      ∧ Appstoremulti3.saveToCSV appData ⟨dir, some []⟩ Faults.none
        = .ok (⟨true, some [[], Appstoremulti3.timestampRow, Appstoremulti3.storeHeaders,
            Appstoremulti3.appHeaders, Appstoremulti3.record appData]⟩, Appstoremulti3.filename)
      ∧ Appstoremulti3.saveToCSV appData ⟨dir, some rows⟩ Faults.none
        = .ok (⟨true, some (rows ++ [Appstoremulti3.record appData])⟩, Appstoremulti3.filename)
      ∧ Appstoremulti3.timestampRow.length = 14
      ∧ Appstoremulti3.storeHeaders.length = 14
      ∧ Appstoremulti3.appHeaders.length = 14
      ∧ (Appstoremulti3.record appData).length = 14 := by
  refine ⟨?_, ?_, ?_, by decide, by decide, by decide, rfl⟩
  · rw [multi3_saveToCSV_ok]; simp
  · rw [multi3_saveToCSV_ok]; simp
  · rw [multi3_saveToCSV_ok]; simp [hrows]

theorem C14_wide_layout_witness :
    Appstoremulti3.saveToCSV
        ⟨[], "2024-05-01".toList, "10:00:00".toList, "3".toList, [], [], [], [], [], [], [], [],
          [], [], []⟩ ⟨true, some [[], Appstoremulti3.timestampRow]⟩ Faults.none
      = .ok (⟨true, some [[], Appstoremulti3.timestampRow,
          ["2024-05-01".toList, "10:00:00".toList, "3".toList, [], [], [], [], [], [], [], [], [],
            [], []]]⟩, Appstoremulti3.filename) :=
  (C14_wide_layout
    ⟨[], "2024-05-01".toList, "10:00:00".toList, "3".toList, [], [], [], [], [], [], [], [],
      [], [], []⟩ true [[], Appstoremulti3.timestampRow] (by decide)).2.2.1

theorem writeRecords_of_takes (f : Faults) (apps : List AppInfo) (w : CsvWriter)
    (logged : List Row) (hf : f.fileWrite = false) (hw : w.err = false) :
    (Appstore.writeRecords f apps w logged).1.records
        = w.records ++ apps.map (fun a => [a.Rank, a.Name])
      ∧ (Appstore.writeRecords f apps w logged).2 = logged := by
  induction apps generalizing w logged with
  | nil => simp [Appstore.writeRecords]
  | cons a as ih =>
    unfold Appstore.writeRecords
    dsimp only
    rw [Write_of_takes f w _ hf hw]
    obtain ⟨h1, h2⟩ := ih ⟨w.records ++ [[a.Rank, a.Name]],
      w.pending + byteLen (csvLine [a.Rank, a.Name]), false⟩ logged rfl
    simp only [Bool.false_eq_true, if_false]
    rw [h1, h2]
    simp

theorem writeRecords_of_err (f : Faults) (apps : List AppInfo) (w : CsvWriter)
    (logged : List Row) (hw : w.err = true) :
    Appstore.writeRecords f apps w logged
      = (w, logged ++ apps.map (fun a => [a.Rank, a.Name])) := by
  induction apps generalizing logged with
  | nil => simp [Appstore.writeRecords]
  | cons a as ih =>
    unfold Appstore.writeRecords
    dsimp only
    rw [Write_of_err f w _ hw]
    simp only [if_true]
    rw [ih]
    simp

theorem writeRecords_logged (f : Faults) (apps : List AppInfo) (w : CsvWriter)
    (logged : List Row) :
    ∃ k, (Appstore.writeRecords f apps w logged).2
      = logged ++ (apps.drop k).map (fun a => [a.Rank, a.Name]) := by
  induction apps generalizing w logged with
  | nil => exact ⟨0, by simp [Appstore.writeRecords]⟩
  | cons a as ih =>
    cases h : (CsvWriter.Write f w [a.Rank, a.Name]).2 with
    | true =>
      refine ⟨0, ?_⟩
      have he : (CsvWriter.Write f w [a.Rank, a.Name]).1.err = true := by
        rw [Write_err_iff, h]
      unfold Appstore.writeRecords
      dsimp only
      rw [h, writeRecords_of_err f _ _ _ he]
      simp
    | false =>
      obtain ⟨k, hk⟩ := ih (CsvWriter.Write f w [a.Rank, a.Name]).1 logged
      refine ⟨k + 1, ?_⟩
      unfold Appstore.writeRecords
      dsimp only
      rw [h]
      simpa using hk

theorem Write_headers (f : Faults) :
    (CsvWriter.NewWriter.Write f Appstore.headers).2 = false
      ∧ (CsvWriter.NewWriter.Write f Appstore.headers).1.err = false
      ∧ (f.fileWrite = false →
          (CsvWriter.NewWriter.Write f Appstore.headers).1.records = [Appstore.headers]) := by
  have e : byteLen (csvLine Appstore.headers) = 28 := by decide
  cases hf : f.fileWrite <;>
    simp [CsvWriter.Write, CsvWriter.NewWriter, hf, e, bufSize]

theorem Appstore_saveToCSV_eq (apps : List AppInfo) (timestamp : GoString) (disk : Disk)
    (f : Faults) (hdir : f.mkdirAll = false) (hopen : f.openFile = false) :
    Appstore.saveToCSV apps timestamp disk f
      = .ok (⟨true, some (if f.fileWrite then []
            else Appstore.headers :: apps.map (fun a => [a.Rank, a.Name]))⟩,
          "results/apps_".toList ++ timestamp ++ ".csv".toList) := by
  obtain ⟨h1, h2, h3⟩ := Write_headers f
  unfold Appstore.saveToCSV
  dsimp only
  rw [hdir, hopen, h1]
  simp only [Bool.false_eq_true, if_false]
  cases hf : f.fileWrite with
  | true => rw [Flush_of_fails _ _ _ hf]; simp
  | false =>
    rw [Flush_of_takes _ _ _ hf, (writeRecords_of_takes f apps _ [] hf h2).1, h3 hf]
    simp

/-- C15, the code at the failing input: `saveToCSV` of `appstore.go`, when every call and
every write succeeds, writes the header row with its 4 columns and then, for every app, a
data row with the 2 columns `Rank` and `Name`. -/
theorem C15_appstore_data_rows_have_two_columns (apps : List AppInfo) (timestamp : GoString)
    (disk : Disk) :
    Appstore.saveToCSV apps timestamp disk Faults.none
        = .ok (⟨true, some (Appstore.headers :: apps.map (fun a => [a.Rank, a.Name]))⟩,
            "results/apps_".toList ++ timestamp ++ ".csv".toList)
      ∧ Appstore.headers.length = 4
      ∧ (∀ row ∈ apps.map (fun a => [a.Rank, a.Name]), row.length = 2)
      ∧ Appstore.saveToCSV [⟨"1".toList, "Coinbase".toList, [], []⟩] "t".toList ⟨false, none⟩
          Faults.none
        = .ok (⟨true, some [["Rank".toList, "Name".toList, "Pricing".toList,
            "Developer".toList], ["1".toList, "Coinbase".toList]]⟩,
            "results/apps_t.csv".toList) := by
  refine ⟨?_, by decide, ?_, by decide⟩
  · rw [Appstore_saveToCSV_eq apps timestamp disk Faults.none rfl rfl]
    simp [Faults.none]
  · intro row hrow
    obtain ⟨a, _, rfl⟩ := List.mem_map.mp hrow
    rfl

theorem bufSize_lt_replicate (c : Char) : bufSize < (List.replicate 5000 c).length := by
  rw [List.length_replicate]
  decide

theorem loggedRecords_of_big (f : Faults) (a : AppInfo) (rest : List AppInfo)
    (hf : f.fileWrite = true) (hbig : bufSize < a.Name.length) :
    Appstore.loggedRecords (a :: rest) f = (a :: rest).map (fun a => [a.Rank, a.Name]) := by
  have h := Write_overflow f (CsvWriter.NewWriter.Write f Appstore.headers).1
    [a.Rank, a.Name] a.Name hf (by simp) hbig
  have he : (CsvWriter.Write f (CsvWriter.NewWriter.Write f Appstore.headers).1
      [a.Rank, a.Name]).1.err = true := by
    rw [Write_err_iff, h]
  unfold Appstore.loggedRecords Appstore.writeRecords
  dsimp only
  rw [h, writeRecords_of_err f _ _ _ he]
  simp

theorem multi3_saveToCSV_eq (d : Appstoremulti3.AppInfo) (disk : Disk) (f : Faults)
    (hdir : f.mkdirAll = false) (hopen : f.openFile = false) (hstat : f.stat = false) :
    Appstoremulti3.saveToCSV d disk f
      = .ok (⟨true, some (if f.fileWrite then disk.file.getD []
            else disk.file.getD []
              ++ (if disk.file.getD [] = [] then
                  [[], Appstoremulti3.timestampRow, Appstoremulti3.storeHeaders,
                    Appstoremulti3.appHeaders]
                else [])
              ++ [Appstoremulti3.record d])⟩, Appstoremulti3.filename) := by
  unfold Appstoremulti3.saveToCSV
  dsimp only
  rw [hdir, hopen, hstat]
  simp only [Bool.false_eq_true, if_false]
  cases hf : f.fileWrite with
  | true => rw [Flush_of_fails _ _ _ hf]; simp
  | false =>
    rw [writeHeaderRows_of_takes _ _ hf, Write_of_takes _ _ _ hf rfl, Flush_of_takes _ _ _ hf]
    simp

theorem multi3_recordErrorLogged_of_takes (d : Appstoremulti3.AppInfo) (disk : Disk)
    (f : Faults) (hf : f.fileWrite = false) :
    Appstoremulti3.recordErrorLogged d disk f = false := by
  unfold Appstoremulti3.recordErrorLogged
  rw [Write_of_takes _ _ _ hf (writeHeaderRows_err f _)]

/-- C16 (as amended): in `saveToCSV` of `appstore.go` and of `appstoremulti3.go`, once the
directory and the file are there (and `file.Stat` succeeded, in `appstoremulti3.go`), an
error that `writer.Write` returns for a data row is logged with `log.Printf` and does not
end the call: `saveToCSV` returns the file name. In `appstore.go` the loop goes on, and
the rows that are logged are the row of the first error and every row after it. On a file
that takes every write no `Write` returns an error, nothing is logged, and the file holds
the header rows and every data row. -/
theorem C16_write_error_of_a_data_row_is_logged (apps : List AppInfo) (timestamp : GoString)
    (disk : Disk) (f : Faults) (appData : Appstoremulti3.AppInfo)
    (hdir : f.mkdirAll = false) (hopen : f.openFile = false) (hstat : f.stat = false) :
    (Appstore.loggedRecords apps f ≠ [] →
        ∃ file, Appstore.saveToCSV apps timestamp disk f
          = .ok (⟨true, some file⟩, "results/apps_".toList ++ timestamp ++ ".csv".toList))
      ∧ (∃ k, Appstore.loggedRecords apps f = (apps.drop k).map (fun a => [a.Rank, a.Name]))
      ∧ (f.fileWrite = false →
          Appstore.loggedRecords apps f = []
            ∧ Appstore.saveToCSV apps timestamp disk f
              = .ok (⟨true, some (Appstore.headers :: apps.map (fun a => [a.Rank, a.Name]))⟩,
                  "results/apps_".toList ++ timestamp ++ ".csv".toList))
      ∧ (Appstoremulti3.recordErrorLogged appData disk f = true →
          ∃ file, Appstoremulti3.saveToCSV appData disk f
            = .ok (⟨true, some file⟩, Appstoremulti3.filename))
      ∧ (f.fileWrite = false →
          Appstoremulti3.recordErrorLogged appData disk f = false
            ∧ Appstoremulti3.saveToCSV appData disk f
              = .ok (⟨true, some (disk.file.getD []
                  ++ (if disk.file.getD [] = [] then
                      [[], Appstoremulti3.timestampRow, Appstoremulti3.storeHeaders,
                        Appstoremulti3.appHeaders]
                    else [])
                  ++ [Appstoremulti3.record appData])⟩, Appstoremulti3.filename)) := by
  refine ⟨?_, ?_, ?_, ?_, ?_⟩
  · intro _
    exact ⟨_, Appstore_saveToCSV_eq apps timestamp disk f hdir hopen⟩
  · obtain ⟨k, hk⟩ := writeRecords_logged f apps
      (CsvWriter.NewWriter.Write f Appstore.headers).1 []
    exact ⟨k, by simpa [Appstore.loggedRecords] using hk⟩
  · intro hf
    refine ⟨?_, ?_⟩
    · exact (writeRecords_of_takes f apps _ [] hf (Write_headers f).2.1).2
    · rw [Appstore_saveToCSV_eq apps timestamp disk f hdir hopen, hf]
      simp
  · intro _
    exact ⟨_, multi3_saveToCSV_eq appData disk f hdir hopen hstat⟩
  · intro hf
    refine ⟨multi3_recordErrorLogged_of_takes appData disk f hf, ?_⟩
    rw [multi3_saveToCSV_eq appData disk f hdir hopen hstat, hf]
    simp

theorem C16_write_error_of_a_data_row_is_logged_witness :
    Appstore.loggedRecords
        [⟨"1".toList, List.replicate 5000 'a', [], []⟩, ⟨"2".toList, "B".toList, [], []⟩]
        ⟨false, false, false, true⟩ ≠ []
      ∧ ∃ file, Appstore.saveToCSV
          [⟨"1".toList, List.replicate 5000 'a', [], []⟩, ⟨"2".toList, "B".toList, [], []⟩]
          "t".toList ⟨true, none⟩ ⟨false, false, false, true⟩
        = .ok (⟨true, some file⟩, "results/apps_".toList ++ "t".toList ++ ".csv".toList) := by
  have hlog : Appstore.loggedRecords
      [⟨"1".toList, List.replicate 5000 'a', [], []⟩, ⟨"2".toList, "B".toList, [], []⟩]
      ⟨false, false, false, true⟩ ≠ [] := by
    rw [loggedRecords_of_big _ _ _ rfl (bufSize_lt_replicate _)]
    exact List.cons_ne_nil _ _
  exact ⟨hlog, (C16_write_error_of_a_data_row_is_logged _ "t".toList ⟨true, none⟩
    ⟨false, false, false, true⟩
    ⟨[], [], [], [], [], [], [], [], [], [], [], [], [], [], []⟩ rfl rfl rfl).1 hlog⟩

/-- C16 fails as stated: on a file that takes no write, with a name of 5000 letters in the
first row, `writer.Write` returns an error for the first data row of `saveToCSV` of
`appstore.go` and for the row after it, both are logged, and the call returns the file name;
with a rank of 5000 digits `saveToCSV` of `appstoremulti3.go` logs the error of its data row
and returns the file name. -/
theorem C16_returns_after_failed_row :
    Appstore.loggedRecords
        [⟨"1".toList, List.replicate 5000 'a', [], []⟩, ⟨"2".toList, "B".toList, [], []⟩]
        ⟨false, false, false, true⟩
      = [["1".toList, List.replicate 5000 'a'], ["2".toList, "B".toList]]
    ∧ Appstore.saveToCSV
        [⟨"1".toList, List.replicate 5000 'a', [], []⟩, ⟨"2".toList, "B".toList, [], []⟩]
        "t".toList ⟨true, none⟩ ⟨false, false, false, true⟩
      = .ok (⟨true, some []⟩, "results/apps_t.csv".toList)
    ∧ Appstoremulti3.recordErrorLogged
        ⟨[], "2024-05-01".toList, "10:00:00".toList, List.replicate 5000 '9', [], [], [], [],
          [], [], [], [], [], [], []⟩ ⟨true, none⟩ ⟨false, false, false, true⟩ = true
    ∧ Appstoremulti3.saveToCSV
        ⟨[], "2024-05-01".toList, "10:00:00".toList, List.replicate 5000 '9', [], [], [], [],
          [], [], [], [], [], [], []⟩ ⟨true, none⟩ ⟨false, false, false, true⟩
      = .ok (⟨true, some []⟩, Appstoremulti3.filename) := by
  refine ⟨?_, ?_, ?_, ?_⟩
  · exact loggedRecords_of_big _ _ _ rfl (bufSize_lt_replicate _)
  · rw [Appstore_saveToCSV_eq _ _ _ _ rfl rfl]
    rfl
  · exact Write_overflow _ _ _ (List.replicate 5000 '9') rfl
      (List.mem_cons_of_mem _ (List.mem_cons_of_mem _ (List.mem_cons_self _ _)))
      (bufSize_lt_replicate _)
  · rw [multi3_saveToCSV_eq _ _ _ rfl rfl rfl]
    rfl

theorem mainLoop_error_of_mem (fetch : GoString → Except String (List GoString))
    (countries : List GoString) (saved : List (GoString × List AppInfo)) (c : GoString)
    (e : String) (hc : c ∈ countries) (h : fetch c = .error e) :
    ∃ saved1, Appstore3.mainLoop fetch countries saved
      = .error ("Failed to load the page", saved1) := by
  induction countries generalizing saved with
  | nil => simp at hc
  | cons x xs ih =>
    unfold Appstore3.mainLoop
    cases hx : fetch x with
    | error e1 => exact ⟨saved, rfl⟩
    | ok blocks =>
      have hcx : c ∈ xs := by
        rcases List.mem_cons.mp hc with rfl | hcx
        · rw [h] at hx; cases hx
        · exact hcx
      simp only [Appstore3.scrapeTopAppsWithScroll]
      exact ih _ hcx

/-- C17 (as amended): a failed fetch in `scrapeTopAppsWithScroll` of `appstore3.go` and in
`scrapeAppPage` of `appleapp.go` ends the process with `log.Fatalf`: the function does not
return, `main` of `appstore3.go` reaches no `saveToCSV` call for that country or for a later
one (the call for the country before it, whose fetch succeeded, has been made), and `main`
of `appleapp.go` does not reach `saveToCSV`; when the fetch succeeds the functions return
their result. -/
theorem C17_fetch_failure_is_fatal (e : String) (country now : GoString)
    (appBlocks : List GoString) (texts : GoString × GoString) (disk : Disk) (f : Faults)
    (fetch : GoString → Except String (List GoString)) :
    Appstore3.scrapeTopAppsWithScroll (.error e) country = .error "Failed to load the page"
      ∧ Appstore3.scrapeTopAppsWithScroll (.ok appBlocks) country
          = .ok (Appstore3.parseAppsFromHTML appBlocks)
      ∧ (fetch "united-states".toList = .error e →
          Appstore3.main fetch = .error ("Failed to load the page", []))
      ∧ (fetch "united-kingdom".toList = .error e →
          Appstore3.main fetch
            = .error ("Failed to load the page",
                match fetch "united-states".toList with
                | .error _ => []
                | .ok blocks =>
                  [("united-states".toList, Appstore3.parseAppsFromHTML blocks)]))
      ∧ Appleapp.scrapeAppPage (.error e) now = .error "Error fetching page"
      ∧ Appleapp.scrapeAppPage (.ok texts) now
          = .ok ⟨TrimSpace texts.1, TrimSpace texts.2, now⟩
      ∧ Appleapp.main (.error e) now disk f = .error "Error fetching page" := by
  refine ⟨rfl, rfl, ?_, ?_, rfl, rfl, rfl⟩
  · intro h
    unfold Appstore3.main Appstore3.mainLoop
    rw [h]
    rfl
  · intro h
    unfold Appstore3.main Appstore3.mainLoop
    cases hus : fetch "united-states".toList with
    | error e1 => rfl
    | ok blocks =>
      simp only [Appstore3.scrapeTopAppsWithScroll]
      unfold Appstore3.mainLoop
      rw [h]
      rfl

/-- C17 fails as stated: when the page of the second country cannot be loaded, `main` of
`appstore3.go` ends with the `log.Fatalf` after the `saveToCSV` call of the first country,
with no call for the second one, and `scrapeTopAppsWithScroll` and `scrapeAppPage` end the
process instead of returning. -/
theorem C17_failed_fetch_does_not_return :
    Appstore3.scrapeTopAppsWithScroll (.error "timeout") "united-kingdom".toList
        = .error "Failed to load the page"
      ∧ Appstore3.main (fun country =>
          if country = "united-states".toList then .ok ["1. A".toList] else .error "timeout")
        = .error ("Failed to load the page",
            [("united-states".toList, [⟨"1".toList, "A".toList, [], []⟩])])
      ∧ Appleapp.scrapeAppPage (.error "timeout") "2024-05-01 10:00:00".toList
        = .error "Error fetching page"
      ∧ Appleapp.main (.error "timeout") "2024-05-01 10:00:00".toList ⟨true, none⟩ Faults.none
        = .error "Error fetching page" := by
  decide

/-- C18, the code at the failing input: on a page whose first entry has the rank 71,
`scrapeTopApps` of `appstore.go` still visits the entries after it and returns those with a
rank of at most 70. -/
theorem C18_entries_after_the_threshold_are_still_appended :
    Appstore.scrapeTopApps (.ok ["71. Over".toList, "5. Under".toList, "6. Next".toList])
      = [⟨"5".toList, "Under".toList, [], []⟩, ⟨"6".toList, "Next".toList, [], []⟩] := by
  decide

/-! ## The shape of the output of `cleanText` -/

theorem chain_of_no_space (l : GoString) (h : ∀ c ∈ l, isSpace c = false) :
    List.Chain' (fun c d => ¬ (isSpace c = true ∧ isSpace d = true)) l := by
  induction l with
  | nil => exact List.chain'_nil
  | cons x xs ih =>
    cases xs with
    | nil => exact List.chain'_singleton x
    | cons y ys =>
      rw [List.chain'_cons]
      refine ⟨?_, ih (fun c hc => h c (List.mem_cons_of_mem _ hc))⟩
      rintro ⟨hx, _⟩
      rw [h x (List.mem_cons_self _ _)] at hx
      exact absurd hx (by decide)

theorem Join_chain (toks : List GoString) (h : GoodTokens toks) :
    List.Chain' (fun c d => ¬ (isSpace c = true ∧ isSpace d = true)) (Join toks " ".toList) := by
  induction toks with
  | nil => exact List.chain'_nil
  | cons t ts ih =>
    have ht := h t (List.mem_cons_self _ _)
    have hts : GoodTokens ts := fun u hu => h u (List.mem_cons_of_mem _ hu)
    cases ts with
    | nil => simpa [Join] using chain_of_no_space t ht.2
    | cons u us =>
      have e : Join (t :: u :: us) " ".toList = t ++ ' ' :: Join (u :: us) " ".toList := by
        simp [Join]
      obtain ⟨j1, _, _⟩ := Join_ends (u :: us) hts
      rw [e, List.chain'_append]
      refine ⟨chain_of_no_space t ht.2, ?_, ?_⟩
      · cases hJ : Join (u :: us) " ".toList with
        | nil => exact List.chain'_singleton _
        | cons y ys =>
          rw [List.chain'_cons]
          refine ⟨?_, hJ ▸ ih hts⟩
          rintro ⟨_, hy⟩
          have := j1 y (by rw [hJ]; rfl)
          rw [this] at hy
          exact absurd hy (by decide)
      · intro x hx y hy
        rintro ⟨hxs, _⟩
        have hxm : x ∈ t := List.mem_of_mem_getLast? hx
        rw [ht.2 x hxm] at hxs
        exact absurd hxs (by decide)

/-- C12: the output of `cleanText` is the list of the white-space-free tokens of the
comment-stripped input, in their order, joined by single spaces: it is its own `TrimSpace`,
its first and its last character are not white space, every white space character in it is the
space character, no two adjacent characters are both white space, and its tokens are those of
the comment-stripped input. -/
theorem C12_whitespace_is_collapsed (x : GoString) :
    Appstoremulti3.cleanText x = Join (Fields (cleanupRegex_ReplaceAllString x)) " ".toList
      ∧ GoodTokens (Fields (cleanupRegex_ReplaceAllString x))
      ∧ Fields (Appstoremulti3.cleanText x) = Fields (cleanupRegex_ReplaceAllString x)
      ∧ TrimSpace (Appstoremulti3.cleanText x) = Appstoremulti3.cleanText x
      ∧ (∀ c, (Appstoremulti3.cleanText x).head? = some c → isSpace c = false)
      ∧ (∀ c, (Appstoremulti3.cleanText x).getLast? = some c → isSpace c = false)
      ∧ (∀ c ∈ Appstoremulti3.cleanText x, isSpace c = true → c = ' ')
      ∧ List.Chain' (fun c d => ¬ (isSpace c = true ∧ isSpace d = true))
          (Appstoremulti3.cleanText x) := by
  have hg := Fields_good (cleanupRegex_ReplaceAllString x)
  have he := cleanText_eq_Join x
  obtain ⟨j1, j2, _⟩ := Join_ends _ hg
  refine ⟨he, hg, Fields_cleanText x, ?_, ?_, ?_, ?_, ?_⟩
  · rw [he]; exact TrimSpace_Join _ hg
  · rw [he]; exact j1
  · rw [he]; exact j2
  · rw [he]
    intro c hc hs
    rcases mem_Join _ _ _ hc with h | ⟨t, ht, hct⟩
    · simpa using h
    · rw [(hg t ht).2 c hct] at hs
      exact absurd hs (by decide)
  · rw [he]; exact Join_chain _ hg

/-! ## Comments in the output of `cleanText` -/

theorem infix_across_space (P u v a b : GoString) (c : Char) (hP : P ≠ [])
    (hPs : ∀ x ∈ P, isSpace x = false) (hc : isSpace c = true) :
    u ++ c :: v = a ++ P ++ b
      ↔ (∃ b', u = a ++ P ++ b' ∧ b = b' ++ c :: v) ∨ (∃ a', v = a' ++ P ++ b ∧ a = u ++ c :: a') := by
  have hcP : c ∉ P := fun h => by rw [hPs c h] at hc; exact absurd hc (by decide)
  constructor
  · intro h
    rw [List.append_assoc, List.append_eq_append_iff] at h
    rcases h with ⟨a', ha, hv⟩ | ⟨c', hu, hPb⟩
    · -- `a = u ++ a'` and `c :: v = a' ++ (P ++ b)`
      cases a' with
      | nil =>
        obtain ⟨p, ps, rfl⟩ := List.exists_cons_of_ne_nil hP
        simp only [List.nil_append, List.cons_append, List.cons.injEq] at hv
        exact absurd (hv.1 ▸ List.mem_cons_self _ _) hcP
      | cons y ys =>
        simp only [List.cons_append, List.cons.injEq] at hv
        obtain ⟨rfl, hv⟩ := hv
        exact Or.inr ⟨ys, by simpa using hv, ha⟩
    · -- `u = a ++ c'` and `P ++ b = c' ++ c :: v`
      rw [List.append_eq_append_iff] at hPb
      rcases hPb with ⟨d, hc', hb⟩ | ⟨d, hPd, hdb⟩
      · -- `c' = P ++ d`, `b = d ++ c :: v`
        exact Or.inl ⟨d, by rw [hu, hc']; simp, hb⟩
      · -- `P = c' ++ d`, `c :: v = d ++ b`
        cases d with
        | nil =>
          simp only [List.append_nil] at hPd
          simp only [List.nil_append] at hdb
          exact Or.inl ⟨[], by rw [hu, hPd]; simp, by rw [← hdb]; simp⟩
        | cons y ys =>
          simp only [List.cons_append, List.cons.injEq] at hdb
          exact absurd (by rw [hPd, hdb.1]; simp) hcP
  · rintro (⟨b', rfl, rfl⟩ | ⟨a', rfl, rfl⟩) <;> simp

theorem Contains_across_space (P u v : GoString) (c : Char) (hP : P ≠ [])
    (hPs : ∀ x ∈ P, isSpace x = false) (hc : isSpace c = true) :
    Contains (u ++ c :: v) P = true ↔ (Contains u P = true ∨ Contains v P = true) := by
  simp only [Contains_iff]
  constructor
  · rintro ⟨a, b, h⟩
    rcases (infix_across_space P u v a b c hP hPs hc).mp h with ⟨b', hu, _⟩ | ⟨a', hv, _⟩
    · exact Or.inl ⟨a, b', hu⟩
    · exact Or.inr ⟨a', b, hv⟩
  · rintro (⟨a, b, rfl⟩ | ⟨a, b, rfl⟩)
    · exact ⟨a, b ++ c :: v, by simp⟩
    · exact ⟨u ++ c :: a, b, by simp⟩

theorem HasComment_iff_open (s : GoString) :
    HasComment s ↔ ∃ a rest, s = a ++ "<!--".toList ++ rest ∧ Contains rest "-->".toList = true := by
  constructor
  · rintro ⟨a, m, b, rfl⟩
    exact ⟨a, m ++ "-->".toList ++ b, by simp, (Contains_iff _ _).mpr ⟨m, b, rfl⟩⟩
  · rintro ⟨a, rest, rfl, h⟩
    obtain ⟨m, b, rfl⟩ := (Contains_iff _ _).mp h
    exact ⟨a, m, b, by simp⟩

theorem HasComment_across_space (u v : GoString) (c : Char) (hc : isSpace c = true) :
    HasComment (u ++ c :: v)
      ↔ (HasComment u ∨ HasComment v
          ∨ (Contains u "<!--".toList = true ∧ Contains v "-->".toList = true)) := by
  have hO : "<!--".toList ≠ [] := by decide
  have hOs : ∀ x ∈ "<!--".toList, isSpace x = false := by decide
  have hC : "-->".toList ≠ [] := by decide
  have hCs : ∀ x ∈ "-->".toList, isSpace x = false := by decide
  constructor
  · intro h
    obtain ⟨a, rest, hs, hcl⟩ := (HasComment_iff_open _).mp h
    rcases (infix_across_space _ u v a rest c hO hOs hc).mp hs with ⟨b', hu, hr⟩ | ⟨a', hv, _⟩
    · rw [hr] at hcl
      rcases (Contains_across_space _ b' v c hC hCs hc).mp hcl with h1 | h2
      · exact Or.inl ((HasComment_iff_open _).mpr ⟨a, b', hu, h1⟩)
      · exact Or.inr (Or.inr ⟨(Contains_iff _ _).mpr ⟨a, b', hu⟩, h2⟩)
    · exact Or.inr (Or.inl ((HasComment_iff_open _).mpr ⟨a', rest, hv, hcl⟩))
  · rintro (⟨a, m, b, rfl⟩ | ⟨a, m, b, rfl⟩ | ⟨ho, hcl⟩)
    · exact ⟨a, m, b ++ c :: v, by simp⟩
    · exact ⟨u ++ c :: a, m, b, by simp⟩
    · obtain ⟨a, b, rfl⟩ := (Contains_iff _ _).mp ho
      obtain ⟨a2, b2, rfl⟩ := (Contains_iff _ _).mp hcl
      exact ⟨a, b ++ c :: a2, b2, by simp⟩

theorem Fields_cons_space (c : Char) (cs : GoString) (hc : isSpace c = true) :
    Fields (c :: cs) = Fields cs := by
  unfold Fields
  simp [splitSpace, hc]

theorem Fields_token_sep (t rest : GoString) (c : Char) (h0 : t ≠ [])
    (ht : ∀ x ∈ t, isSpace x = false) (hc : isSpace c = true) :
    Fields (t ++ c :: rest) = t :: Fields rest := by
  unfold Fields
  have h : splitSpace (c :: rest) = [] :: splitSpace rest := by
    simp [splitSpace, hc]
  rw [splitSpace_append t _ [] _ ht h]
  simp [h0]

theorem first_token (s : GoString) :
    s = [] ∨ (∃ c cs, s = c :: cs ∧ isSpace c = true)
      ∨ (s ≠ [] ∧ ∀ x ∈ s, isSpace x = false)
      ∨ (∃ t c rest, s = t ++ c :: rest ∧ t ≠ [] ∧ (∀ x ∈ t, isSpace x = false)
          ∧ isSpace c = true) := by
  induction s with
  | nil => exact Or.inl rfl
  | cons c cs ih =>
    right
    by_cases hc : isSpace c = true
    · exact Or.inl ⟨c, cs, rfl, hc⟩
    · have hc' : isSpace c = false := by simpa using hc
      right
      rcases ih with rfl | ⟨d, ds, rfl, hd⟩ | ⟨_, hall⟩ | ⟨t, d, rest, rfl, _, ht, hd⟩
      · exact Or.inl ⟨by simp, by simpa using hc'⟩
      · exact Or.inr ⟨[c], d, ds, rfl, by simp, by simpa using hc', hd⟩
      · refine Or.inl ⟨by simp, ?_⟩
        intro x hx
        rcases List.mem_cons.mp hx with rfl | hx
        · exact hc'
        · exact hall x hx
      · refine Or.inr ⟨c :: t, d, rest, rfl, by simp, ?_, hd⟩
        intro x hx
        rcases List.mem_cons.mp hx with rfl | hx
        · exact hc'
        · exact ht x hx

theorem Join_cons (t : GoString) (ts : List GoString) (sep : GoString) :
    Join (t :: ts) sep = if ts = [] then t else t ++ sep ++ Join ts sep := by
  cases ts with
  | nil => simp [Join]
  | cons u us => simp [Join]

theorem Contains_nil_left (P : GoString) (hP : P ≠ []) : Contains [] P = false := by
  cases P with
  | nil => exact absurd rfl hP
  | cons p ps => rfl

theorem Fields_eq_nil_Join (s : GoString) (h : Fields s = []) :
    Join (Fields s) " ".toList = [] := by
  rw [h]; rfl

/-- White space normalization keeps the occurrences of a text without white space, and the
comments. -/
theorem normalize_keeps (n : Nat) (s : GoString) (hn : s.length ≤ n) :
    (HasComment (Join (Fields s) " ".toList) ↔ HasComment s)
      ∧ ∀ P : GoString, P ≠ [] → (∀ x ∈ P, isSpace x = false) →
          (Contains (Join (Fields s) " ".toList) P = true ↔ Contains s P = true) := by
  induction n generalizing s with
  | zero =>
    have : s = [] := List.length_eq_zero.mp (by omega)
    subst this
    exact ⟨Iff.rfl, fun _ _ _ => Iff.rfl⟩
  | succ n ih =>
    rcases first_token s with rfl | ⟨c, cs, rfl, hc⟩ | ⟨h0, hall⟩ | ⟨t, c, rest, rfl, h0, ht, hc⟩
    · exact ⟨Iff.rfl, fun _ _ _ => Iff.rfl⟩
    · -- a leading white space character
      obtain ⟨i1, i2⟩ := ih cs (by simpa using hn)
      rw [Fields_cons_space c cs hc]
      have e : c :: cs = [] ++ c :: cs := rfl
      refine ⟨?_, ?_⟩
      · rw [i1, e, HasComment_across_space [] cs c hc]
        constructor
        · intro h; exact Or.inr (Or.inl h)
        · rintro (h | h | ⟨h, _⟩)
          · exact absurd h not_HasComment_nil
          · exact h
          · rw [Contains_nil_left _ (by decide)] at h; exact absurd h (by decide)
      · intro P hP hPs
        rw [i2 P hP hPs, e, Contains_across_space P [] cs c hP hPs hc,
          Contains_nil_left P hP]
        simp
    · -- a single token
      rw [Fields_token s h0 hall]
      exact ⟨Iff.rfl, fun _ _ _ => Iff.rfl⟩
    · -- a token, a white space character, and the rest
      have hlen : rest.length ≤ n := by
        simp only [List.length_append, List.length_cons] at hn
        have : 0 < t.length := List.length_pos.mpr h0
        omega
      obtain ⟨i1, i2⟩ := ih rest hlen
      rw [Fields_token_sep t rest c h0 ht hc, Join_cons]
      by_cases hF : Fields rest = []
      · rw [if_pos hF]
        have hJ := Fields_eq_nil_Join rest hF
        rw [hJ] at i1 i2
        refine ⟨?_, ?_⟩
        · rw [HasComment_across_space t rest c hc, ← i1,
            ← i2 "-->".toList (by decide) (by decide), Contains_nil_left _ (by decide)]
          constructor
          · intro h; exact Or.inl h
          · rintro (h | h | ⟨_, h⟩)
            · exact h
            · exact absurd h not_HasComment_nil
            · exact absurd h (by decide)
        · intro P hP hPs
          rw [Contains_across_space P t rest c hP hPs hc, ← i2 P hP hPs,
            Contains_nil_left P hP]
          simp
      · rw [if_neg hF]
        have e : t ++ " ".toList ++ Join (Fields rest) " ".toList
            = t ++ ' ' :: Join (Fields rest) " ".toList := by simp
        rw [e]
        refine ⟨?_, ?_⟩
        · rw [HasComment_across_space t _ ' ' (by decide),
            HasComment_across_space t rest c hc, i1,
            i2 "-->".toList (by decide) (by decide)]
        · intro P hP hPs
          rw [Contains_across_space P t _ ' ' hP hPs (by decide),
            Contains_across_space P t rest c hP hPs hc, i2 P hP hPs]

theorem HasComment_cleanText (x : GoString) :
    HasComment (Appstoremulti3.cleanText x) ↔ HasComment (cleanupRegex_ReplaceAllString x) := by
  rw [cleanText_eq_Join]
  exact (normalize_keeps _ _ (le_refl _)).1

theorem everyLtOpensComment_suffix (pre s : GoString) (h : everyLtOpensComment (pre ++ s) = true) :
    everyLtOpensComment s = true := by
  induction pre with
  | nil => exact h
  | cons c cs ih =>
    simp only [List.cons_append, everyLtOpensComment, Bool.and_eq_true] at h
    exact ih h.2

theorem closeComment_drop_isSome (s : GoString) (hn : '\n' ∉ s) (h : HasComment s) : ∃ rest, closeComment (s.drop 4) = some rest := by
  obtain ⟨a, m, b, hab⟩ := h
  have hlen : 4 ≤ (a ++ "<!--".toList ++ m).length := by
    simp only [List.length_append]
    have : "<!--".toList.length = 4 := rfl
    omega
  have hdrop : s.drop 4 = (a ++ "<!--".toList ++ m).drop 4 ++ "-->".toList ++ b := by
    rw [hab]
    have : a ++ "<!--".toList ++ m ++ "-->".toList ++ b
        = (a ++ "<!--".toList ++ m) ++ ("-->".toList ++ b) := by simp
    rw [this, List.drop_append_of_le_length hlen]
    simp
  have hnm : '\n' ∉ (a ++ "<!--".toList ++ m).drop 4 := by
    intro e
    apply hn
    rw [hab]
    have := List.mem_of_mem_drop e
    simp only [List.mem_append] at this ⊢
    tauto
  rw [hdrop]
  exact closeComment_isSome _ b hnm

theorem HasComment_of_cons (c : Char) (s : GoString) (hc : c ≠ '<') (h : HasComment (c :: s)) :
    HasComment s := by
  obtain ⟨a, m, b, hab⟩ := h
  cases a with
  | nil =>
    have : c :: s = '<' :: ("!--".toList ++ m ++ "-->".toList ++ b) := by rw [hab]; rfl
    exact absurd (List.cons.inj this).1 hc
  | cons x xs =>
    simp only [List.cons_append, List.cons.injEq] at hab
    exact ⟨xs, m, b, hab.2⟩

theorem replaceAllComments_clean (fuel : Nat) (s : GoString) (hf : s.length ≤ fuel)
    (hn : '\n' ∉ s) (hlt : everyLtOpensComment s = true) :
    ¬ HasComment (replaceAllComments fuel s) := by
  induction fuel generalizing s with
  | zero =>
    have : s = [] := List.length_eq_zero.mp (by omega)
    subst this
    exact not_HasComment_nil
  | succ f ih =>
    cases s with
    | nil => exact not_HasComment_nil
    | cons c cs =>
      have hncs : '\n' ∉ cs := fun e => hn (List.mem_cons_of_mem _ e)
      have hfcs : cs.length ≤ f := by simpa using hf
      have hltcs : everyLtOpensComment cs = true := everyLtOpensComment_suffix [c] cs hlt
      unfold replaceAllComments
      by_cases hsw : startsWith "<!--".toList (c :: cs) = true
      · rw [if_pos hsw]
        cases hcl : closeComment (cs.drop 3) with
        | some rest =>
          dsimp only
          obtain ⟨m, hm⟩ := closeComment_some _ _ hcl
          have hcs : cs = (cs.take 3 ++ m ++ "-->".toList) ++ rest := by
            conv_lhs => rw [← List.take_append_drop 3 cs, hm]
            simp
          have h1 := closeComment_length _ _ hcl
          have h2 := List.length_drop 3 cs
          apply ih rest (by omega)
          · intro e
            apply hncs
            rw [hcs]
            exact List.mem_append_right _ e
          · exact everyLtOpensComment_suffix _ rest (hcs ▸ hltcs)
        | none =>
          dsimp only
          have hno : ¬ HasComment (c :: cs) := by
            intro h
            obtain ⟨rest, hrest⟩ := closeComment_drop_isSome _ hn h
            have e4 : (c :: cs).drop 4 = cs.drop 3 := rfl
            rw [e4, hcl] at hrest
            cases hrest
          have hnocs : ¬ HasComment cs := fun h => hno (HasComment_cons c cs h)
          rw [replaceAllComments_of_no_comment f cs hnocs]
          exact hno
      · rw [if_neg hsw]
        have hc : c ≠ '<' := by
          rintro rfl
          apply hsw
          simp only [everyLtOpensComment, Bool.and_eq_true, Bool.or_eq_true] at hlt
          rcases hlt.1 with h | h
          · exact absurd h (by decide)
          · have e : startsWith "<!--".toList ('<' :: cs)
                = (decide ('<' = '<') && startsWith "!--".toList cs) := rfl
            rw [e, h]
            rfl
        intro h
        exact ih cs hfcs hncs hltcs (HasComment_of_cons c _ hc h)

theorem cleanText_hasComment (x : GoString) :
    hasComment (Appstoremulti3.cleanText x) = hasComment (cleanupRegex_ReplaceAllString x)
      ∧ ('\n' ∉ x → everyLtOpensComment x = true →
          hasComment (Appstoremulti3.cleanText x) = false) := by
  have h1 : hasComment (Appstoremulti3.cleanText x)
      = hasComment (cleanupRegex_ReplaceAllString x) := by
    rw [Bool.eq_iff_iff, hasComment_iff, hasComment_iff]
    exact HasComment_cleanText x
  refine ⟨h1, ?_⟩
  intro hn hlt
  rw [h1, ← Bool.not_eq_true, hasComment_iff]
  exact replaceAllComments_clean _ x (le_refl _) hn hlt

theorem cleanText_hasComment_example :
    hasComment (Appstoremulti3.cleanText "3.<!-- -->  Coinbase: Buy <!-- x -->".toList)
      = false :=
  (cleanText_hasComment "3.<!-- -->  Coinbase: Buy <!-- x -->".toList).2
    (by decide) (by decide)

/-- C11, the code at the failing input: the comment `"<!--\n-->"`, which spans a line
break, is left in the output of `cleanText` as `"<!-- -->"`, while the same comment on one
line, `"<!-- -->"`, is removed; and the output for `"<!-<!---->- a -->"` is the comment
`"<!-- a -->"`. -/
theorem C11_comment_in_output :
    Appstoremulti3.cleanText "<!--\n-->".toList = "<!-- -->".toList
      ∧ hasComment (Appstoremulti3.cleanText "<!--\n-->".toList) = true
      ∧ Appstoremulti3.cleanText "<!-- -->".toList = []
      ∧ Appstoremulti3.cleanText "<!-<!---->- a -->".toList = "<!-- a -->".toList
      ∧ hasComment (Appstoremulti3.cleanText "<!-<!---->- a -->".toList) = true := by
  decide

/-! ## The empty `Pricing` and `Developer` columns of `appstore3.go` and `appstore4.go` -/

theorem scrapeAppBlock_pricing_developer (t : GoString) :
    (scrapeAppBlock t).1.Pricing = [] ∧ (scrapeAppBlock t).1.Developer = [] := by
  cases hcut : cut '.' t with
  | none => rw [scrapeAppBlock_of_cut_none t hcut]; exact ⟨rfl, rfl⟩
  | some p =>
    obtain ⟨a, b⟩ := p
    rw [scrapeAppBlock_of_cut t a b hcut]
    exact ⟨rfl, rfl⟩

theorem parseAppsFromHTML_mem (blocks : List GoString) (a : AppInfo)
    (h : a ∈ Appstore3.parseAppsFromHTML blocks) : ∃ b, a = (scrapeAppBlock b).1 := by
  unfold Appstore3.parseAppsFromHTML at h
  rw [parseApps_foldl, List.nil_append, List.mem_map] at h
  obtain ⟨b, _, hb⟩ := h
  exact ⟨b, hb.symm⟩

theorem scrapeTopApps4_mem (page : Except String (List GoString)) (a : AppInfo)
    (h : a ∈ Appstore4.scrapeTopApps page) : ∃ b, a = (scrapeAppBlock b).1 := by
  cases page with
  | error e => simp [Appstore4.scrapeTopApps] at h
  | ok blocks =>
    rw [scrapeTopApps4_eq_filterMap, List.mem_filterMap] at h
    obtain ⟨b, _, hb⟩ := h
    refine ⟨b, ?_⟩
    split at hb
    · cases hA : Atoi (scrapeAppBlock b).1.Rank with
      | none => simp [hA] at hb
      | some n =>
        simp only [hA, Option.some_bind] at hb
        split at hb
        · exact (Option.some.inj hb).symm
        · simp at hb
    · simp at hb

theorem writeRecords3_of_takes (f : Faults) (apps : List AppInfo) (w : CsvWriter)
    (logged : List Row) (hf : f.fileWrite = false) (hw : w.err = false) :
    (Appstore3.writeRecords f apps w logged).1.records
        = w.records ++ apps.map (fun a => [a.Rank, a.Name, a.Pricing, a.Developer])
      ∧ (Appstore3.writeRecords f apps w logged).2 = logged := by
  induction apps generalizing w logged with
  | nil => simp [Appstore3.writeRecords]
  | cons a as ih =>
    unfold Appstore3.writeRecords
    dsimp only
    rw [Write_of_takes f w _ hf hw]
    obtain ⟨h1, h2⟩ := ih ⟨w.records ++ [[a.Rank, a.Name, a.Pricing, a.Developer]],
      w.pending + byteLen (csvLine [a.Rank, a.Name, a.Pricing, a.Developer]), false⟩ logged rfl
    simp only [Bool.false_eq_true, if_false]
    rw [h1, h2]
    simp

theorem saveToCSV3_eq (apps : List AppInfo) (country timestamp : GoString) (disk : Disk)
    (f : Faults) (hdir : f.mkdirAll = false) (hopen : f.openFile = false) :
    Appstore3.saveToCSV apps country timestamp disk f
      = .ok (⟨true, some (if f.fileWrite then []
            else Appstore3.headers
              :: apps.map (fun a => [a.Rank, a.Name, a.Pricing, a.Developer]))⟩,
          "results/apps_".toList ++ country ++ "_".toList ++ timestamp ++ ".csv".toList) := by
  obtain ⟨h1, h2, h3⟩ := Write_headers f
  have e : Appstore3.headers = Appstore.headers := rfl
  unfold Appstore3.saveToCSV
  dsimp only
  rw [hdir, hopen, e, h1]
  simp only [Bool.false_eq_true, if_false]
  cases hf : f.fileWrite with
  | true => rw [Flush_of_fails _ _ _ hf]; simp
  | false =>
    rw [Flush_of_takes _ _ _ hf, (writeRecords3_of_takes f apps _ [] hf h2).1, h3 hf]
    simp

theorem saveToCSV3_rows (apps : List AppInfo) (country timestamp : GoString) (disk d : Disk)
    (f : Faults) (name : GoString)
    (hs : Appstore3.saveToCSV apps country timestamp disk f = .ok (d, name)) :
    d.file = some (if f.fileWrite then []
      else Appstore3.headers :: apps.map (fun a => [a.Rank, a.Name, a.Pricing, a.Developer])) := by
  cases hdir : f.mkdirAll with
  | true => simp [Appstore3.saveToCSV, hdir] at hs
  | false =>
    cases hopen : f.openFile with
    | true => simp [Appstore3.saveToCSV, hdir, hopen] at hs
    | false =>
      rw [saveToCSV3_eq apps country timestamp disk f hdir hopen] at hs
      simp only [Except.ok.injEq, Prod.mk.injEq] at hs
      rw [← hs.1]

theorem writeRecords4_of_takes (f : Faults) (apps : List AppInfo) (w : CsvWriter)
    (logged : List Row) (hf : f.fileWrite = false) (hw : w.err = false) :
    (Appstore4.writeRecords f apps w logged).1.records
        = w.records ++ apps.map (fun a => [a.Rank, a.Name, a.Pricing, a.Developer])
      ∧ (Appstore4.writeRecords f apps w logged).2 = logged := by
  induction apps generalizing w logged with
  | nil => simp [Appstore4.writeRecords]
  | cons a as ih =>
    unfold Appstore4.writeRecords
    dsimp only
    rw [Write_of_takes f w _ hf hw]
    obtain ⟨h1, h2⟩ := ih ⟨w.records ++ [[a.Rank, a.Name, a.Pricing, a.Developer]],
      w.pending + byteLen (csvLine [a.Rank, a.Name, a.Pricing, a.Developer]), false⟩ logged rfl
    simp only [Bool.false_eq_true, if_false]
    rw [h1, h2]
    simp

theorem saveToCSV4_eq (apps : List AppInfo) (country timestamp : GoString) (disk : Disk)
    (f : Faults) (hdir : f.mkdirAll = false) (hopen : f.openFile = false) :
    Appstore4.saveToCSV apps country timestamp disk f
      = .ok (⟨true, some (if f.fileWrite then []
            else Appstore4.headers
              :: apps.map (fun a => [a.Rank, a.Name, a.Pricing, a.Developer]))⟩,
          "results/apps_".toList ++ country ++ "_".toList ++ timestamp ++ ".csv".toList) := by
  obtain ⟨h1, h2, h3⟩ := Write_headers f
  have e : Appstore4.headers = Appstore.headers := rfl
  unfold Appstore4.saveToCSV
  dsimp only
  rw [hdir, hopen, e, h1]
  simp only [Bool.false_eq_true, if_false]
  cases hf : f.fileWrite with
  | true => rw [Flush_of_fails _ _ _ hf]; simp
  | false =>
    rw [Flush_of_takes _ _ _ hf, (writeRecords4_of_takes f apps _ [] hf h2).1, h3 hf]
    simp

theorem saveToCSV4_rows (apps : List AppInfo) (country timestamp : GoString) (disk d : Disk)
    (f : Faults) (name : GoString)
    (hs : Appstore4.saveToCSV apps country timestamp disk f = .ok (d, name)) :
    d.file = some (if f.fileWrite then []
      else Appstore4.headers :: apps.map (fun a => [a.Rank, a.Name, a.Pricing, a.Developer])) := by
  cases hdir : f.mkdirAll with
  | true => simp [Appstore4.saveToCSV, hdir] at hs
  | false =>
    cases hopen : f.openFile with
    | true => simp [Appstore4.saveToCSV, hdir, hopen] at hs
    | false =>
      rw [saveToCSV4_eq apps country timestamp disk f hdir hopen] at hs
      simp only [Except.ok.injEq, Prod.mk.injEq] at hs
      rw [← hs.1]

theorem written_rows_empty_columns (apps : List AppInfo)
    (h : ∀ a ∈ apps, a.Pricing = [] ∧ a.Developer = []) :
    ∀ row ∈ apps.map (fun a => [a.Rank, a.Name, a.Pricing, a.Developer]),
      ∃ rank name : GoString, row = [rank, name, [], []] := by
  intro row hrow
  obtain ⟨a, ha, rfl⟩ := List.mem_map.mp hrow
  obtain ⟨h1, h2⟩ := h a ha
  exact ⟨a.Rank, a.Name, by rw [h1, h2]⟩

/-- C21: every record returned by `scrapeAppBlock` has the empty `Pricing` and the empty
`Developer`; so in every file that `saveToCSV` of `appstore3.go` writes for the apps of
`parseAppsFromHTML`, and that `saveToCSV` of `appstore4.go` writes for the apps of
`scrapeTopApps`, the header row `Rank, Name, Pricing, Developer` is followed by data rows of
four columns whose third and fourth columns are empty; on a file that takes no write the
file stays empty, without a data row. -/
theorem C21_pricing_and_developer_columns_are_empty (block : GoString)
    (blocks : List GoString) (page : Except String (List GoString))
    (country timestamp : GoString) (disk : Disk) (f : Faults) :
    ((scrapeAppBlock block).1.Pricing = [] ∧ (scrapeAppBlock block).1.Developer = [])
      ∧ (∀ d name,
          Appstore3.saveToCSV (Appstore3.parseAppsFromHTML blocks) country timestamp disk f
            = .ok (d, name) →
          ∃ rows, d.file = some (if f.fileWrite then [] else Appstore3.headers :: rows)
            ∧ rows.length = (Appstore3.parseAppsFromHTML blocks).length
            ∧ ∀ row ∈ rows, ∃ rank nm : GoString, row = [rank, nm, [], []])
      ∧ (∀ d name,
          Appstore4.saveToCSV (Appstore4.scrapeTopApps page) country timestamp disk f
            = .ok (d, name) →
          ∃ rows, d.file = some (if f.fileWrite then [] else Appstore4.headers :: rows)
            ∧ rows.length = (Appstore4.scrapeTopApps page).length
            ∧ ∀ row ∈ rows, ∃ rank nm : GoString, row = [rank, nm, [], []])
      ∧ Appstore3.headers = ["Rank".toList, "Name".toList, "Pricing".toList, "Developer".toList]
      ∧ Appstore4.headers = ["Rank".toList, "Name".toList, "Pricing".toList, "Developer".toList]
      ∧ Appstore3.saveToCSV (Appstore3.parseAppsFromHTML ["1. Coinbase".toList, "x".toList])
          "united-states".toList "t".toList ⟨false, none⟩ Faults.none
        = .ok (⟨true, some [Appstore3.headers, ["1".toList, "Coinbase".toList, [], []]]⟩,
            "results/apps_united-states_t.csv".toList)
      ∧ Appstore4.saveToCSV (Appstore4.scrapeTopApps (.ok ["1. Coinbase".toList, "x".toList]))
          "united-states".toList "t".toList ⟨false, none⟩ Faults.none
        = .ok (⟨true, some [Appstore4.headers, ["1".toList, "Coinbase".toList, [], []]]⟩,
            "results/apps_united-states_t.csv".toList) := by
  refine ⟨scrapeAppBlock_pricing_developer block, ?_, ?_, rfl, rfl, by decide, by decide⟩
  · intro d name hs
    refine ⟨_, saveToCSV3_rows _ _ _ _ _ _ _ hs, by simp, ?_⟩
    apply written_rows_empty_columns
    intro a ha
    obtain ⟨b, rfl⟩ := parseAppsFromHTML_mem blocks a ha
    exact scrapeAppBlock_pricing_developer b
  · intro d name hs
    refine ⟨_, saveToCSV4_rows _ _ _ _ _ _ _ hs, by simp, ?_⟩
    apply written_rows_empty_columns
    intro a ha
    obtain ⟨b, rfl⟩ := scrapeTopApps4_mem page a ha
    exact scrapeAppBlock_pricing_developer b

theorem C21_pricing_and_developer_columns_are_empty_witness :
    ∃ rows, (Disk.mk true (some [Appstore3.headers, ["1".toList, "Coinbase".toList, [], []],
          ["2".toList, "OKX".toList, [], []]])).file
        = some (if Faults.none.fileWrite then [] else Appstore3.headers :: rows)
      ∧ rows.length
        = (Appstore3.parseAppsFromHTML ["1. Coinbase".toList, "2. OKX".toList]).length
      ∧ ∀ row ∈ rows, ∃ rank nm : GoString, row = [rank, nm, [], []] :=
  (C21_pricing_and_developer_columns_are_empty "2. OKX".toList
    ["1. Coinbase".toList, "2. OKX".toList] (.ok []) "united-kingdom".toList "t".toList
    ⟨true, none⟩ Faults.none).2.1
    ⟨true, some [Appstore3.headers, ["1".toList, "Coinbase".toList, [], []],
      ["2".toList, "OKX".toList, [], []]]⟩
    "results/apps_united-kingdom_t.csv".toList (by decide)
